import Mathlib

/-! # 6pm-js/emit: a shallow embedding of `lib/emit.js`

The emitter keeps its listeners in a hidden `EVENTS` object (an instance of the
empty constructor function `EventSet`) and the number of channels in a hidden
`COUNT` number.  An emitter starts without either (`Emitter.lazy`) and gets both
from `init` on the first registration (`Emitter.fast`).

JavaScript values are modelled only as far as the code inspects them:

* channel keys are strings or symbols (`Key`);
* a context is any value (`Val`); an omitted argument reads as `undefined`;
* a callback is a function, identified by a number and compared by identity;
* what `this[EVENTS][event]` can evaluate to is a `Handler`: a `Listener`
  record, an array, or a value found on the prototype chain of the event set
  (`EventSet.prototype`, then `Object.prototype`).

`FastEmit.emit` takes the listeners as inert: they do not call back into the
emitter, and whether a listener throws is a parameter (`throws`).  Listeners
that call back are run by `Machine.exec`, a machine with fuel whose listeners
have bodies made of method calls; with empty bodies it agrees with
`FastEmit.emit` (`emitRun_inert`).
-/

namespace EmitJs

/-! ## Values -/

/-- Channel key: a string, or a symbol identified by a number (two symbols with
the same description are two different numbers). -/
inductive Key where
  | str (s : String)
  | sym (id : Nat)
  deriving DecidableEq, Repr

/-- JavaScript values, as far as `emit.js` tells them apart.  `self` is the
emitter instance itself (`this` inside its methods); `fn` and `obj` are
functions and other objects, compared by identity; `num` covers the integer
numbers and `nan` is `NaN`. -/
inductive Val where
  | undefined
  | null
  | bool (b : Bool)
  | num (n : Int)
  | nan
  | str (s : String)
  | fn (id : Nat)
  | obj (id : Nat)
  | self
  deriving DecidableEq, Repr

/-- Truthiness of a value (`ToBoolean`): what `context || this` and `!event` test. -/
def Val.truthy : Val → Bool
  | .undefined => false
  | .null => false
  | .bool b => b
  | .num n => n != 0
  | .nan => false
  | .str s => s != ""
  | .fn _ => true
  | .obj _ => true
  | .self => true

/-- Strict equality `a === b`: identity of values, except that `NaN` differs
from itself. -/
def Val.strictEq (a b : Val) : Bool :=
  a != .nan && a == b

/-- Wrapper for a single listener: `class Listener`, with `listener` the
callback (a function), `context` the receiver and `once` the flag. -/
structure Listener where
  listener : Nat
  context : Val
  once : Bool
  deriving DecidableEq, Repr

/-- Element of a listener array.  Besides `Listener` records an array can hold
the value that was found in the slot when the array was made
(`[ handler, new Listener(...) ]`): a built-in function whose `length` is 0,
`EventSet.prototype`, or an empty array. -/
inductive Item where
  | record (l : Listener)
  | fn (arity : Nat)
  | protoObj
  | emptyArr
  deriving DecidableEq, Repr

/-- Value of `this[EVENTS][event]` when it is not `undefined`: a `Listener`
record, an array of items, a built-in function with `length = arity` (inherited
from the prototype chain), or `EventSet.prototype` (what the inherited
`__proto__` accessor returns). -/
inductive Handler where
  | record (l : Listener)
  | arr (items : List Item)
  | fn (arity : Nat)
  | protoObj
  deriving DecidableEq, Repr

/-- Own properties of the `EVENTS` object, in order of creation. -/
abbrev EventSet := List (Key × Handler)

/-- Where the embedding of a method stops.  `typeError`: the JavaScript code
throws a `TypeError`.  `protoReplaced`: the code assigned to the property
`__proto__`; in JavaScript that call returns, the inherited setter having made
the assigned value the prototype of the event set.  The embedding has
no state for an event set with a replaced prototype chain, so it stops there:
`protoReplaced` marks a call that is outside the embedding, not a call that
throws, and a statement about calls that return is stated for keys other than
`__proto__`. -/
inductive Fault where
  | typeError
  | protoReplaced
  deriving DecidableEq, Repr

/-- State after `init`: the `EVENTS` object and the `COUNT` number. -/
structure Fast where
  events : EventSet
  count : Int
  deriving DecidableEq, Repr

/-- Emitter state: `lazy` has no `EVENTS` property yet (every method is the one
of `class Emit`); `fast` has been through `init` (`emit`, `on`, `off`, `once`,
`addListener`, `removeListener` are those of `class FastEmit`). -/
inductive Emitter where
  | lazy
  | fast (s : Fast)
  deriving DecidableEq, Repr

/-! ## Property access on the event set -/

/-- Properties that `new EventSet()` inherits: `constructor` from
`EventSet.prototype` (the function `EventSet`, of length 0) and the members of
`Object.prototype`, each with the `length` of the built-in function. -/
def inheritedTable : List (String × Handler) :=
  [ ("constructor", .fn 0),
    ("toString", .fn 0),
    ("toLocaleString", .fn 0),
    ("valueOf", .fn 0),
    ("hasOwnProperty", .fn 1),
    ("isPrototypeOf", .fn 1),
    ("propertyIsEnumerable", .fn 1),
    ("__defineGetter__", .fn 2),
    ("__defineSetter__", .fn 2),
    ("__lookupGetter__", .fn 1),
    ("__lookupSetter__", .fn 1),
    ("__proto__", .protoObj) ]

/-- Look a string up in a table of string-keyed properties. -/
def lookupStr : List (String × Handler) → String → Option Handler
  | [], _ => none
  | (n, h) :: rest, s => if s = n then some h else lookupStr rest s

/-- Value of an inherited property, `none` when the prototype chain has no such
property.  No symbol-keyed property is inherited. -/
def inherited : Key → Option Handler
  | .str s => lookupStr inheritedTable s
  | .sym _ => none

/-- Own property lookup. -/
def own : EventSet → Key → Option Handler
  | [], _ => none
  | (k, h) :: rest, key => if key = k then some h else own rest key

/-- Property read `events[key]`: the own property, else the inherited one, else
`undefined` (`none`). -/
def get (events : EventSet) (key : Key) : Option Handler :=
  match own events key with
  | some h => some h
  | none => inherited key

/-- Store a value in an own property: an existing property keeps its place, a
new one goes last. -/
def put : EventSet → Key → Handler → EventSet
  | [], key, h => [(key, h)]
  | (k, v) :: rest, key, h => if key = k then (k, h) :: rest else (k, v) :: put rest key h

/-- Property write `events[key] = h`, for every key but `__proto__`.  Writing
`__proto__` runs the inherited setter instead of creating an own property: the
write returns in JavaScript, with the prototype of the event set replaced, and
is outside the embedding (`Fault.protoReplaced`). -/
def set (events : EventSet) (key : Key) (h : Handler) : Except Fault EventSet :=
  if key = .str "__proto__" then .error .protoReplaced else .ok (put events key h)

/-- Property removal `delete events[key]`: drops the own property, if any. -/
def del : EventSet → Key → EventSet
  | [], _ => []
  | (k, v) :: rest, key => if key = k then rest else (k, v) :: del rest key

/-! ## Duck typing of handlers -/

/-- Value of `handler.listener` when truthy: only a `Listener` record has the
property. -/
def Handler.listener? : Handler → Option Listener
  | .record l => some l
  | _ => none

/-- Value of `handler.length`: `undefined` for a record and for
`EventSet.prototype`. -/
def Handler.length : Handler → Val
  | .record _ => .undefined
  | .arr items => .num items.length
  | .fn arity => .num arity
  | .protoObj => .undefined

/-- Elements `handler[0] .. handler[handler.length - 1]` that a loop
`for (index = 0; index < handler.length; index++)` visits; `none` is
`undefined` (a function has a `length` but no indexed elements, and
`index < undefined` is false). -/
def Handler.elems : Handler → List (Option Item)
  | .record _ => []
  | .arr items => items.map some
  | .fn arity => List.replicate arity none
  | .protoObj => []

/-- A handler as an element of a new array.  Only a handler with a falsy
`length` is wrapped, so a wrapped array is empty. -/
def Handler.toItem : Handler → Item
  | .record l => .record l
  | .arr _ => .emptyArr
  | .fn arity => .fn arity
  | .protoObj => .protoObj

/-- An array element as a handler (`events[event] = remainder[0]`). -/
def Item.toHandler : Item → Handler
  | .record l => .record l
  | .fn arity => .fn arity
  | .protoObj => .protoObj
  | .emptyArr => .arr []

/-- Value of `instance.listener` for an array element: `undefined` unless it is
a record. -/
def Item.listener : Item → Val
  | .record l => .fn l.listener
  | _ => .undefined

/-- Method call `handler.push(x)`: only an array has `push`. -/
def Handler.push (h : Handler) (x : Item) : Except Fault Handler :=
  match h with
  | .arr items => .ok (.arr (items ++ [x]))
  | _ => .error .typeError

/-- Method call `handler.unshift(x)`: only an array has `unshift`. -/
def Handler.unshift (h : Handler) (x : Item) : Except Fault Handler :=
  match h with
  | .arr items => .ok (.arr (x :: items))
  | _ => .error .typeError

/-! ## `class FastEmit` -/

/-- The test `instance.listener === listener && (context === undefined ||
instance.context === context) && (once === undefined || instance.once)` on a
`Listener` record, for a callback `listener`. -/
def Listener.matches (l : Listener) (listener : Nat) (context once : Val) : Bool :=
  l.listener == listener
    && (context == .undefined || l.context.strictEq context)
    && (once == .undefined || l.once)

/-- The same test on an array element.  `listener` is `none` once the loop has
set it to `null`; an element that is not a record has no `listener` property,
and `undefined` is neither a function nor `null`. -/
def Item.matches (x : Item) (listener : Option Nat) (context once : Val) : Bool :=
  match x, listener with
  | .record l, some f => l.matches f context once
  | _, _ => false

/-- The loop of `removeListener` over `handler[0 .. length - 1]`: the first
matching element is left out and `listener` becomes `null`; every other element
goes to `remainder`.  Reading `instance.listener` of an `undefined` element
throws. -/
def FastEmit.removeScan (context once : Val) :
    Option Nat → List (Option Item) → Except Fault (List Item)
  | _, [] => .ok []
  | _, none :: _ => .error .typeError
  | listener, some x :: rest =>
    if x.matches listener context once then
      FastEmit.removeScan context once none rest
    else
      (FastEmit.removeScan context once listener rest).map (fun remainder => x :: remainder)

/-- Method `FastEmit.removeListener(event, listener, context, once)`. -/
def FastEmit.removeListener (s : Fast) (event : Key) (listener : Nat) (context once : Val) :
    Except Fault Fast :=
  match get s.events event with
  | none => .ok s
  | some handler =>
    match handler.listener? with
    | some l =>
      -- Single listener path.
      if l.matches listener context once then
        if s.count - 1 = 0 then
          .ok { events := [], count := s.count - 1 }
        else
          .ok { events := del s.events event, count := s.count - 1 }
      else
        .ok s
    | none =>
      -- Multiple listener path.
      match FastEmit.removeScan context once (some listener) handler.elems with
      | .error x => .error x
      | .ok remainder =>
        match remainder with
        | [x] => (set s.events event x.toHandler).map (fun events => { s with events := events })
        | _ => (set s.events event (.arr remainder)).map (fun events => { s with events := events })

/-- Method `FastEmit.addListener(event, listener, context)`. -/
def FastEmit.addListener (s : Fast) (event : Key) (listener : Nat) (context : Val) :
    Except Fault Fast :=
  let context := if context = .undefined then Val.self else context
  match get s.events event with
  | none =>
    (set s.events event (.record ⟨listener, context, false⟩)).map
      (fun events => { events := events, count := s.count + 1 })
  | some handler =>
    if handler.length.truthy then
      (handler.push (.record ⟨listener, context, false⟩)).map
        (fun handler => { s with events := put s.events event handler })
    else
      (set s.events event (.arr [handler.toItem, .record ⟨listener, context, false⟩])).map
        (fun events => { s with events := events })

/-- Method `FastEmit.once(event, listener, context)`; the context is
`context || this`. -/
def FastEmit.once (s : Fast) (event : Key) (listener : Nat) (context : Val) :
    Except Fault Fast :=
  let context := if context.truthy then context else Val.self
  match get s.events event with
  | none =>
    (set s.events event (.record ⟨listener, context, true⟩)).map
      (fun events => { events := events, count := s.count + 1 })
  | some handler =>
    if handler.length.truthy then
      (handler.push (.record ⟨listener, context, true⟩)).map
        (fun handler => { s with events := put s.events event handler })
    else
      (set s.events event (.arr [handler.toItem, .record ⟨listener, context, true⟩])).map
        (fun events => { s with events := events })

/-- One invocation of a callback: `listener.call(receiver, ...args)`. -/
structure Call where
  listener : Nat
  receiver : Val
  args : List Val
  deriving DecidableEq, Repr

/-- How a call of `emit` ends: it returns a boolean, a listener throws (the
error leaves `emit`), or the code of `emit` itself fails. -/
inductive Outcome where
  | returned (b : Bool)
  | threw (listener : Nat)
  | failed (x : Fault)
  deriving DecidableEq, Repr

/-- Result of `FastEmit.emit`: the state left behind, the invocations made, in
order, and how the call ended. -/
structure EmitResult where
  state : Fast
  calls : List Call
  outcome : Outcome
  deriving DecidableEq, Repr

/-- The slow path copy `args[ pos - 1 ] = arguments[ pos ]` for
`pos = 1 .. length - 1` (`arguments[ pos ]` is `args[ pos - 1 ]` here). -/
def FastEmit.copyArgs (args : List Val) : List Val :=
  (List.range args.length).map (fun index => args.getD index .undefined)

/-- Arguments a listener is called with: `switch (length)` hands over none,
`a`, `a, b` or `a, b, c` for up to three arguments and the copied array
otherwise. -/
def FastEmit.passArgs (args : List Val) : List Val :=
  match args with
  | [] => []
  | [a] => [a]
  | [a, b] => [a, b]
  | [a, b, c] => [a, b, c]
  | _ => FastEmit.copyArgs args

/-- The loop of the multiple listener path over `handler[0 .. length - 1]`, on
the array read when `emit` started; `s` is the live state.  An element that is
`undefined` or has no `listener` property makes the call expression throw. -/
def FastEmit.emitLoop (throws : Nat → Bool) (event : Key) (args : List Val) :
    List (Option Item) → Fast → EmitResult
  | [], s => { state := s, calls := [], outcome := .returned true }
  | some (.record l) :: rest, s =>
    let call : Call := ⟨l.listener, l.context, FastEmit.passArgs args⟩
    if throws l.listener then
      { state := s, calls := [call], outcome := .threw l.listener }
    else if l.once then
      -- Remove `once` only listeners after emission.
      match FastEmit.removeListener s event l.listener l.context (.bool true) with
      | .error x => { state := s, calls := [call], outcome := .failed x }
      | .ok s1 =>
        let r := FastEmit.emitLoop throws event args rest s1
        { r with calls := call :: r.calls }
    else
      let r := FastEmit.emitLoop throws event args rest s
      { r with calls := call :: r.calls }
  | _ :: _, s => { state := s, calls := [], outcome := .failed .typeError }

/-- Method `FastEmit.emit(event, ...args)`. -/
def FastEmit.emit (throws : Nat → Bool) (s : Fast) (event : Key) (args : List Val) :
    EmitResult :=
  match get s.events event with
  | none => { state := s, calls := [], outcome := .returned false }
  | some handler =>
    match handler.listener? with
    | some l =>
      -- Single listener path; `once` listener removal first.
      let removed : Except Fault Fast :=
        if l.once then FastEmit.removeListener s event l.listener .undefined (.bool true)
        else .ok s
      match removed with
      | .error x => { state := s, calls := [], outcome := .failed x }
      | .ok s1 =>
        { state := s1,
          calls := [⟨l.listener, l.context, FastEmit.passArgs args⟩],
          outcome := if throws l.listener then .threw l.listener else .returned true }
    | none =>
      -- Multiple listener path.
      FastEmit.emitLoop throws event args handler.elems s

/-! ## `init` and `class Emit` -/

/-- Function `init(target)`: give the target an empty event set and a zero
count unless it has them already. -/
def init : Emitter → Fast
  | .lazy => { events := [], count := 0 }
  | .fast s => s

/-- Method `Emit.emit()`: returns false. -/
def Emit.emit (e : Emitter) : Emitter × Bool := (e, false)

/-- Method `Emit.removeListener()`: returns `this`. -/
def Emit.removeListener (e : Emitter) : Emitter := e

/-- Method `Emit.off()`: returns `this`. -/
def Emit.off (e : Emitter) : Emitter := e

/-- Method `Emit.on(event, listener, context)`: `init(this)`, then the `on` that
`init` installed, which is `FastEmit.addListener`. -/
def Emit.on (e : Emitter) (event : Key) (listener : Nat) (context : Val) :
    Except Fault Emitter :=
  (FastEmit.addListener (init e) event listener context).map .fast

/-- Method `Emit.addListener(event, listener, context)`: `this.on(...)`. -/
def Emit.addListener (e : Emitter) (event : Key) (listener : Nat) (context : Val) :
    Except Fault Emitter :=
  Emit.on e event listener context

/-- Method `Emit.once(event, listener, context)`: `init(this)`, then the `once`
that `init` installed, which is `FastEmit.once`. -/
def Emit.once (e : Emitter) (event : Key) (listener : Nat) (context : Val) :
    Except Fault Emitter :=
  (FastEmit.once (init e) event listener context).map .fast

/-- Method `Emit.prependListener(event, listener, context)`. -/
def Emit.prependListener (e : Emitter) (event : Key) (listener : Nat) (context : Val) :
    Except Fault Emitter :=
  let s := init e
  let context := if context = .undefined then Val.self else context
  match get s.events event with
  | none =>
    (set s.events event (.record ⟨listener, context, false⟩)).map
      (fun events => .fast { events := events, count := s.count + 1 })
  | some handler =>
    if handler.length.truthy then
      (handler.unshift (.record ⟨listener, context, false⟩)).map
        (fun handler => .fast { s with events := put s.events event handler })
    else
      (set s.events event (.arr [.record ⟨listener, context, false⟩, handler.toItem])).map
        (fun events => .fast { s with events := events })

/-- Method `Emit.prependOnceListener(event, listener, context)`; the context is
`context || this`. -/
def Emit.prependOnceListener (e : Emitter) (event : Key) (listener : Nat) (context : Val) :
    Except Fault Emitter :=
  let s := init e
  let context := if context.truthy then context else Val.self
  match get s.events event with
  | none =>
    (set s.events event (.record ⟨listener, context, true⟩)).map
      (fun events => .fast { events := events, count := s.count + 1 })
  | some handler =>
    if handler.length.truthy then
      (handler.unshift (.record ⟨listener, context, true⟩)).map
        (fun handler => .fast { s with events := put s.events event handler })
    else
      (set s.events event (.arr [.record ⟨listener, context, true⟩, handler.toItem])).map
        (fun events => .fast { s with events := events })

/-- Method `Emit.listenerCount(event)`: 0 without an event set or a handler, 1
for a record, else `handler.length`. -/
def Emit.listenerCount (e : Emitter) (event : Key) : Val :=
  match e with
  | .lazy => .num 0
  | .fast s =>
    match get s.events event with
    | none => .num 0
    | some handler =>
      match handler.listener? with
      | some _ => .num 1
      | none => handler.length

/-- Method `Emit.listeners(event)`: only an array has `map`. -/
def Emit.listeners (e : Emitter) (event : Key) : Except Fault (List Val) :=
  match e with
  | .lazy => .ok []
  | .fast s =>
    match get s.events event with
    | none => .ok []
    | some handler =>
      match handler with
      | .record l => .ok [.fn l.listener]
      | .arr items => .ok (items.map Item.listener)
      | _ => .error .typeError

/-- Truthiness of a channel key: every symbol and every string but the empty
one. -/
def Key.truthy : Key → Bool
  | .str s => s != ""
  | .sym _ => true

/-- Method `Emit.removeAllListeners(event)`; `none` is an omitted argument.
The test `!event` also holds for the empty string. -/
def Emit.removeAllListeners (e : Emitter) (event : Option Key) : Emitter :=
  let resetAll : Emitter :=
    match e with
    | .lazy => e
    | .fast s => .fast { s with events := [] }
  match event with
  | none => resetAll
  | some key =>
    if !key.truthy then resetAll
    else
      match e with
      | .lazy => e
      | .fast s =>
        match get s.events key with
        | none => e
        | some _ =>
          if s.count - 1 = 0 then
            .fast { events := [], count := s.count - 1 }
          else
            .fast { events := del s.events key, count := s.count - 1 }

/-- Value of a string of decimal digits, continuing from `acc`; `none` when a
character is not a digit. -/
def digitsValue : List Char → Nat → Option Nat
  | [], acc => some acc
  | c :: cs, acc =>
    if c.isDigit then digitsValue cs (10 * acc + (c.toNat - 48)) else none

/-- The array index a key stands for, if any: the key is the canonical decimal
string of a number below `2^32 - 1` (digits only, no leading zero unless the
string is `0`).  No symbol is an array index. -/
def arrayIndex? : Key → Option Nat
  | .sym _ => none
  | .str s =>
    match s.data with
    | [] => none
    | [c] => digitsValue [c] 0
    | c :: cs =>
      if c = '0' then none
      else (digitsValue (c :: cs) 0).bind (fun n => if n < 4294967295 then some n else none)

/-- Insert a key with its index into a list sorted by index. -/
def insertIndexed (x : Nat × Key) : List (Nat × Key) → List (Nat × Key)
  | [] => [x]
  | y :: ys => if x.1 ≤ y.1 then x :: y :: ys else y :: insertIndexed x ys

/-- Sort keys with their indices in ascending order of index. -/
def sortIndexed : List (Nat × Key) → List (Nat × Key)
  | [] => []
  | x :: xs => insertIndexed x (sortIndexed xs)

/-- The keys that are array indices, with their index. -/
def indexed (keys : List Key) : List (Nat × Key) :=
  keys.filterMap (fun k => (arrayIndex? k).map (fun n => (n, k)))

/-- Whether a key is a symbol. -/
def Key.isSymbol : Key → Bool
  | .sym _ => true
  | .str _ => false

/-- Whether a key is a string that is not an array index. -/
def Key.isName (k : Key) : Bool :=
  !k.isSymbol && (arrayIndex? k).isNone

/-- Function `Object.keys(events)`: the string keys, array indices first in
ascending numeric order, then the others in order of creation. -/
def objectKeys (events : EventSet) : List Key :=
  (sortIndexed (indexed (events.map Prod.fst))).map Prod.snd
    ++ (events.map Prod.fst).filter Key.isName

/-- Function `Object.getOwnPropertySymbols(events)`: the symbol keys in order
of creation. -/
def ownPropertySymbols (events : EventSet) : List Key :=
  (events.map Prod.fst).filter Key.isSymbol

/-- Method `Emit.eventNames()`. -/
def Emit.eventNames (e : Emitter) : List Key :=
  match e with
  | .lazy => []
  | .fast s => objectKeys s.events ++ ownPropertySymbols s.events

/-! ## Method calls on an emitter

A call `emitter.m(...)` runs the own property that `init` installed when there
is one (`emit`, `on`, `off`, `once`, `addListener`, `removeListener`), else the
method of `class Emit`. -/

/-- Call `emitter.on(event, listener, context)`. -/
def Emitter.on (e : Emitter) (event : Key) (listener : Nat) (context : Val) :
    Except Fault Emitter :=
  match e with
  | .lazy => Emit.on e event listener context
  | .fast s => (FastEmit.addListener s event listener context).map .fast

/-- Call `emitter.addListener(event, listener, context)`. -/
def Emitter.addListener (e : Emitter) (event : Key) (listener : Nat) (context : Val) :
    Except Fault Emitter :=
  match e with
  | .lazy => Emit.addListener e event listener context
  | .fast s => (FastEmit.addListener s event listener context).map .fast

/-- Call `emitter.once(event, listener, context)`. -/
def Emitter.once (e : Emitter) (event : Key) (listener : Nat) (context : Val) :
    Except Fault Emitter :=
  match e with
  | .lazy => Emit.once e event listener context
  | .fast s => (FastEmit.once s event listener context).map .fast

/-- Call `emitter.prependListener(event, listener, context)`. -/
def Emitter.prependListener (e : Emitter) (event : Key) (listener : Nat) (context : Val) :
    Except Fault Emitter :=
  Emit.prependListener e event listener context

/-- Call `emitter.prependOnceListener(event, listener, context)`. -/
def Emitter.prependOnceListener (e : Emitter) (event : Key) (listener : Nat)
    (context : Val) : Except Fault Emitter :=
  Emit.prependOnceListener e event listener context

/-- Call `emitter.removeListener(event, listener, context, once)`. -/
def Emitter.removeListener (e : Emitter) (event : Key) (listener : Nat)
    (context once : Val) : Except Fault Emitter :=
  match e with
  | .lazy => .ok (Emit.removeListener e)
  | .fast s => (FastEmit.removeListener s event listener context once).map .fast

/-- Call `emitter.off(event, listener, context, once)`. -/
def Emitter.off (e : Emitter) (event : Key) (listener : Nat) (context once : Val) :
    Except Fault Emitter :=
  match e with
  | .lazy => .ok (Emit.off e)
  | .fast s => (FastEmit.removeListener s event listener context once).map .fast

/-- Result of a call `emitter.emit(event, ...args)`. -/
structure Emitted where
  state : Emitter
  calls : List Call
  outcome : Outcome
  deriving DecidableEq, Repr

/-- Call `emitter.emit(event, ...args)`. -/
def Emitter.emit (throws : Nat → Bool) (e : Emitter) (event : Key) (args : List Val) :
    Emitted :=
  match e with
  | .lazy => { state := (Emit.emit e).1, calls := [], outcome := .returned (Emit.emit e).2 }
  | .fast s =>
    let r := FastEmit.emit throws s event args
    { state := .fast r.state, calls := r.calls, outcome := r.outcome }

/-- Call `emitter.listenerCount(event)`. -/
def Emitter.listenerCount (e : Emitter) (event : Key) : Val :=
  Emit.listenerCount e event

/-- Call `emitter.listeners(event)`. -/
def Emitter.listeners (e : Emitter) (event : Key) : Except Fault (List Val) :=
  Emit.listeners e event

/-- Call `emitter.removeAllListeners(event)`. -/
def Emitter.removeAllListeners (e : Emitter) (event : Option Key) : Emitter :=
  Emit.removeAllListeners e event

/-- Call `emitter.eventNames()`. -/
def Emitter.eventNames (e : Emitter) : List Key :=
  Emit.eventNames e

/-! ## Reading a state: the records of a channel -/

/-- The `Listener` record in an array element, if it is one. -/
def Item.record? : Item → Option Listener
  | .record l => some l
  | _ => none

/-- The `Listener` records a handler holds, in order. -/
def Handler.records : Handler → List Listener
  | .record l => [l]
  | .arr items => items.filterMap Item.record?
  | _ => []

/-- The `Listener` records found under `this[EVENTS][event]`, in order. -/
def Fast.records (s : Fast) (event : Key) : List Listener :=
  match get s.events event with
  | none => []
  | some handler => handler.records

/-- The `Listener` records registered on a channel, in order; none before
`init`. -/
def Emitter.records (e : Emitter) (event : Key) : List Listener :=
  match e with
  | .lazy => []
  | .fast s => s.records event

/-- The invocation `emit` makes for a record: its callback, on its context,
with the arguments of the emission. -/
def Listener.call (args : List Val) (l : Listener) : Call :=
  { listener := l.listener, receiver := l.context, args := args }

/-- Context stored by `addListener` and `prependListener`:
`if (context === undefined) { context = this; }`. -/
def contextOrThis (context : Val) : Val :=
  if context = .undefined then .self else context

/-- Context stored by `once` and `prependOnceListener`: `context || this`. -/
def truthyContextOrThis (context : Val) : Val :=
  if context.truthy then context else .self

/-- The shape the four registration methods share: the record goes into an
empty slot, joins the end (or, for the prepending methods, the front) of an
array, or is paired with what the slot held. -/
def register (front : Bool) (r : Listener) (s : Fast) (event : Key) : Except Fault Fast :=
  match get s.events event with
  | none =>
    (set s.events event (.record r)).map
      (fun events => { events := events, count := s.count + 1 })
  | some handler =>
    if handler.length.truthy then
      (if front then handler.unshift (.record r) else handler.push (.record r)).map
        (fun handler => { s with events := put s.events event handler })
    else
      (set s.events event
        (.arr (if front then [.record r, handler.toItem] else [handler.toItem, .record r]))).map
        (fun events => { s with events := events })

/-! ## Well-formed states

The data model of the registry: a key of the event set is a channel that holds
one record, or an array of at least two records.  `Clean` states are the ones
the methods build as long as no channel key names a property that the event set
inherits (`inherited key = none`). -/

/-- A record as the registration methods make it: a `once` record has a truthy
context (`context || this`). -/
def Listener.sound (l : Listener) : Bool :=
  !l.once || l.context.truthy

/-- An array element that is a sound record. -/
def Item.sound : Item → Bool
  | .record l => l.sound
  | _ => false

/-- A slot in one of the two stored shapes: a single record, or an array of two
or more records. -/
def Handler.shaped : Handler → Bool
  | .record l => l.sound
  | .arr items => decide (2 ≤ items.length) && items.all Item.sound
  | _ => false

/-- Well-formed initialised state: distinct keys, none of them the name of an
inherited property, every slot shaped, and a count that is at least the number
of channels. -/
structure Fast.Clean (s : Fast) : Prop where
  nodup : (s.events.map Prod.fst).Nodup
  plain : ∀ p ∈ s.events, inherited p.1 = none
  shaped : ∀ p ∈ s.events, p.2.shaped = true
  counted : (s.events.length : Int) ≤ s.count

/-- Well-formed emitter state: not yet initialised, or initialised and clean. -/
def Emitter.Clean : Emitter → Prop
  | .lazy => True
  | .fast s => s.Clean

/-! ## Listeners that call back into the emitter

`FastEmit.emit` above takes the listeners as inert.  Here a listener has a
body: a list of method calls on the emitter, run when the listener is invoked.
The machine keeps the emitter state, a log of what was observed, and the
arrays that running `emit` calls are looping over.  Such an array is the very
object stored in the slot until the slot is assigned anew: `push` and `unshift`
change it in place, under the loop, while `removeListener` always stores a new
array (or a record) and leaves the looped array as it was. -/

/-- A method call in the body of a listener. -/
inductive Step where
  | on (event : Key) (listener : Nat) (context : Val)
  | once (event : Key) (listener : Nat) (context : Val)
  | prependListener (event : Key) (listener : Nat) (context : Val)
  | prependOnceListener (event : Key) (listener : Nat) (context : Val)
  | off (event : Key) (listener : Nat) (context once : Val)
  | removeAllListeners (event : Option Key)
  | emit (event : Key) (args : List Val)
  | listenerCount (event : Key)
  | throw
  deriving DecidableEq, Repr

/-- An entry of the log: a listener was invoked, a listener read
`listenerCount(event)`, or a call of `emit(event, ...)` returned. -/
inductive Note where
  | called (c : Call)
  | counted (event : Key) (result : Val)
  | emitted (event : Key) (result : Bool)
  deriving DecidableEq, Repr

/-- The array (or other handler) a running multiple listener loop reads:
`elems` are `handler[0 .. handler.length - 1]` as they are now, `aliased` says
whether the slot of `event` still holds this very object. -/
structure Frame where
  event : Key
  elems : List (Option Item)
  aliased : Bool
  deriving DecidableEq, Repr

/-- What a method call does to the objects stored in the slots: it pushes or
unshifts an element in place, stores a new value in one slot, or replaces the
whole event set. -/
inductive Touch where
  | pushed (event : Key) (x : Item)
  | unshifted (event : Key) (x : Item)
  | replaced (event : Key)
  | replacedAll
  deriving DecidableEq, Repr

/-- The effect of a method call on a looped array. -/
def Frame.touch (t : Touch) (f : Frame) : Frame :=
  match t with
  | .pushed event x =>
    if f.aliased && f.event == event then { f with elems := f.elems ++ [some x] } else f
  | .unshifted event x =>
    if f.aliased && f.event == event then { f with elems := some x :: f.elems } else f
  | .replaced event => if f.event = event then { f with aliased := false } else f
  | .replacedAll => { f with aliased := false }

/-- What a registration does to the stored objects: `handler.push` or
`handler.unshift` on an array with a truthy `length`, else an assignment to the
slot. -/
def registerTouch (front : Bool) (r : Listener) (s : Fast) (event : Key) : Touch :=
  match get s.events event with
  | some (.arr (_ :: _)) =>
    if front then .unshifted event (.record r) else .pushed event (.record r)
  | _ => .replaced event

/-- What a removal does to the stored objects, given the state it leaves: an
empty event set holds none of the looped arrays; otherwise at most the slot of
`event` was assigned or deleted. -/
def removalTouch (s1 : Fast) (event : Key) : Touch :=
  if s1.events = [] then .replacedAll else .replaced event

/-- State of the machine: the emitter after `init`, the looped arrays of the
running `emit` calls (innermost first) and the log (oldest first). -/
structure Machine where
  state : Fast
  frames : List Frame
  log : List Note
  deriving DecidableEq, Repr

/-- What is left to do.  `run`: a method call of a listener body.  `visit`: the
test `index < handler.length` and the call of `handler[index]` in the multiple
listener loop of the innermost running `emit`.  `after`: the removal of a
`once` record after its call in that loop.  `finish`: `return true` of the
single listener path. -/
inductive Task where
  | run (step : Step)
  | visit (event : Key) (args : List Val) (index : Nat)
  | after (event : Key) (l : Listener)
  | finish (event : Key)
  deriving DecidableEq, Repr

/-- How a run ends: every call returned, a listener threw (nothing catches it,
so the error leaves every running `emit`), the code of a method failed, or the
fuel ran out. -/
inductive Status where
  | done
  | threw
  | failed (x : Fault)
  | outOfFuel
  deriving DecidableEq, Repr

/-- Result of one task: the machine, the tasks to run next (before the pending
ones), and the status when the task ends the run. -/
structure Stepped where
  machine : Machine
  next : List Task
  abort : Option Status
  deriving DecidableEq, Repr

/-- A state change inside a listener body: the new state, with the looped
arrays updated, or the failure. -/
def Machine.change (m : Machine) (result : Except Fault Fast) (touch : Fast → Touch) :
    Stepped :=
  match result with
  | .error x => { machine := m, next := [], abort := some (.failed x) }
  | .ok s1 =>
    { machine := { m with state := s1, frames := m.frames.map (Frame.touch (touch s1)) },
      next := [], abort := none }

/-- Whether the handler is an array: the only object the registration methods
change in place. -/
def Handler.isArray : Handler → Bool
  | .arr _ => true
  | _ => false

/-- A call `emit(event, ...args)` made while the machine runs: the code of
`FastEmit.emit` up to the first invocation. -/
def Machine.startEmit (body : Nat → List Step) (m : Machine) (event : Key)
    (args : List Val) : Stepped :=
  match get m.state.events event with
  | none =>
    { machine := { m with log := m.log ++ [.emitted event false] }, next := [], abort := none }
  | some handler =>
    match handler.listener? with
    | some l =>
      -- Single listener path; `once` listener removal first.
      let removed : Except Fault Fast :=
        if l.once then FastEmit.removeListener m.state event l.listener .undefined (.bool true)
        else .ok m.state
      match removed with
      | .error x => { machine := m, next := [], abort := some (.failed x) }
      | .ok s1 =>
        { machine :=
            { state := s1,
              frames := if l.once then m.frames.map (Frame.touch (removalTouch s1 event))
                        else m.frames,
              log := m.log ++ [.called ⟨l.listener, l.context, FastEmit.passArgs args⟩] },
          next := (body l.listener).map Task.run ++ [.finish event],
          abort := none }
    | none =>
      -- Multiple listener path.
      { machine :=
          { m with frames :=
              { event := event, elems := handler.elems, aliased := handler.isArray }
                :: m.frames },
        next := [.visit event args 0],
        abort := none }

/-- One task of the machine. -/
def Machine.step (body : Nat → List Step) (m : Machine) : Task → Stepped
  | .run (.on event listener context) =>
    m.change (FastEmit.addListener m.state event listener context)
      (fun _ => registerTouch false ⟨listener, contextOrThis context, false⟩ m.state event)
  | .run (.once event listener context) =>
    m.change (FastEmit.once m.state event listener context)
      (fun _ => registerTouch false ⟨listener, truthyContextOrThis context, true⟩ m.state event)
  | .run (.prependListener event listener context) =>
    m.change
      ((Emit.prependListener (.fast m.state) event listener context).map init)
      (fun _ => registerTouch true ⟨listener, contextOrThis context, false⟩ m.state event)
  | .run (.prependOnceListener event listener context) =>
    m.change
      ((Emit.prependOnceListener (.fast m.state) event listener context).map init)
      (fun _ => registerTouch true ⟨listener, truthyContextOrThis context, true⟩ m.state event)
  | .run (.off event listener context once) =>
    m.change (FastEmit.removeListener m.state event listener context once)
      (fun s1 => removalTouch s1 event)
  | .run (.removeAllListeners event) =>
    m.change (.ok (init (Emit.removeAllListeners (.fast m.state) event)))
      (fun s1 =>
        match event with
        | some key => removalTouch s1 key
        | none => .replacedAll)
  | .run (.emit event args) => m.startEmit body event args
  | .run (.listenerCount event) =>
    { machine :=
        { m with log := m.log ++ [.counted event (Emit.listenerCount (.fast m.state) event)] },
      next := [], abort := none }
  | .run .throw => { machine := m, next := [], abort := some .threw }
  | .visit event args index =>
    match m.frames with
    | [] => { machine := m, next := [], abort := some (.failed .typeError) }
    | frame :: outer =>
      if index < frame.elems.length then
        match frame.elems.getD index none with
        | some (.record l) =>
          { machine :=
              { m with log :=
                  m.log ++ [.called ⟨l.listener, l.context, FastEmit.passArgs args⟩] },
            next := (body l.listener).map Task.run
              ++ [.after event l, .visit event args (index + 1)],
            abort := none }
        | _ => { machine := m, next := [], abort := some (.failed .typeError) }
      else
        { machine := { m with frames := outer, log := m.log ++ [.emitted event true] },
          next := [], abort := none }
  | .after event l =>
    if l.once then
      m.change (FastEmit.removeListener m.state event l.listener l.context (.bool true))
        (fun s1 => removalTouch s1 event)
    else { machine := m, next := [], abort := none }
  | .finish event =>
    { machine := { m with log := m.log ++ [.emitted event true] }, next := [], abort := none }

/-- Result of a run. -/
structure Ran where
  machine : Machine
  status : Status
  deriving DecidableEq, Repr

/-- Run the pending tasks, one unit of fuel for each. -/
def Machine.exec (body : Nat → List Step) : Nat → List Task → Machine → Ran
  | _, [], m => { machine := m, status := .done }
  | 0, _ :: _, m => { machine := m, status := .outOfFuel }
  | fuel + 1, task :: rest, m =>
    let r := m.step body task
    match r.abort with
    | some status => { machine := r.machine, status := status }
    | none => Machine.exec body fuel (r.next ++ rest) r.machine

/-- Result of a call of `emit` with listeners that run their bodies: the
emitter left behind, the log and how the run ended. -/
structure EmitRun where
  state : Emitter
  log : List Note
  status : Status
  deriving DecidableEq, Repr

/-- Call `emitter.emit(event, ...args)` with listeners that run their bodies.
Before `init` the method is `Emit.emit`, which returns false. -/
def Emitter.emitRun (body : Nat → List Step) (fuel : Nat) (e : Emitter) (event : Key)
    (args : List Val) : EmitRun :=
  match e with
  | .lazy => { state := (Emit.emit e).1, log := [.emitted event (Emit.emit e).2],
               status := .done }
  | .fast s =>
    let r := Machine.exec body fuel [.run (.emit event args)]
      { state := s, frames := [], log := [] }
    { state := .fast r.machine.state, log := r.machine.log, status := r.status }

/-- The status of a run that ends as an inert `emit` does. -/
def Outcome.status : Outcome → Status
  | .returned _ => .done
  | .threw _ => .threw
  | .failed x => .failed x

/-- The log entry for the way an inert `emit` ends: its result when it
returns. -/
def Outcome.notes (event : Key) : Outcome → List Note
  | .returned b => [.emitted event b]
  | _ => []

/-! ## Sequences of registrations -/

/-- The five registration methods. -/
inductive Method where
  | on
  | addListener
  | once
  | prependListener
  | prependOnceListener
  deriving DecidableEq, Repr

/-- One registration call: the method, the channel key, the callback and the
context argument (`undefined` when omitted). -/
structure Registration where
  method : Method
  event : Key
  listener : Nat
  context : Val
  deriving DecidableEq, Repr

/-- Perform one registration call on the emitter. -/
def Emitter.perform (e : Emitter) (g : Registration) : Except Fault Emitter :=
  match g.method with
  | .on => e.on g.event g.listener g.context
  | .addListener => e.addListener g.event g.listener g.context
  | .once => e.once g.event g.listener g.context
  | .prependListener => e.prependListener g.event g.listener g.context
  | .prependOnceListener => e.prependOnceListener g.event g.listener g.context

/-- Perform registration calls one after the other; the first failure ends the
sequence. -/
def Emitter.performAll (e : Emitter) : List Registration → Except Fault Emitter
  | [] => .ok e
  | g :: rest =>
    match e.perform g with
    | .error x => .error x
    | .ok e1 => e1.performAll rest

/-- The record a registration call stores. -/
def Registration.record (g : Registration) : Listener :=
  match g.method with
  | .on => ⟨g.listener, contextOrThis g.context, false⟩
  | .addListener => ⟨g.listener, contextOrThis g.context, false⟩
  | .once => ⟨g.listener, truthyContextOrThis g.context, true⟩
  | .prependListener => ⟨g.listener, contextOrThis g.context, false⟩
  | .prependOnceListener => ⟨g.listener, truthyContextOrThis g.context, true⟩

/-- Whether the method puts the record in front. -/
def Method.front : Method → Bool
  | .prependListener => true
  | .prependOnceListener => true
  | _ => false

/-- The keys of the channels in order of creation: the own properties of the
event set. -/
def Emitter.channels : Emitter → List Key
  | .lazy => []
  | .fast s => s.events.map Prod.fst

/-- The keys of a list in order of first occurrence. -/
def firstKeys : List Key → List Key → List Key
  | seen, [] => seen
  | seen, k :: rest => firstKeys (if k ∈ seen then seen else seen ++ [k]) rest

/-! ## `getMaxListeners`, `setMaxListeners` and the hidden state -/

/-- A limit on the number of listeners: a number, or `Infinity`. -/
inductive Limit where
  | finite (n : Nat)
  | infinity
  deriving DecidableEq, Repr

/-- Method `Emit.getMaxListeners()`: `return Infinity`. -/
def Emit.getMaxListeners (_e : Emitter) : Limit := .infinity

/-- Method `Emit.setMaxListeners(max)`: the body is empty, the emitter is left
as it was. -/
def Emit.setMaxListeners (e : Emitter) (_max : Val) : Emitter := e

/-- Call `emitter.getMaxListeners()`. -/
def Emitter.getMaxListeners (e : Emitter) : Limit := Emit.getMaxListeners e

/-- Call `emitter.setMaxListeners(max)`. -/
def Emitter.setMaxListeners (e : Emitter) (max : Val) : Emitter := Emit.setMaxListeners e max

/-- The hidden counter `this[COUNT]`; none before `init`. -/
def Emitter.count : Emitter → Option Int
  | .lazy => none
  | .fast s => some s.count

/-- The stored entry of a channel: the own property `this[EVENTS][event]`; none
before `init`. -/
def Emitter.entry : Emitter → Key → Option Handler
  | .lazy, _ => none
  | .fast s, event => own s.events event

/-- Whether `FastEmit.removeListener` takes the branch
`this[EVENTS] = new EventSet()`: the single listener matches and
`--this[COUNT] === 0`.  In every other case the event set object stays. -/
def FastEmit.removeListenerResets (s : Fast) (event : Key) (listener : Nat)
    (context once : Val) : Bool :=
  match get s.events event with
  | none => false
  | some handler =>
    match handler.listener? with
    | some l => l.matches listener context once && decide (s.count - 1 = 0)
    | none => false

/-- Whether `Emit.removeAllListeners` takes a branch
`this[EVENTS] = new EventSet()`: the argument is falsy and the event set
exists, or the handler exists and `--this[COUNT] == 0`. -/
def Emit.removeAllListenersResets (e : Emitter) (event : Option Key) : Bool :=
  match e with
  | .lazy => false
  | .fast s =>
    match event with
    | none => true
    | some key =>
      if !key.truthy then true
      else
        match get s.events key with
        | none => false
        | some _ => decide (s.count - 1 = 0)

/-- Whether a method call of a listener body is a removal on the channel
`key`: `off(key, ...)` (the same method as `removeListener`),
`removeAllListeners(key)` or `removeAllListeners()`. -/
def Step.removes (key : Key) : Step → Bool
  | .off event _ _ _ => event == key
  | .removeAllListeners (some event) => event == key
  | .removeAllListeners none => true
  | _ => false

/-! ## Sample states -/

/-- No listener throws. -/
def noThrow : Nat → Bool := fun _ => false

/-- An emitter after `on('x', f1)` and `once('x', f2, c)`. -/
def sampleMixed : Emitter :=
  .fast { events := [(.str "x", .arr [.record ⟨1, .self, false⟩, .record ⟨2, .obj 0, true⟩])],
          count := 1 }

/-- An emitter after `once('x', f1)` and `once('x', f1)`. -/
def sampleOnce : Emitter :=
  .fast { events := [(.str "x", .arr [.record ⟨1, .self, true⟩, .record ⟨1, .self, true⟩])],
          count := 1 }

/-- An emitter after `on('x', f1, c)`. -/
def sampleSingle : Emitter :=
  .fast { events := [(.str "x", .record ⟨1, .obj 0, false⟩)], count := 1 }

/-- A sequence of registrations: `on('b')`, `once(symbol)`, `on('1')`,
`prependListener('b')`. -/
def sampleRegistrations : List Registration :=
  [⟨.on, .str "b", 1, .undefined⟩, ⟨.once, .sym 0, 2, .undefined⟩,
    ⟨.on, .str "1", 3, .undefined⟩, ⟨.prependListener, .str "b", 4, .undefined⟩]

/-- The emitter after `sampleRegistrations` on a fresh emitter. -/
def sampleRegistered : Emitter :=
  .fast { events := [(.str "b", .arr [.record ⟨4, .self, false⟩, .record ⟨1, .self, false⟩]),
            (.sym 0, .record ⟨2, .self, true⟩), (.str "1", .record ⟨3, .self, false⟩)],
          count := 3 }

/-- An emitter after `once('x', f1, c)`. -/
def sampleSingleOnce : Emitter :=
  .fast { events := [(.str "x", .record ⟨1, .obj 0, true⟩)], count := 1 }

/-- Listener bodies: every listener reads `listenerCount('x')` and then calls
`emit('x')`. -/
def sampleBody : Nat → List Step :=
  fun _ => [.listenerCount (.str "x"), .emit (.str "x") []]

/-- An emitter after `on('x', f1)` and `on('x', f2)`. -/
def samplePair : Emitter :=
  .fast { events := [(.str "x", .arr [.record ⟨1, .self, false⟩, .record ⟨2, .self, false⟩])],
          count := 1 }

/-- Listener bodies: the listener `f1` calls `on('x', f3)`, the others do
nothing. -/
def sampleAdding : Nat → List Step :=
  fun f => if f = 1 then [.on (.str "x") 3 .undefined] else []

/-- Listener bodies: the listener `f1` calls `off('x', f2)`, the others do
nothing. -/
def sampleRemoving : Nat → List Step :=
  fun f => if f = 1 then [.off (.str "x") 2 .undefined .undefined] else []

/-! ## The reference registry of the specification

The specification describes the emitter by a registry that keeps, for each
key, a plain ordered list of records.  `Registry` and its operations follow the
words of the specification, not the code; `Emitter.answer` runs the same calls
on the code, with listeners that return. -/

/-- Reference registry: the ordered list of records of each key. -/
structure Registry where
  records : Key → List Listener

/-- The registry of a fresh emitter: no key has a record. -/
def Registry.empty : Registry := ⟨fun _ => []⟩

/-- Replace the list of one key. -/
def Registry.store (reg : Registry) (key : Key) (rs : List Listener) : Registry :=
  ⟨fun k => if k = key then rs else reg.records k⟩

/-- A call of the sequences compared: a registration through one of the five
methods, a removal, an emission or a read. -/
inductive Op where
  | register (g : Registration)
  | off (event : Key) (listener : Nat) (context once : Val)
  | removeListener (event : Key) (listener : Nat) (context once : Val)
  | removeAllListeners (event : Option Key)
  | emit (event : Key) (args : List Val)
  | listenerCount (event : Key)
  | listeners (event : Key)
  deriving DecidableEq, Repr

/-- What a call returns to its caller: the owning instance, a boolean, a
value, a sequence of callbacks; or the error that leaves the call, raised by a
listener or by the code of the method. -/
inductive Answer where
  | self
  | bool (b : Bool)
  | value (v : Val)
  | callbacks (fs : List Val)
  | raised (listener : Nat)
  | fault (x : Fault)
  deriving DecidableEq, Repr

/-- What is observed of a call: its answer and the invocations it made, in
order. -/
structure Observed where
  answer : Answer
  calls : List Call
  deriving DecidableEq, Repr

/-- Whether the method registers a `once` record. -/
def Method.isOnce : Method → Bool
  | .once => true
  | .prependOnceListener => true
  | _ => false

/-- The record of the specification for a registration: the context defaults
to the owning object when it is unspecified. -/
def Registration.specRecord (g : Registration) : Listener :=
  { listener := g.listener,
    context := if g.context = .undefined then .self else g.context,
    once := g.method.isOnce }

/-- The matching predicate of `remove` in the specification: the same
callback, the context unspecified or equal, `onlyOnce` unspecified or the
record flagged `once`. -/
def Registry.matches (l : Listener) (callback : Nat) (context onlyOnce : Val) : Bool :=
  l.listener == callback
    && (context == .undefined || l.context.strictEq context)
    && (onlyOnce == .undefined || l.once)

/-- One call on the reference registry.  A registration puts its record at the
end of the list of its key, or in front for the prepending methods; a removal
takes the first matching record out; `removeAllListeners` empties the list of
its key, or every list when the key is omitted; `emit` invokes the records of
the key in order, returns whether there was one and takes the `once` records
out; the reads return the number of records and their callbacks. -/
def Registry.answer (reg : Registry) : Op → Registry × Observed
  | .register g =>
    (reg.store g.event
        (if g.method.front then g.specRecord :: reg.records g.event
          else reg.records g.event ++ [g.specRecord]),
      ⟨.self, []⟩)
  | .off event f context once =>
    (reg.store event
        ((reg.records event).eraseP (fun l => Registry.matches l f context once)),
      ⟨.self, []⟩)
  | .removeListener event f context once =>
    (reg.store event
        ((reg.records event).eraseP (fun l => Registry.matches l f context once)),
      ⟨.self, []⟩)
  | .removeAllListeners none => (Registry.empty, ⟨.self, []⟩)
  | .removeAllListeners (some key) => (reg.store key [], ⟨.self, []⟩)
  | .emit event args =>
    (reg.store event ((reg.records event).filter (fun l => !l.once)),
      ⟨.bool (!(reg.records event).isEmpty), (reg.records event).map (Listener.call args)⟩)
  | .listenerCount event => (reg, ⟨.value (.num (reg.records event).length), []⟩)
  | .listeners event =>
    (reg, ⟨.callbacks ((reg.records event).map (fun l => Val.fn l.listener)), []⟩)

/-- What a sequence of calls on the reference registry lets observe. -/
def Registry.run (reg : Registry) : List Op → List Observed
  | [] => []
  | op :: rest => (reg.answer op).2 :: (reg.answer op).1.run rest

/-- The answer of a call of `emit`. -/
def Outcome.answer : Outcome → Answer
  | .returned b => .bool b
  | .threw f => .raised f
  | .failed x => .fault x

/-- One call on the emitter, with listeners that return.  A registration whose
code throws has run `init(this)` before, and leaves the emitter initialised and
else as it was; a removal or a read throws before it assigns anything and
leaves the emitter as it was. -/
def Emitter.answer (e : Emitter) : Op → Emitter × Observed
  | .register g =>
    match e.perform g with
    | .ok e1 => (e1, ⟨.self, []⟩)
    | .error x => (.fast (init e), ⟨.fault x, []⟩)
  | .off event f context once =>
    match e.off event f context once with
    | .ok e1 => (e1, ⟨.self, []⟩)
    | .error x => (e, ⟨.fault x, []⟩)
  | .removeListener event f context once =>
    match e.removeListener event f context once with
    | .ok e1 => (e1, ⟨.self, []⟩)
    | .error x => (e, ⟨.fault x, []⟩)
  | .removeAllListeners event => (e.removeAllListeners event, ⟨.self, []⟩)
  | .emit event args =>
    ((e.emit noThrow event args).state,
      ⟨(e.emit noThrow event args).outcome.answer, (e.emit noThrow event args).calls⟩)
  | .listenerCount event => (e, ⟨.value (e.listenerCount event), []⟩)
  | .listeners event =>
    match e.listeners event with
    | .ok fs => (e, ⟨.callbacks fs, []⟩)
    | .error x => (e, ⟨.fault x, []⟩)

/-- What a sequence of calls on the emitter lets observe. -/
def Emitter.run (e : Emitter) : List Op → List Observed
  | [] => []
  | op :: rest => (e.answer op).2 :: (e.answer op).1.run rest

/-- The calls away from the three departures of the code: the keys name no
inherited property, a key given to `removeAllListeners` is truthy, and the
context given to a `once` registration is unspecified or truthy. -/
def Op.plain : Op → Bool
  | .register g =>
    (inherited g.event).isNone
      && (!g.method.isOnce || g.context == .undefined || g.context.truthy)
  | .off event _ _ _ => (inherited event).isNone
  | .removeListener event _ _ _ => (inherited event).isNone
  | .removeAllListeners none => true
  | .removeAllListeners (some key) => (inherited key).isNone && key.truthy
  | .emit event _ => (inherited event).isNone
  | .listenerCount event => (inherited event).isNone
  | .listeners event => (inherited event).isNone

/-- Calls on the channel `constructor`: `on('constructor', f7)`,
`listenerCount('constructor')`, `listeners('constructor')`. -/
def sampleInheritedOps : List Op :=
  [.register ⟨.on, .str "constructor", 7, .undefined⟩,
   .listenerCount (.str "constructor"),
   .listeners (.str "constructor")]

/-- Calls with a falsy context for `once`: `once('x', f7, 0)`, `emit('x')`. -/
def sampleFalsyOnceOps : List Op :=
  [.register ⟨.once, .str "x", 7, .num 0⟩, .emit (.str "x") []]

/-- Calls with the empty string as key: `on('x', f7)`,
`removeAllListeners('')`, `listenerCount('x')`. -/
def sampleEmptyKeyOps : List Op :=
  [.register ⟨.on, .str "x", 7, .undefined⟩, .removeAllListeners (some (.str "")),
   .listenerCount (.str "x")]

/-- Calls on plain channels, through every kind of call. -/
def samplePlainOps : List Op :=
  [.register ⟨.on, .str "x", 1, .undefined⟩,
   .register ⟨.prependOnceListener, .str "x", 2, .obj 0⟩,
   .register ⟨.once, .sym 0, 3, .undefined⟩,
   .listeners (.str "x"),
   .emit (.str "x") [.num 1],
   .off (.str "x") 1 .undefined .undefined,
   .listenerCount (.str "x"),
   .removeAllListeners (some (.sym 0)),
   .emit (.sym 0) []]

/-- An emitter after `on('x', f1)`, `on('y', f3)` and `on('x', f2)`. -/
def sampleTwoChannels : Emitter :=
  .fast { events := [(.str "x", .arr [.record ⟨1, .self, false⟩, .record ⟨2, .self, false⟩]),
                     (.str "y", .record ⟨3, .self, false⟩)],
          count := 2 }

/-- Listener bodies: the listener `f1` calls `prependListener('x', f3)` and
then `off('x', f2)`, the others do nothing. -/
def samplePrependRemoving : Nat → List Step :=
  fun f =>
    if f = 1 then [.prependListener (.str "x") 3 .undefined, .off (.str "x") 2 .undefined .undefined]
    else []

/-- Listener bodies: the listener `f1` calls `off('constructor', f1)`, the
others do nothing. -/
def sampleSelfRemoving : Nat → List Step :=
  fun f => if f = 1 then [.off (.str "constructor") 1 .undefined .undefined] else []

/-- Listener bodies: every listener reads `listenerCount('constructor')` and
then calls `emit('constructor')`. -/
def sampleConstructorBody : Nat → List Step :=
  fun _ => [.listenerCount (.str "constructor"), .emit (.str "constructor") []]

/-! ## Lemmas on the event set -/

theorem own_eq_none_iff (events : EventSet) (key : Key) :
    own events key = none ↔ key ∉ events.map Prod.fst := by
  induction events with
  | nil => simp [own]
  | cons p rest ih =>
    obtain ⟨k, h⟩ := p
    by_cases hk : key = k
    · simp [own, hk]
    · simp [own, hk, ih]

theorem mem_of_own_eq_some {events : EventSet} {key : Key} {h : Handler}
    (hown : own events key = some h) : (key, h) ∈ events := by
  induction events with
  | nil => simp [own] at hown
  | cons p rest ih =>
    obtain ⟨k, v⟩ := p
    by_cases hk : key = k
    · simp [own, hk] at hown
      simp [hk, hown]
    · simp [own, hk] at hown
      exact List.mem_cons_of_mem _ (ih hown)

theorem own_put_self (events : EventSet) (key : Key) (h : Handler) :
    own (put events key h) key = some h := by
  induction events with
  | nil => simp [put, own]
  | cons p rest ih =>
    obtain ⟨k, v⟩ := p
    by_cases hk : key = k
    · simp [put, own, hk]
    · simp [put, own, hk, ih]

theorem own_put_of_ne (events : EventSet) {key j : Key} (h : Handler) (hj : j ≠ key) :
    own (put events key h) j = own events j := by
  induction events with
  | nil => simp [put, own, hj]
  | cons p rest ih =>
    obtain ⟨k, v⟩ := p
    by_cases hk : key = k
    · subst hk
      simp [put, own, hj]
    · by_cases hjk : j = k
      · simp [put, own, hk, hjk]
      · simp [put, own, hk, hjk, ih]

theorem own_del_of_ne (events : EventSet) {key j : Key} (hj : j ≠ key) :
    own (del events key) j = own events j := by
  induction events with
  | nil => simp [del, own]
  | cons p rest ih =>
    obtain ⟨k, v⟩ := p
    by_cases hk : key = k
    · subst hk
      simp [del, own, hj]
    · by_cases hjk : j = k
      · simp [del, own, hk, hjk]
      · simp [del, own, hk, hjk, ih]

theorem mem_del {events : EventSet} {key : Key} {p : Key × Handler}
    (hp : p ∈ del events key) : p ∈ events := by
  induction events with
  | nil => simp [del] at hp
  | cons q rest ih =>
    obtain ⟨k, v⟩ := q
    by_cases hk : key = k
    · simp [del, hk] at hp
      exact List.mem_cons_of_mem _ hp
    · simp only [del, hk, if_false, List.mem_cons] at hp
      rcases hp with hp | hp
      · simp [hp]
      · exact List.mem_cons_of_mem _ (ih hp)

theorem own_del_self {events : EventSet} (key : Key)
    (hnd : (events.map Prod.fst).Nodup) : own (del events key) key = none := by
  induction events with
  | nil => simp [del, own]
  | cons q rest ih =>
    obtain ⟨k, v⟩ := q
    simp only [List.map_cons, List.nodup_cons] at hnd
    by_cases hk : key = k
    · subst hk
      simp only [del, if_true]
      exact (own_eq_none_iff rest key).2 hnd.1
    · simp [del, own, hk, ih hnd.2]

theorem nodup_del {events : EventSet} (key : Key)
    (hnd : (events.map Prod.fst).Nodup) : ((del events key).map Prod.fst).Nodup := by
  induction events with
  | nil => simp [del]
  | cons q rest ih =>
    obtain ⟨k, v⟩ := q
    simp only [List.map_cons, List.nodup_cons] at hnd
    by_cases hk : key = k
    · simp [del, hk, hnd.2]
    · simp only [del, hk, if_false, List.map_cons, List.nodup_cons]
      refine ⟨?_, ih hnd.2⟩
      intro hmem
      obtain ⟨p, hp, hpk⟩ := List.mem_map.1 hmem
      exact hnd.1 (List.mem_map.2 ⟨p, mem_del hp, hpk⟩)

theorem length_del_of_own {events : EventSet} {key : Key} {h : Handler}
    (hown : own events key = some h) : (del events key).length + 1 = events.length := by
  induction events with
  | nil => simp [own] at hown
  | cons q rest ih =>
    obtain ⟨k, v⟩ := q
    by_cases hk : key = k
    · simp [del, hk]
    · simp [own, hk] at hown
      simp [del, hk, ih hown]

theorem keys_put_of_own {events : EventSet} {key : Key} {v : Handler} (h : Handler)
    (hown : own events key = some v) :
    (put events key h).map Prod.fst = events.map Prod.fst := by
  induction events with
  | nil => simp [own] at hown
  | cons q rest ih =>
    obtain ⟨k, w⟩ := q
    by_cases hk : key = k
    · simp [put, hk]
    · simp [own, hk] at hown
      simp [put, hk, ih hown]

theorem put_of_own_eq_none {events : EventSet} {key : Key} (h : Handler)
    (hown : own events key = none) : put events key h = events ++ [(key, h)] := by
  induction events with
  | nil => simp [put]
  | cons q rest ih =>
    obtain ⟨k, w⟩ := q
    by_cases hk : key = k
    · simp [own, hk] at hown
    · simp [own, hk] at hown
      simp [put, hk, ih hown]

theorem mem_put {events : EventSet} {key : Key} {h : Handler} {p : Key × Handler}
    (hp : p ∈ put events key h) : p ∈ events ∨ p = (key, h) := by
  induction events with
  | nil => simpa [put] using hp
  | cons q rest ih =>
    obtain ⟨k, w⟩ := q
    by_cases hk : key = k
    · simp only [put, hk, if_true, List.mem_cons] at hp
      rcases hp with hp | hp
      · right; simp [hp, hk]
      · left; exact List.mem_cons_of_mem _ hp
    · simp only [put, hk, if_false, List.mem_cons] at hp
      rcases hp with hp | hp
      · left; simp [hp]
      · rcases ih hp with h1 | h1
        · left; exact List.mem_cons_of_mem _ h1
        · right; exact h1

theorem length_put_of_own {events : EventSet} {key : Key} {v : Handler} (h : Handler)
    (hown : own events key = some v) : (put events key h).length = events.length := by
  have := congrArg List.length (keys_put_of_own h hown)
  simpa using this

theorem ne_proto_of_plain {key : Key} (hk : inherited key = none) :
    key ≠ .str "__proto__" := by
  rintro rfl
  exact absurd hk (by decide)

theorem set_of_plain (events : EventSet) {key : Key} (hk : inherited key = none)
    (h : Handler) : set events key h = .ok (put events key h) := by
  simp [set, ne_proto_of_plain hk]

theorem get_of_plain (events : EventSet) {key : Key} (hk : inherited key = none) :
    get events key = own events key := by
  unfold get
  cases own events key <;> simp [hk]

theorem get_of_own {events : EventSet} {key : Key} {h : Handler}
    (hown : own events key = some h) : get events key = some h := by
  simp [get, hown]

theorem get_put_of_ne (events : EventSet) {key j : Key} (h : Handler) (hj : j ≠ key) :
    get (put events key h) j = get events j := by
  simp [get, own_put_of_ne events h hj]

theorem get_del_of_ne (events : EventSet) {key j : Key} (hj : j ≠ key) :
    get (del events key) j = get events j := by
  simp [get, own_del_of_ne events hj]

theorem Fast.Clean.plain_of_own {s : Fast} (hc : s.Clean) {key : Key} {h : Handler}
    (hown : own s.events key = some h) : inherited key = none :=
  hc.plain _ (mem_of_own_eq_some hown)

theorem Fast.Clean.shaped_of_own {s : Fast} (hc : s.Clean) {key : Key} {h : Handler}
    (hown : own s.events key = some h) : h.shaped = true :=
  hc.shaped _ (mem_of_own_eq_some hown)

theorem Fast.Clean.own_of_not_plain {s : Fast} (hc : s.Clean) {key : Key}
    (hk : inherited key ≠ none) : own s.events key = none := by
  cases hown : own s.events key with
  | none => rfl
  | some h => exact absurd (hc.plain_of_own hown) hk

theorem clean_init_lazy : (init .lazy).Clean :=
  ⟨by simp [init], by simp [init], by simp [init], by simp [init]⟩

theorem Emitter.Clean.init {e : Emitter} (hc : e.Clean) : (EmitJs.init e).Clean := by
  cases e with
  | lazy => exact clean_init_lazy
  | fast s => exact hc

theorem items_eq_map_records {items : List Item} (h : items.all Item.sound = true) :
    items = (items.filterMap Item.record?).map Item.record := by
  induction items with
  | nil => rfl
  | cons x rest ih =>
    simp only [List.all_cons, Bool.and_eq_true] at h
    cases x with
    | record l => simp only [List.filterMap_cons, Item.record?, List.map_cons]; rw [← ih h.2]
    | fn n => simp [Item.sound] at h
    | protoObj => simp [Item.sound] at h
    | emptyArr => simp [Item.sound] at h

theorem all_sound_map_record {rs : List Listener} :
    (rs.map Item.record).all Item.sound = rs.all Listener.sound := by
  induction rs with
  | nil => rfl
  | cons r rest ih => simp [Item.sound, ih]

theorem filterMap_record_map (rs : List Listener) :
    (rs.map Item.record).filterMap Item.record? = rs := by
  induction rs with
  | nil => rfl
  | cons r rest ih => simp [Item.record?, ih]

theorem filterMap_record_comp (rs : List Listener) :
    List.filterMap (Item.record? ∘ Item.record) rs = rs := by
  induction rs with
  | nil => rfl
  | cons r rest ih => simp [Item.record?, ih]

/-- A shaped handler is a sound record, or the array of two or more sound
records. -/
theorem Handler.shaped_cases {h : Handler} (hs : h.shaped = true) :
    (∃ l, h = .record l ∧ l.sound = true) ∨
    (∃ rs : List Listener, h = .arr (rs.map Item.record) ∧ 2 ≤ rs.length ∧
      rs.all Listener.sound = true) := by
  cases h with
  | record l => exact Or.inl ⟨l, rfl, hs⟩
  | arr items =>
    simp only [Handler.shaped, Bool.and_eq_true, decide_eq_true_eq] at hs
    refine Or.inr ⟨items.filterMap Item.record?, ?_, ?_, ?_⟩
    · rw [← items_eq_map_records hs.2]
    · have := congrArg List.length (items_eq_map_records hs.2)
      simp only [List.length_map] at this
      omega
    · rw [← all_sound_map_record, ← items_eq_map_records hs.2]; exact hs.2
  | fn n => simp [Handler.shaped] at hs
  | protoObj => simp [Handler.shaped] at hs

theorem shaped_of_records {rs : List Listener} (hs : rs.all Listener.sound = true) :
    (rs.length = 1 → ∀ r, rs = [r] → (Handler.record r).shaped = true) ∧
    (2 ≤ rs.length → (Handler.arr (rs.map Item.record)).shaped = true) := by
  constructor
  · intro _ r hr
    subst hr
    simpa [Handler.shaped] using hs
  · intro h2
    simp [Handler.shaped, h2, all_sound_map_record, hs]

/-- The records of a clean state at a key that names no inherited property are
exactly what the slot stores. -/
theorem Fast.Clean.get_cases {s : Fast} (hc : s.Clean) {key : Key}
    (hk : inherited key = none) :
    (get s.events key = none ∧ own s.events key = none ∧ s.records key = []) ∨
    (∃ l, get s.events key = some (.record l) ∧ own s.events key = some (.record l) ∧
      s.records key = [l] ∧ l.sound = true) ∨
    (∃ rs : List Listener, get s.events key = some (.arr (rs.map Item.record)) ∧
      own s.events key = some (.arr (rs.map Item.record)) ∧
      s.records key = rs ∧ 2 ≤ rs.length ∧ rs.all Listener.sound = true) := by
  have hg := get_of_plain s.events hk
  cases hown : own s.events key with
  | none =>
    left
    simp [Fast.records, hg, hown]
  | some h =>
    right
    rcases Handler.shaped_cases (hc.shaped_of_own hown) with ⟨l, rfl, hl⟩ | ⟨rs, rfl, h2, hall⟩
    · left
      exact ⟨l, by simp [hg, hown], rfl, by simp [Fast.records, hg, hown, Handler.records], hl⟩
    · right
      refine ⟨rs, by simp [hg, hown], rfl, ?_, h2, hall⟩
      simp only [Fast.records, hg, hown, Handler.records]
      exact filterMap_record_map rs

theorem clean_put_own {s : Fast} (hc : s.Clean) {key : Key} {v : Handler}
    (hown : own s.events key = some v) {h : Handler} (hs : h.shaped = true) :
    Fast.Clean { events := put s.events key h, count := s.count } := by
  refine ⟨?_, ?_, ?_, ?_⟩
  · simpa [keys_put_of_own h hown] using hc.nodup
  · intro p hp
    rcases mem_put hp with h1 | h1
    · exact hc.plain p h1
    · subst h1; exact hc.plain_of_own hown
  · intro p hp
    rcases mem_put hp with h1 | h1
    · exact hc.shaped p h1
    · subst h1; exact hs
  · simpa [length_put_of_own h hown] using hc.counted

theorem clean_put_new {s : Fast} (hc : s.Clean) {key : Key} (hk : inherited key = none)
    (hown : own s.events key = none) {h : Handler} (hs : h.shaped = true) :
    Fast.Clean { events := put s.events key h, count := s.count + 1 } := by
  have hnot := (own_eq_none_iff s.events key).1 hown
  refine ⟨?_, ?_, ?_, ?_⟩
  · simp only [put_of_own_eq_none h hown, List.map_append, List.map_cons, List.map_nil]
    exact List.Nodup.append hc.nodup (by simp) (by simpa using hnot)
  · intro p hp
    rcases mem_put hp with h1 | h1
    · exact hc.plain p h1
    · subst h1; exact hk
  · intro p hp
    rcases mem_put hp with h1 | h1
    · exact hc.shaped p h1
    · subst h1; exact hs
  · have := hc.counted
    simp only [put_of_own_eq_none h hown, List.length_append, List.length_cons, List.length_nil]
    push_cast
    omega

theorem records_put_self (events : EventSet) (key : Key) (h : Handler) (count : Int) :
    Fast.records { events := put events key h, count := count } key = h.records := by
  simp [Fast.records, get_of_own (own_put_self events key h)]

theorem truthy_num_length {n : Nat} (h : 2 ≤ n) : (Val.num (n : Int)).truthy = true := by
  simp only [Val.truthy, bne_iff_ne, ne_eq]
  omega

/-- Registration at a key that names no inherited property, in a clean state:
the record joins the channel at the end (or the front), the state stays clean
and no other slot changes. -/
theorem register_clean {s : Fast} (hc : s.Clean) {key : Key} (hk : inherited key = none)
    (front : Bool) {r : Listener} (hr : r.sound = true) :
    ∃ s1, register front r s key = .ok s1 ∧ s1.Clean ∧
      s1.records key = (if front then r :: s.records key else s.records key ++ [r]) ∧
      (∀ j, j ≠ key → get s1.events j = get s.events j) := by
  rcases hc.get_cases hk with ⟨hg, hown, hrec⟩ | ⟨l, hg, hown, hrec, hl⟩ |
    ⟨rs, hg, hown, hrec, h2, hall⟩
  · refine ⟨{ events := put s.events key (.record r), count := s.count + 1 }, ?_, ?_, ?_, ?_⟩
    · simp [register, hg, set_of_plain _ hk, Except.map]
    · exact clean_put_new hc hk hown (by simpa [Handler.shaped] using hr)
    · rw [records_put_self, hrec]
      cases front <;> simp [Handler.records]
    · intro j hj
      exact get_put_of_ne _ _ hj
  · refine ⟨⟨put s.events key
        (.arr (if front then [.record r, .record l] else [.record l, .record r])),
        s.count⟩, ?_, ?_, ?_, ?_⟩
    · cases front <;>
        simp [register, hg, set_of_plain _ hk, Except.map, Handler.length, Val.truthy,
          Handler.toItem]
    · apply clean_put_own hc hown
      cases front <;> simp [Handler.shaped, Item.sound, hr, hl]
    · rw [records_put_self, hrec]
      cases front <;> simp [Handler.records, Item.record?]
    · intro j hj
      exact get_put_of_ne _ _ hj
  · refine ⟨⟨put s.events key
        (Handler.arr (if front then (Item.record r :: rs.map Item.record)
          else (rs.map Item.record ++ [Item.record r]))),
        s.count⟩, ?_, ?_, ?_, ?_⟩
    · have ht : (Val.num (rs.length : Int)).truthy = true := truthy_num_length h2
      cases front <;>
        simp [register, hg, Handler.length, ht, Handler.push, Handler.unshift, Except.map]
    · apply clean_put_own hc hown
      cases front
      · have : (rs.map Item.record ++ [Item.record r]) = (rs ++ [r]).map Item.record := by simp
        simp only [Bool.false_eq_true, if_false, this]
        exact (shaped_of_records (by simp [hall, hr])).2 (by simp; omega)
      · have : (Item.record r :: rs.map Item.record) = (r :: rs).map Item.record := by simp
        simp only [if_true, this]
        exact (shaped_of_records (by simp [hall, hr])).2 (by simp; omega)
    · rw [records_put_self, hrec]
      cases front <;> simp [Handler.records, Item.record?, filterMap_record_comp]
    · intro j hj
      exact get_put_of_ne _ _ hj

theorem addListener_eq_register (s : Fast) (event : Key) (listener : Nat) (context : Val) :
    FastEmit.addListener s event listener context =
      register false ⟨listener, contextOrThis context, false⟩ s event := by
  simp only [FastEmit.addListener, register, contextOrThis]
  rfl

theorem once_eq_register (s : Fast) (event : Key) (listener : Nat) (context : Val) :
    FastEmit.once s event listener context =
      register false ⟨listener, truthyContextOrThis context, true⟩ s event := by
  simp only [FastEmit.once, register, truthyContextOrThis]
  rfl

theorem prependListener_eq_register (e : Emitter) (event : Key) (listener : Nat)
    (context : Val) :
    Emit.prependListener e event listener context =
      (register true ⟨listener, contextOrThis context, false⟩ (init e) event).map .fast := by
  simp only [Emit.prependListener, register, contextOrThis]
  cases get (init e).events event with
  | none => cases set (init e).events event _ <;> rfl
  | some h =>
    by_cases ht : h.length.truthy = true
    · simp only [ht, if_true]
      cases h <;> rfl
    · simp only [ht, if_false]
      simp only [Bool.false_eq_true, if_false, if_true]
      cases set (init e).events event _ <;> rfl

theorem prependOnceListener_eq_register (e : Emitter) (event : Key) (listener : Nat)
    (context : Val) :
    Emit.prependOnceListener e event listener context =
      (register true ⟨listener, truthyContextOrThis context, true⟩ (init e) event).map
        .fast := by
  simp only [Emit.prependOnceListener, register, truthyContextOrThis]
  cases get (init e).events event with
  | none => cases set (init e).events event _ <;> rfl
  | some h =>
    by_cases ht : h.length.truthy = true
    · simp only [ht, if_true]
      cases h <;> rfl
    · simp only [ht, if_false]
      simp only [Bool.false_eq_true, if_false, if_true]
      cases set (init e).events event _ <;> rfl

theorem removeScan_none (context once : Val) (items : List Item) :
    FastEmit.removeScan context once none (items.map some) = .ok items := by
  induction items with
  | nil => simp [FastEmit.removeScan]
  | cons x rest ih =>
    have hm : x.matches none context once = false := by
      cases x <;> rfl
    simp [FastEmit.removeScan, hm, ih, Except.map]

/-- On an array of records the loop of `removeListener` leaves out exactly the
first record that passes the test. -/
theorem removeScan_records (context once : Val) (f : Nat) (rs : List Listener) :
    FastEmit.removeScan context once (some f) ((rs.map Item.record).map some) =
      .ok ((rs.eraseP (fun l => l.matches f context once)).map Item.record) := by
  induction rs with
  | nil => simp [FastEmit.removeScan]
  | cons r rest ih =>
    by_cases hm : r.matches f context once = true
    · have := removeScan_none context once (rest.map Item.record)
      simp [-List.map_map, FastEmit.removeScan, Item.matches, hm, this]
    · simp [-List.map_map, FastEmit.removeScan, Item.matches, hm, ih, Except.map]

theorem all_sound_eraseP {rs : List Listener} (p : Listener → Bool)
    (hall : rs.all Listener.sound = true) : (rs.eraseP p).all Listener.sound = true := by
  rw [List.all_eq_true] at hall ⊢
  intro x hx
  exact hall x (List.mem_of_mem_eraseP hx)

theorem own_eq_none_of_length_le_one {events : EventSet} {key j : Key} {h : Handler}
    (hown : own events key = some h) (hlen : events.length ≤ 1) (hj : j ≠ key) :
    own events j = none := by
  match events, hown, hlen with
  | [(k, v)], hown, _ =>
    by_cases hk : key = k
    · subst hk
      simp [own, hj]
    · simp [own, hk] at hown

/-- Removal at a key that names no inherited property, in a clean state: the
first record that passes the test leaves the channel, the state stays clean and
no other slot changes. -/
theorem removeListener_clean {s : Fast} (hc : s.Clean) {key : Key}
    (hk : inherited key = none) (f : Nat) (context once : Val) :
    ∃ s1, FastEmit.removeListener s key f context once = .ok s1 ∧ s1.Clean ∧
      s1.records key = (s.records key).eraseP (fun l => l.matches f context once) ∧
      (∀ j, j ≠ key → get s1.events j = get s.events j) := by
  rcases hc.get_cases hk with ⟨hg, hown, hrec⟩ | ⟨l, hg, hown, hrec, hl⟩ |
    ⟨rs, hg, hown, hrec, h2, hall⟩
  · exact ⟨s, by simp [FastEmit.removeListener, hg], hc, by simp [hrec], fun _ _ => rfl⟩
  · by_cases hm : l.matches f context once = true
    · by_cases h0 : s.count - 1 = 0
      · refine ⟨⟨[], s.count - 1⟩, ?_, ?_, ?_, ?_⟩
        · simp [FastEmit.removeListener, hg, Handler.listener?, hm, h0]
        · exact ⟨by simp, by simp, by simp, by simp [h0]⟩
        · rw [hrec]
          simp [Fast.records, get, own, hk, hm]
        · intro j hj
          have hlen : s.events.length ≤ 1 := by
            have := hc.counted
            omega
          simp [get, own, own_eq_none_of_length_le_one hown hlen hj]
      · refine ⟨⟨del s.events key, s.count - 1⟩, ?_, ?_, ?_, ?_⟩
        · simp [FastEmit.removeListener, hg, Handler.listener?, hm, h0]
        · refine ⟨nodup_del key hc.nodup, fun p hp => hc.plain p (mem_del hp),
            fun p hp => hc.shaped p (mem_del hp), ?_⟩
          have h1 := length_del_of_own hown
          have h3 := hc.counted
          simp only
          omega
        · rw [hrec]
          simp [Fast.records, get, own_del_self key hc.nodup, hk, hm]
        · intro j hj
          exact get_del_of_ne _ hj
    · refine ⟨s, ?_, hc, ?_, fun _ _ => rfl⟩
      · simp [FastEmit.removeListener, hg, Handler.listener?, hm]
      · simp [hrec, hm]
  · have hscan := removeScan_records context once f rs
    have hall1 := all_sound_eraseP (fun l => l.matches f context once) hall
    have hlen : rs.length - 1 ≤ (rs.eraseP (fun l => l.matches f context once)).length := by
      rw [List.length_eraseP]
      split <;> omega
    rw [hrec]
    generalize rs.eraseP (fun l => l.matches f context once) = rs1 at hscan hall1 hlen
    match rs1, hscan, hall1, hlen with
    | [], _, _, hlen => simp at hlen; omega
    | [r], hscan, hall1, _ =>
      refine ⟨⟨put s.events key (.record r), s.count⟩, ?_, ?_, ?_, ?_⟩
      · simp [-List.map_map, FastEmit.removeListener, hg, Handler.listener?, Handler.elems,
          hscan, set_of_plain _ hk, Except.map, Item.toHandler]
      · exact clean_put_own hc hown ((shaped_of_records hall1).1 rfl r rfl)
      · rw [records_put_self]; rfl
      · intro j hj
        exact get_put_of_ne _ _ hj
    | r1 :: r2 :: rest, hscan, hall1, _ =>
      refine ⟨⟨put s.events key (.arr ((r1 :: r2 :: rest).map Item.record)), s.count⟩,
        ?_, ?_, ?_, ?_⟩
      · simp [-List.map_map, FastEmit.removeListener, hg, Handler.listener?, Handler.elems,
          hscan, set_of_plain _ hk, Except.map]
      · exact clean_put_own hc hown ((shaped_of_records hall1).2 (by simp))
      · rw [records_put_self]
        exact filterMap_record_map _
      · intro j hj
        exact get_put_of_ne _ _ hj

theorem copyArgs_eq (args : List Val) : FastEmit.copyArgs args = args := by
  apply List.ext_getElem
  · simp [FastEmit.copyArgs]
  · intro n h1 h2
    simp [FastEmit.copyArgs, List.getD_eq_getElem?_getD, List.getElem?_eq_getElem h2]

/-- The fast paths for up to three arguments and the slow path hand the
listener the same thing: the arguments of the emission. -/
theorem passArgs_eq (args : List Val) : FastEmit.passArgs args = args := by
  match args with
  | [] => rfl
  | [_] => rfl
  | [_, _] => rfl
  | [_, _, _] => rfl
  | a :: b :: c :: d :: rest => exact copyArgs_eq _

theorem Listener.matches_self_of_sound {l : Listener} (hs : l.sound = true)
    (ho : l.once = true) : l.matches l.listener l.context (.bool true) = true := by
  have ht : l.context.truthy = true := by
    simpa [Listener.sound, ho] using hs
  have hn : l.context ≠ .nan := by
    intro h
    rw [h] at ht
    simp [Val.truthy] at ht
  simp [Listener.matches, Val.strictEq, ho, hn]

theorem Listener.not_matches_of_not_once {l : Listener} (ho : l.once = false)
    (f : Nat) (context : Val) : l.matches f context (.bool true) = false := by
  simp [Listener.matches, ho]

/-- The loop of the multiple listener path on a clean state, at a key that
names no inherited property.  `pre` holds the records already passed that are
still registered (those not flagged `once`), `rest` the records still to
visit. -/
theorem emitLoop_clean (throws : Nat → Bool) {key : Key} (hk : inherited key = none)
    (args : List Val) (rest : List Listener) :
    ∀ (pre : List Listener) (s : Fast), s.Clean → s.records key = pre ++ rest →
      (∀ l ∈ pre, l.once = false) → rest.all Listener.sound = true →
      (∀ l ∈ rest, throws l.listener = false) →
      (FastEmit.emitLoop throws key args ((rest.map Item.record).map some) s).state.Clean ∧
      (FastEmit.emitLoop throws key args ((rest.map Item.record).map some) s).state.records
          key = pre ++ rest.filter (fun l => !l.once) ∧
      (FastEmit.emitLoop throws key args ((rest.map Item.record).map some) s).calls =
          rest.map (Listener.call args) ∧
      (FastEmit.emitLoop throws key args ((rest.map Item.record).map some) s).outcome =
          .returned true ∧
      (∀ j, j ≠ key →
        get (FastEmit.emitLoop throws key args ((rest.map Item.record).map some)
          s).state.events j = get s.events j) := by
  induction rest with
  | nil =>
    intro pre s hc hrec _ _ _
    simp [FastEmit.emitLoop, hc, hrec]
  | cons r rest ih =>
    intro pre s hc hrec hpre hall hnt
    simp only [List.all_cons, Bool.and_eq_true] at hall
    have hr : throws r.listener = false := hnt r (List.mem_cons_self _ _)
    have hnt1 : ∀ l ∈ rest, throws l.listener = false :=
      fun l hl => hnt l (List.mem_cons_of_mem _ hl)
    by_cases ho : r.once = true
    · obtain ⟨s1, hrm, hc1, hrec1, hframe1⟩ :=
        removeListener_clean hc hk r.listener r.context (.bool true)
      have hrec2 : s1.records key = pre ++ rest := by
        rw [hrec1, hrec, List.eraseP_append_right]
        · have hm := Listener.matches_self_of_sound hall.1 ho
          simp [List.eraseP_cons, hm]
        · intro b hb
          have hb1 := Listener.not_matches_of_not_once (hpre b hb) r.listener r.context
          simp [hb1]
      obtain ⟨h1, h2, h3, h4, h5⟩ := ih pre s1 hc1 hrec2 hpre hall.2 hnt1
      simp only [List.map_cons, FastEmit.emitLoop, hr, ho, hrm, if_true, Bool.false_eq_true,
        if_false]
      refine ⟨h1, ?_, ?_, h4, ?_⟩
      · rw [h2]; simp [ho]
      · rw [h3]; simp [Listener.call, passArgs_eq]
      · intro j hj
        rw [h5 j hj, hframe1 j hj]
    · have ho1 : r.once = false := by simpa using ho
      have hrec2 : s.records key = (pre ++ [r]) ++ rest := by simp [hrec]
      have hpre2 : ∀ l ∈ pre ++ [r], l.once = false := by
        intro l hl
        rcases List.mem_append.1 hl with h | h
        · exact hpre l h
        · simp at h; rw [h]; exact ho1
      obtain ⟨h1, h2, h3, h4, h5⟩ := ih (pre ++ [r]) s hc hrec2 hpre2 hall.2 hnt1
      simp only [List.map_cons, FastEmit.emitLoop, hr, ho1, Bool.false_eq_true, if_false]
      refine ⟨h1, ?_, ?_, h4, h5⟩
      · rw [h2]; simp [ho1]
      · rw [h3]; simp [Listener.call, passArgs_eq]

/-- One emission on a clean state, at a key that names no inherited property,
with listeners that do not throw: every record of the channel is called, in
order; the `once` records leave; `emit` returns whether there was a record. -/
theorem emit_clean_plain (throws : Nat → Bool) {s : Fast} (hc : s.Clean) {key : Key}
    (hk : inherited key = none) (args : List Val)
    (hnt : ∀ l ∈ s.records key, throws l.listener = false) :
    (FastEmit.emit throws s key args).state.Clean ∧
    (FastEmit.emit throws s key args).state.records key =
      (s.records key).filter (fun l => !l.once) ∧
    (FastEmit.emit throws s key args).calls = (s.records key).map (Listener.call args) ∧
    (FastEmit.emit throws s key args).outcome = .returned (!(s.records key).isEmpty) ∧
    (∀ j, j ≠ key → get (FastEmit.emit throws s key args).state.events j = get s.events j) := by
  rcases hc.get_cases hk with ⟨hg, hown, hrec⟩ | ⟨l, hg, hown, hrec, hl⟩ |
    ⟨rs, hg, hown, hrec, h2, hall⟩
  · simp [FastEmit.emit, hg, hrec, hc]
  · have hl1 : throws l.listener = false := hnt l (by simp [hrec])
    by_cases ho : l.once = true
    · obtain ⟨s1, hrm, hc1, hrec1, hframe1⟩ :=
        removeListener_clean hc hk l.listener .undefined (.bool true)
      have hm : l.matches l.listener .undefined (.bool true) = true := by
        simp [Listener.matches, ho]
      rw [hrec] at hrec1
      simp only [FastEmit.emit, hg, Handler.listener?, ho, if_true, hrm, hl1,
        Bool.false_eq_true, if_false, hrec]
      refine ⟨hc1, ?_, ?_, ?_, hframe1⟩
      · rw [hrec1]; simp [hm, ho]
      · simp [Listener.call, passArgs_eq]
      · simp
    · have ho1 : l.once = false := by simpa using ho
      simp only [FastEmit.emit, hg, Handler.listener?, ho1, Bool.false_eq_true, if_false, hl1,
        hrec]
      refine ⟨hc, ?_, ?_, ?_, fun _ _ => trivial⟩
      · simp [ho1]
      · simp [Listener.call, passArgs_eq]
      · simp
  · have hloop := emitLoop_clean throws hk args rs [] s hc (by simpa using hrec)
      (by simp) hall (by simpa [hrec] using hnt)
    have hne : rs.isEmpty = false := by
      cases rs with
      | nil => simp at h2
      | cons _ _ => rfl
    simp only [FastEmit.emit, hg, Handler.listener?, Handler.elems, hrec, hne]
    simpa using hloop

theorem mem_of_lookupStr {table : List (String × Handler)} {name : String} {h : Handler}
    (hl : lookupStr table name = some h) : h ∈ table.map Prod.snd := by
  induction table with
  | nil => simp [lookupStr] at hl
  | cons p rest ih =>
    obtain ⟨n, v⟩ := p
    by_cases hn : name = n
    · simp [lookupStr, hn] at hl
      simp [hl]
    · simp only [lookupStr, hn, if_false] at hl
      exact List.mem_cons_of_mem _ (ih hl)

theorem inherited_cases {key : Key} {h : Handler} (hi : inherited key = some h) :
    (∃ n, h = .fn n) ∨ h = .protoObj := by
  cases key with
  | sym id => simp [inherited] at hi
  | str name =>
    have hmem := mem_of_lookupStr hi
    simp only [inheritedTable, List.map_cons, List.map_nil, List.mem_cons,
      List.mem_singleton] at hmem
    rcases hmem with h | h | h | h | h | h | h | h | h | h | h | h | h <;> simp_all

/-- One emission on a clean state at a key that names an inherited property:
the state does not change and nothing is called. -/
theorem emit_clean_not_plain (throws : Nat → Bool) {s : Fast} (hc : s.Clean) {key : Key}
    (hk : inherited key ≠ none) (args : List Val) :
    (FastEmit.emit throws s key args).state = s ∧
    (FastEmit.emit throws s key args).calls = [] ∧ s.records key = [] := by
  have hown := hc.own_of_not_plain hk
  cases hi : inherited key with
  | none => exact absurd hi hk
  | some h =>
    have hg : get s.events key = some h := by simp [get, hown, hi]
    rcases inherited_cases hi with ⟨n, rfl⟩ | rfl
    · cases n with
      | zero =>
        simp [FastEmit.emit, hg, Handler.listener?, Handler.elems, FastEmit.emitLoop,
          Fast.records, Handler.records]
      | succ m =>
        simp [FastEmit.emit, hg, Handler.listener?, Handler.elems, FastEmit.emitLoop,
          Fast.records, Handler.records, List.replicate_succ]
    · simp [FastEmit.emit, hg, Handler.listener?, Handler.elems, FastEmit.emitLoop,
        Fast.records, Handler.records]

/-- In a clean state `listenerCount` at a key that names no inherited property
is the number of records of the channel. -/
theorem listenerCount_clean {e : Emitter} (hc : e.Clean) {key : Key}
    (hk : inherited key = none) :
    e.listenerCount key = .num (e.records key).length := by
  cases e with
  | lazy => rfl
  | fast s =>
    rcases Fast.Clean.get_cases hc hk with ⟨hg, _, hrec⟩ | ⟨l, hg, _, hrec, _⟩ |
      ⟨rs, hg, _, hrec, _, _⟩ <;>
    simp [Emitter.listenerCount, Emit.listenerCount, Emitter.records, hg, hrec,
      Handler.listener?, Handler.length]

/-- In a clean state `listeners` at a key that names no inherited property is
the callbacks of the records of the channel, in order. -/
theorem listeners_clean {e : Emitter} (hc : e.Clean) {key : Key}
    (hk : inherited key = none) :
    e.listeners key = .ok ((e.records key).map (fun l => Val.fn l.listener)) := by
  cases e with
  | lazy => rfl
  | fast s =>
    rcases Fast.Clean.get_cases hc hk with ⟨hg, _, hrec⟩ | ⟨l, hg, _, hrec, _⟩ |
      ⟨rs, hg, _, hrec, _, _⟩
    · simp [Emitter.listeners, Emit.listeners, Emitter.records, hg, hrec]
    · simp [Emitter.listeners, Emit.listeners, Emitter.records, hg, hrec]
    · simp only [Emitter.listeners, Emit.listeners, Emitter.records, hg, hrec, List.map_map]
      rfl

/-! ## Lemmas on method calls -/

theorem Emitter.on_eq (e : Emitter) (key : Key) (f : Nat) (context : Val) :
    e.on key f context =
      (register false ⟨f, contextOrThis context, false⟩ (init e) key).map .fast := by
  cases e <;> simp [Emitter.on, Emit.on, init, addListener_eq_register]

theorem Emitter.addListener_eq (e : Emitter) (key : Key) (f : Nat) (context : Val) :
    e.addListener key f context =
      (register false ⟨f, contextOrThis context, false⟩ (init e) key).map .fast := by
  cases e <;> simp [Emitter.addListener, Emit.addListener, Emit.on, init, addListener_eq_register]

theorem Emitter.once_eq (e : Emitter) (key : Key) (f : Nat) (context : Val) :
    e.once key f context =
      (register false ⟨f, truthyContextOrThis context, true⟩ (init e) key).map .fast := by
  cases e <;> simp [Emitter.once, Emit.once, init, once_eq_register]

theorem Emitter.prependListener_eq (e : Emitter) (key : Key) (f : Nat) (context : Val) :
    e.prependListener key f context =
      (register true ⟨f, contextOrThis context, false⟩ (init e) key).map .fast :=
  prependListener_eq_register e key f context

theorem Emitter.prependOnceListener_eq (e : Emitter) (key : Key) (f : Nat) (context : Val) :
    e.prependOnceListener key f context =
      (register true ⟨f, truthyContextOrThis context, true⟩ (init e) key).map .fast :=
  prependOnceListener_eq_register e key f context

theorem sound_plain_record (f : Nat) (context : Val) :
    Listener.sound ⟨f, contextOrThis context, false⟩ = true := rfl

theorem sound_once_record (f : Nat) (context : Val) :
    Listener.sound ⟨f, truthyContextOrThis context, true⟩ = true := by
  by_cases h : context.truthy = true
  · simp [Listener.sound, truthyContextOrThis, h]
  · simp only [Listener.sound, truthyContextOrThis, h, if_false]
    rfl

theorem records_of_inherited (count : Int) (key : Key) :
    Fast.records { events := [], count := count } key = [] := by
  cases hi : inherited key with
  | none => simp [Fast.records, get, own, hi]
  | some h =>
    rcases inherited_cases hi with ⟨n, rfl⟩ | rfl <;>
      simp [Fast.records, get, own, hi, Handler.records]

theorem records_init (e : Emitter) (key : Key) : (init e).records key = e.records key := by
  cases e with
  | lazy => exact records_of_inherited 0 key
  | fast s => rfl

theorem Emitter.records_eq_nil_of_not_plain {e : Emitter} (hc : e.Clean) {key : Key}
    (hk : inherited key ≠ none) : e.records key = [] := by
  cases e with
  | lazy => rfl
  | fast s => exact (emit_clean_not_plain (fun _ => false) hc hk []).2.2

theorem Emitter.plain_of_records_ne_nil {e : Emitter} (hc : e.Clean) {key : Key}
    (hne : e.records key ≠ []) : inherited key = none := by
  by_contra hk
  exact hne (Emitter.records_eq_nil_of_not_plain hc hk)

/-- A registration through any of the five methods, seen on the emitter: the
record joins the channel, the state stays clean, every other channel keeps its
records. -/
theorem Emitter.registered_clean {e : Emitter} (hc : e.Clean) {key : Key}
    (hk : inherited key = none) (front : Bool) {r : Listener} (hr : r.sound = true) :
    ∃ e1, (register front r (init e) key).map Emitter.fast = .ok e1 ∧ e1.Clean ∧
      e1.records key = (if front then r :: e.records key else e.records key ++ [r]) ∧
      (∀ j, j ≠ key → e1.records j = e.records j) := by
  obtain ⟨s1, h1, h2, h3, h4⟩ := EmitJs.register_clean hc.init hk front hr
  refine ⟨.fast s1, by simp [h1, Except.map], h2, ?_, ?_⟩
  · simpa [Emitter.records, records_init] using h3
  · intro j hj
    have := h4 j hj
    rw [← records_init e j]
    simp [Emitter.records, Fast.records, this]

/-- A removal seen on the emitter, in a clean state at a key that names no
inherited property. -/
theorem Emitter.removed_clean {e : Emitter} (hc : e.Clean) {key : Key}
    (hk : inherited key = none) (f : Nat) (context once : Val) :
    ∃ e1, e.removeListener key f context once = .ok e1 ∧ e1.Clean ∧
      e1.records key = (e.records key).eraseP (fun l => l.matches f context once) ∧
      (∀ j, j ≠ key → e1.records j = e.records j) := by
  cases e with
  | lazy =>
    exact ⟨.lazy, rfl, trivial, by simp [Emitter.records], fun _ _ => rfl⟩
  | fast s =>
    obtain ⟨s1, h1, h2, h3, h4⟩ := EmitJs.removeListener_clean hc hk f context once
    refine ⟨.fast s1, by simp [Emitter.removeListener, h1, Except.map], h2, h3, ?_⟩
    intro j hj
    simp [Emitter.records, Fast.records, h4 j hj]

theorem Emitter.off_eq_removeListener (e : Emitter) (key : Key) (f : Nat)
    (context once : Val) : e.off key f context once = e.removeListener key f context once := by
  cases e <;> rfl

/-- One emission seen on the emitter, in a clean state, with listeners that do
not throw. -/
theorem Emitter.emit_clean (throws : Nat → Bool) {e : Emitter} (hc : e.Clean) (key : Key)
    (args : List Val) (hnt : ∀ l ∈ e.records key, throws l.listener = false) :
    (e.emit throws key args).state.Clean ∧
    (e.emit throws key args).state.records key = (e.records key).filter (fun l => !l.once) ∧
    (e.emit throws key args).calls = (e.records key).map (Listener.call args) ∧
    (∀ j, j ≠ key → (e.emit throws key args).state.records j = e.records j) := by
  cases e with
  | lazy => simp [Emitter.emit, Emit.emit, Emitter.records, Emitter.Clean]
  | fast s =>
    by_cases hk : inherited key = none
    · obtain ⟨h1, h2, h3, _, h5⟩ := emit_clean_plain throws hc hk args hnt
      refine ⟨h1, h2, h3, ?_⟩
      intro j hj
      simp [Emitter.emit, Emitter.records, Fast.records, h5 j hj]
    · obtain ⟨h1, h2, h3⟩ := emit_clean_not_plain throws hc hk args
      simp only [Emitter.emit, Emitter.records, h1, h2, h3]
      exact ⟨hc, by simp, by simp, fun _ _ => trivial⟩

/-- In a clean state `emit` at a key that names no inherited property returns
true exactly when the channel holds a record. -/
theorem Emitter.emit_outcome_clean (throws : Nat → Bool) {e : Emitter} (hc : e.Clean)
    {key : Key} (hk : inherited key = none) (args : List Val)
    (hnt : ∀ l ∈ e.records key, throws l.listener = false) :
    (e.emit throws key args).outcome = .returned (!(e.records key).isEmpty) := by
  cases e with
  | lazy => rfl
  | fast s => exact (emit_clean_plain throws hc hk args hnt).2.2.2.1

theorem sampleMixed_clean : sampleMixed.Clean :=
  ⟨by decide, by decide, by decide, by decide⟩

theorem sampleOnce_clean : sampleOnce.Clean :=
  ⟨by decide, by decide, by decide, by decide⟩

theorem sampleSingle_clean : sampleSingle.Clean :=
  ⟨by decide, by decide, by decide, by decide⟩

theorem Emitter.perform_eq (e : Emitter) (g : Registration) :
    e.perform g = (register g.method.front g.record (init e) g.event).map .fast := by
  obtain ⟨m, k, f, c⟩ := g
  cases m <;>
    simp [Emitter.perform, Registration.record, Method.front, Emitter.on_eq,
      Emitter.addListener_eq, Emitter.once_eq, Emitter.prependListener_eq,
      Emitter.prependOnceListener_eq]

theorem Registration.record_sound (g : Registration) : g.record.sound = true := by
  obtain ⟨m, k, f, c⟩ := g
  cases m <;> simp [Registration.record, sound_plain_record, sound_once_record]

theorem Registration.record_listener (g : Registration) : g.record.listener = g.listener := by
  obtain ⟨m, k, f, c⟩ := g
  cases m <;> rfl

/-- One registration call at a key that names no inherited property, in a clean
state. -/
theorem Emitter.perform_clean {e : Emitter} (hc : e.Clean) (g : Registration)
    (hk : inherited g.event = none) :
    ∃ e1, e.perform g = .ok e1 ∧ e1.Clean ∧
      e1.records g.event =
        (if g.method.front then g.record :: e.records g.event
          else e.records g.event ++ [g.record]) ∧
      (∀ j, j ≠ g.event → e1.records j = e.records j) := by
  rw [Emitter.perform_eq]
  exact Emitter.registered_clean hc hk g.method.front g.record_sound

/-- Registrations through `on`, `addListener` and `once` on one channel add
their records at the end, in call order. -/
theorem Emitter.performAll_append (regs : List Registration) :
    ∀ {e : Emitter}, e.Clean → ∀ {key : Key}, inherited key = none →
      (∀ g ∈ regs, g.event = key ∧ g.method.front = false) →
      ∃ e1, e.performAll regs = .ok e1 ∧ e1.Clean ∧
        e1.records key = e.records key ++ regs.map Registration.record := by
  induction regs with
  | nil =>
    intro e hc key _ _
    exact ⟨e, rfl, hc, by simp⟩
  | cons g rest ih =>
    intro e hc key hk hall
    obtain ⟨hg1, hg2⟩ := hall g (List.mem_cons_self _ _)
    subst hg1
    obtain ⟨e1, h1, h2, h3, _⟩ := Emitter.perform_clean hc g hk
    obtain ⟨e2, h5, h6, h7⟩ := ih h2 hk (fun x hx => hall x (List.mem_cons_of_mem _ hx))
    refine ⟨e2, by simp [Emitter.performAll, h1, h5], h6, ?_⟩
    rw [h7, h3]
    simp [hg2]

/-- On a channel without listeners whose key names no inherited property, `n`
registrations through `on`, `addListener` and `once` give `listenerCount = n`
and `listeners` equal to the callbacks in call order. -/
theorem registrations_on_empty_channel {e : Emitter} (hc : e.Clean) {key : Key}
    (hk : inherited key = none) (hempty : e.records key = [])
    (regs : List Registration)
    (hall : ∀ g ∈ regs, g.event = key ∧ g.method.front = false) :
    ∃ e1, e.performAll regs = .ok e1 ∧ e1.listenerCount key = .num regs.length ∧
      e1.listeners key = .ok (regs.map (fun g => Val.fn g.listener)) := by
  obtain ⟨e1, h1, h2, h3⟩ := Emitter.performAll_append regs hc hk hall
  refine ⟨e1, h1, ?_, ?_⟩
  · rw [listenerCount_clean h2 hk, h3, hempty]
    simp
  · rw [listeners_clean h2 hk, h3, hempty]
    simp [Registration.record_listener]

/-- In a clean initialised state `listeners` at a key that names an inherited
property fails: the inherited value has no `map`. -/
theorem listeners_not_plain {s : Fast} (hc : s.Clean) {key : Key}
    (hk : inherited key ≠ none) :
    (Emitter.fast s).listeners key = .error .typeError := by
  have hown := hc.own_of_not_plain hk
  cases hi : inherited key with
  | none => exact absurd hi hk
  | some h =>
    have hg : get s.events key = some h := by simp [get, hown, hi]
    rcases inherited_cases hi with ⟨n, rfl⟩ | rfl <;>
      simp [Emitter.listeners, Emit.listeners, hg]

/-! ## The claims -/

/-- C1 (the code departs from the claim): the channel `constructor` of a fresh
emitter has no listeners (`listenerCount` is 0, `listeners` is empty), yet after
one registration through `on` its `listenerCount` is 2 and its `listeners` are
`[undefined, f]`: the slot already read as the inherited function `EventSet`,
which is paired with the new record. -/
theorem C1_constructor_channel_counts_two :
    Emitter.lazy.listenerCount (.str "constructor") = .num 0 ∧
    Emitter.lazy.listeners (.str "constructor") = .ok [] ∧
    ∃ e1, Emitter.lazy.on (.str "constructor") 7 .undefined = .ok e1 ∧
      e1.listenerCount (.str "constructor") = .num 2 ∧
      e1.listeners (.str "constructor") = .ok [.undefined, .fn 7] :=
  ⟨rfl, rfl, _, rfl, rfl, rfl⟩

/-- C2: on a channel holding two or more records, `off` and `removeListener`
(the same function) take out exactly the first record, in `listeners` order,
that has the given callback, the given context when one is given, and the
`once` flag when `onlyOnce` is given; every other record stays, in order
(`List.eraseP`).  And after `on('x', f)`, `on('x', f)`, one `off('x', f)` leaves
`listenerCount('x') = 1`. -/
theorem C2_off_removes_first_match (e : Emitter) (hc : e.Clean) (key : Key) (f : Nat)
    (context once : Val) (h2 : 2 ≤ (e.records key).length) :
    (∃ e1, e.off key f context once = .ok e1 ∧
      e.removeListener key f context once = .ok e1 ∧
      e1.records key = (e.records key).eraseP (fun l => l.matches f context once) ∧
      e1.listeners key = .ok (((e.records key).eraseP
        (fun l => l.matches f context once)).map (fun l => Val.fn l.listener))) ∧
    (∀ g : Nat, ∃ e1 e2 e3, Emitter.lazy.on (.str "x") g .undefined = .ok e1 ∧
      e1.on (.str "x") g .undefined = .ok e2 ∧
      e2.off (.str "x") g .undefined .undefined = .ok e3 ∧
      e3.listenerCount (.str "x") = .num 1) := by
  constructor
  · have hk : inherited key = none :=
      Emitter.plain_of_records_ne_nil hc (by intro h; rw [h] at h2; simp at h2)
    obtain ⟨e1, h1, h3, h4, _⟩ := Emitter.removed_clean hc hk f context once
    refine ⟨e1, by rw [Emitter.off_eq_removeListener, h1], h1, h4, ?_⟩
    rw [listeners_clean h3 hk, h4]
  · intro g
    have hx : inherited (.str "x") = none := by decide
    obtain ⟨e1, h1, c1, r1, _⟩ :=
      Emitter.perform_clean (e := .lazy) trivial ⟨.on, .str "x", g, .undefined⟩ hx
    obtain ⟨e2, h2, c2, r2, _⟩ := Emitter.perform_clean c1 ⟨.on, .str "x", g, .undefined⟩ hx
    obtain ⟨e3, h3, c3, r3, _⟩ :=
      Emitter.removed_clean c2 hx g .undefined .undefined
    refine ⟨e1, e2, e3, h1, h2, by rw [Emitter.off_eq_removeListener, h3], ?_⟩
    rw [listenerCount_clean c3 hx, r3, r2, r1]
    simp [Method.front, Registration.record, Emitter.records, Listener.matches]

/-- Witness for C2, on the channel `x` of `sampleMixed`. -/
theorem C2_off_removes_first_match_witness :
    2 ≤ (sampleMixed.records (.str "x")).length ∧
    ∃ e1, sampleMixed.off (.str "x") 1 .undefined .undefined = .ok e1 ∧
      sampleMixed.removeListener (.str "x") 1 .undefined .undefined = .ok e1 ∧
      e1.records (.str "x") = (sampleMixed.records (.str "x")).eraseP
        (fun l => l.matches 1 .undefined .undefined) ∧
      e1.listeners (.str "x") = .ok (((sampleMixed.records (.str "x")).eraseP
        (fun l => l.matches 1 .undefined .undefined)).map (fun l => Val.fn l.listener)) :=
  ⟨by decide,
    (C2_off_removes_first_match sampleMixed sampleMixed_clean (.str "x") 1 .undefined
      .undefined (by decide)).1⟩

/-- In every well-formed state and for every key, `emit` with listeners
that neither call back into the emitter nor throw invokes exactly the records
registered on the key, each once, in order, each on its own context and with
the arguments of the emission; the order is that of `listeners(key)`.  No other
call is made, so no record of another key is invoked. -/
theorem emit_calls_every_record_in_order_clean (throws : Nat → Bool) (e : Emitter)
    (hc : e.Clean) (key : Key) (args : List Val)
    (hnt : ∀ l ∈ e.records key, throws l.listener = false) :
    (e.emit throws key args).calls = (e.records key).map (Listener.call args) ∧
    (∀ fs, e.listeners key = .ok fs →
      fs = (e.emit throws key args).calls.map (fun c => Val.fn c.listener)) := by
  have h3 := (Emitter.emit_clean throws hc key args hnt).2.2.1
  refine ⟨h3, ?_⟩
  intro fs hfs
  rw [h3]
  by_cases hk : inherited key = none
  · rw [listeners_clean hc hk] at hfs
    simp only [Except.ok.injEq] at hfs
    rw [← hfs]
    simp [Listener.call]
  · cases e with
    | lazy =>
      simp only [Emitter.listeners, Emit.listeners, Except.ok.injEq] at hfs
      simp [← hfs, Emitter.records]
    | fast s =>
      rw [listeners_not_plain hc hk] at hfs
      cases hfs

/-- An instance on the channel `x` of `sampleMixed`. -/
theorem emit_calls_every_record_in_order_clean_instance :
    (∀ l ∈ sampleMixed.records (.str "x"), noThrow l.listener = false) ∧
    (sampleMixed.emit noThrow (.str "x") [.num 5]).calls =
      (sampleMixed.records (.str "x")).map (Listener.call [.num 5]) ∧
    (∀ fs, sampleMixed.listeners (.str "x") = .ok fs →
      fs = (sampleMixed.emit noThrow (.str "x") [.num 5]).calls.map
        (fun c => Val.fn c.listener)) :=
  ⟨fun _ _ => rfl,
    emit_calls_every_record_in_order_clean noThrow sampleMixed sampleMixed_clean (.str "x")
      [.num 5] (fun _ _ => rfl)⟩

/-- C4 (the code departs from the claim): after `on('a', f)` nothing is
registered on `constructor` (`listenerCount` is 0, the channel holds no record),
yet `emit('constructor')` returns true, calling nothing: `this[EVENTS][event]`
reads the inherited function `EventSet`, which is not `undefined`. -/
theorem C4_emit_constructor_returns_true :
    ∃ e1, Emitter.lazy.on (.str "a") 7 .undefined = .ok e1 ∧
      e1.listenerCount (.str "constructor") = .num 0 ∧
      e1.records (.str "constructor") = [] ∧
      (e1.emit noThrow (.str "constructor") []).outcome = .returned true ∧
      (e1.emit noThrow (.str "constructor") []).calls = [] ∧
      (Emitter.lazy.emit noThrow (.str "constructor") []).outcome = .returned false :=
  ⟨_, rfl, rfl, rfl, rfl, rfl, rfl⟩

/-- In a well-formed state, on a channel whose records, one or more, are all `once` records, the
first `emit` returns true and invokes each record once; afterwards
`listenerCount` is 0 and `listeners` is empty, and a second `emit` returns false
and invokes nothing. -/
theorem once_channel_fires_once_clean (throws : Nat → Bool) (e : Emitter) (hc : e.Clean)
    (key : Key) (args1 args2 : List Val) (hne : e.records key ≠ [])
    (honce : ∀ l ∈ e.records key, l.once = true)
    (hnt : ∀ l ∈ e.records key, throws l.listener = false) :
    (e.emit throws key args1).outcome = .returned true ∧
    (e.emit throws key args1).calls = (e.records key).map (Listener.call args1) ∧
    (e.emit throws key args1).state.listenerCount key = .num 0 ∧
    (e.emit throws key args1).state.listeners key = .ok [] ∧
    ((e.emit throws key args1).state.emit throws key args2).outcome = .returned false ∧
    ((e.emit throws key args1).state.emit throws key args2).calls = [] := by
  have hk : inherited key = none := Emitter.plain_of_records_ne_nil hc hne
  obtain ⟨h1, h2, h3, _⟩ := Emitter.emit_clean throws hc key args1 hnt
  have hout := Emitter.emit_outcome_clean throws hc hk args1 hnt
  have hnil : (e.emit throws key args1).state.records key = [] := by
    rw [h2, List.filter_eq_nil_iff]
    intro l hl
    simp [honce l hl]
  have hnt2 : ∀ l ∈ (e.emit throws key args1).state.records key, throws l.listener = false := by
    rw [hnil]; intro l hl; cases hl
  refine ⟨?_, h3, ?_, ?_, ?_, ?_⟩
  · rw [hout]
    cases hr : e.records key with
    | nil => exact absurd hr hne
    | cons _ _ => rfl
  · rw [listenerCount_clean h1 hk, hnil]; rfl
  · rw [listeners_clean h1 hk, hnil]; rfl
  · rw [Emitter.emit_outcome_clean throws h1 hk args2 hnt2, hnil]; rfl
  · rw [(Emitter.emit_clean throws h1 key args2 hnt2).2.2.1, hnil]; rfl

/-- An instance on the channel `x` of `sampleOnce`. -/
theorem once_channel_fires_once_clean_instance :
    sampleOnce.records (.str "x") ≠ [] ∧
    (∀ l ∈ sampleOnce.records (.str "x"), l.once = true) ∧
    (∀ l ∈ sampleOnce.records (.str "x"), noThrow l.listener = false) ∧
    (sampleOnce.emit noThrow (.str "x") []).outcome = .returned true ∧
    (sampleOnce.emit noThrow (.str "x") []).calls =
      (sampleOnce.records (.str "x")).map (Listener.call []) ∧
    (sampleOnce.emit noThrow (.str "x") []).state.listenerCount (.str "x") = .num 0 ∧
    (sampleOnce.emit noThrow (.str "x") []).state.listeners (.str "x") = .ok [] ∧
    ((sampleOnce.emit noThrow (.str "x") []).state.emit noThrow (.str "x") []).outcome =
      .returned false ∧
    ((sampleOnce.emit noThrow (.str "x") []).state.emit noThrow (.str "x") []).calls = [] :=
  ⟨by decide, by decide, fun _ _ => rfl,
    once_channel_fires_once_clean noThrow sampleOnce sampleOnce_clean (.str "x") [] []
      (by decide) (by decide) (fun _ _ => rfl)⟩

/-- In a well-formed state, after one `emit` with listeners that neither call back nor throw, the
channel holds exactly its records that are not `once`, in their original
order. -/
theorem emit_keeps_the_other_records_clean (throws : Nat → Bool) (e : Emitter) (hc : e.Clean)
    (key : Key) (args : List Val)
    (hnt : ∀ l ∈ e.records key, throws l.listener = false) :
    (e.emit throws key args).state.records key =
      (e.records key).filter (fun l => !l.once) :=
  (Emitter.emit_clean throws hc key args hnt).2.1

/-- An instance on the channel `x` of `sampleMixed`. -/
theorem emit_keeps_the_other_records_clean_instance :
    (∀ l ∈ sampleMixed.records (.str "x"), noThrow l.listener = false) ∧
    (sampleMixed.emit noThrow (.str "x") []).state.records (.str "x") =
      (sampleMixed.records (.str "x")).filter (fun l => !l.once) :=
  ⟨fun _ _ => rfl,
    emit_keeps_the_other_records_clean noThrow sampleMixed sampleMixed_clean (.str "x") []
      (fun _ _ => rfl)⟩

/-- In a clean state, at a key that names no inherited property,
`prependListener` and `prependOnceListener` put the callback in front of the
previous `listeners`, and `emit` calls it first. -/
theorem prepend_listeners_clean {e : Emitter} (hc : e.Clean) {key : Key}
    (hk : inherited key = none) (f : Nat) (context : Val) :
    (∃ e1 fs, e.prependListener key f context = .ok e1 ∧ e.listeners key = .ok fs ∧
      e1.listeners key = .ok (Val.fn f :: fs)) ∧
    (∃ e1 fs, e.prependOnceListener key f context = .ok e1 ∧ e.listeners key = .ok fs ∧
      e1.listeners key = .ok (Val.fn f :: fs)) := by
  constructor
  · obtain ⟨e1, h1, h2, h3, _⟩ :=
      Emitter.perform_clean hc ⟨.prependListener, key, f, context⟩ hk
    refine ⟨e1, _, h1, listeners_clean hc hk, ?_⟩
    rw [listeners_clean h2 hk, h3]
    simp [Method.front, Registration.record]
  · obtain ⟨e1, h1, h2, h3, _⟩ :=
      Emitter.perform_clean hc ⟨.prependOnceListener, key, f, context⟩ hk
    refine ⟨e1, _, h1, listeners_clean hc hk, ?_⟩
    rw [listeners_clean h2 hk, h3]
    simp [Method.front, Registration.record]

/-- C7 (the code departs from the claim): on a fresh emitter `listeners` of the
channel `constructor` is empty, and after `prependListener('constructor', f)` it
is `[f, undefined]`, not `f` followed by the previous listeners: the record is
paired with the inherited function `EventSet`.  The same holds for
`prependOnceListener`. -/
theorem C7_prepend_on_constructor_channel :
    Emitter.lazy.listeners (.str "constructor") = .ok [] ∧
    (∃ e1, Emitter.lazy.prependListener (.str "constructor") 7 .undefined = .ok e1 ∧
      e1.listeners (.str "constructor") = .ok [.fn 7, .undefined]) ∧
    (∃ e1, Emitter.lazy.prependOnceListener (.str "constructor") 7 .undefined = .ok e1 ∧
      e1.listeners (.str "constructor") = .ok [.fn 7, .undefined]) :=
  ⟨rfl, ⟨_, rfl, rfl⟩, ⟨_, rfl, rfl⟩⟩

/-- C8: a listener registered with `on`, `addListener` or `prependListener` is
invoked by `emit` on the context given at registration, whatever the value, and
on the emitter itself when the argument was omitted (read as `undefined`): the
emission after the registration makes the calls of the emission before it and,
at the end (in front for `prependListener`), the call of the new listener on
that receiver. -/
theorem C8_receiver_is_the_context (throws : Nat → Bool) (e : Emitter) (hc : e.Clean)
    (key : Key) (hk : inherited key = none) (f : Nat) (context : Val) (args : List Val)
    (hf : throws f = false) (hnt : ∀ l ∈ e.records key, throws l.listener = false) :
    (∃ e1, e.on key f context = .ok e1 ∧ e.addListener key f context = .ok e1 ∧
      (e1.emit throws key args).calls = (e.emit throws key args).calls ++
        [⟨f, if context = .undefined then .self else context, args⟩]) ∧
    (∃ e1, e.prependListener key f context = .ok e1 ∧
      (e1.emit throws key args).calls =
        ⟨f, if context = .undefined then .self else context, args⟩ ::
          (e.emit throws key args).calls) := by
  have h0 := (Emitter.emit_clean throws hc key args hnt).2.2.1
  constructor
  · obtain ⟨e1, h1, h2, h3, _⟩ := Emitter.perform_clean hc ⟨.on, key, f, context⟩ hk
    have h1a : e.addListener key f context = .ok e1 := by
      rw [Emitter.addListener_eq, ← Emitter.on_eq]; exact h1
    have hnt1 : ∀ l ∈ e1.records key, throws l.listener = false := by
      rw [h3]
      intro l hl
      simp only [Method.front, Bool.false_eq_true, if_false, List.mem_append,
        List.mem_singleton] at hl
      rcases hl with hl | hl
      · exact hnt l hl
      · rw [hl]; exact hf
    refine ⟨e1, h1, h1a, ?_⟩
    rw [(Emitter.emit_clean throws h2 key args hnt1).2.2.1, h0, h3]
    simp [Method.front, Registration.record, Listener.call, contextOrThis]
  · obtain ⟨e1, h1, h2, h3, _⟩ :=
      Emitter.perform_clean hc ⟨.prependListener, key, f, context⟩ hk
    have hnt1 : ∀ l ∈ e1.records key, throws l.listener = false := by
      rw [h3]
      intro l hl
      simp only [Method.front, if_true, List.mem_cons] at hl
      rcases hl with hl | hl
      · rw [hl]; exact hf
      · exact hnt l hl
    refine ⟨e1, h1, ?_⟩
    rw [(Emitter.emit_clean throws h2 key args hnt1).2.2.1, h0, h3]
    simp [Method.front, Registration.record, Listener.call, contextOrThis]

/-- Witness for C8, on the channel `x` of `sampleSingle` with the context
`null`. -/
theorem C8_receiver_is_the_context_witness :
    inherited (.str "x") = none ∧ noThrow 3 = false ∧
    (∀ l ∈ sampleSingle.records (.str "x"), noThrow l.listener = false) ∧
    (∃ e1, sampleSingle.on (.str "x") 3 .null = .ok e1 ∧
      sampleSingle.addListener (.str "x") 3 .null = .ok e1 ∧
      (e1.emit noThrow (.str "x") []).calls =
        (sampleSingle.emit noThrow (.str "x") []).calls ++
          [⟨3, if Val.null = .undefined then .self else .null, []⟩]) ∧
    (∃ e1, sampleSingle.prependListener (.str "x") 3 .null = .ok e1 ∧
      (e1.emit noThrow (.str "x") []).calls =
        ⟨3, if Val.null = .undefined then .self else .null, []⟩ ::
          (sampleSingle.emit noThrow (.str "x") []).calls) :=
  ⟨by decide, rfl, fun _ _ => rfl,
    C8_receiver_is_the_context noThrow sampleSingle sampleSingle_clean (.str "x")
      (by decide) 3 .null [] rfl (fun _ _ => rfl)⟩

/-- In a clean state, at a key that names no inherited property, a listener
registered with `once` or `prependOnceListener` is invoked on `context || this`:
on the context when it is truthy, on the emitter otherwise. -/
theorem once_receiver_clean (throws : Nat → Bool) {e : Emitter} (hc : e.Clean)
    {key : Key} (hk : inherited key = none) (f : Nat) (context : Val) (args : List Val)
    (hf : throws f = false) (hnt : ∀ l ∈ e.records key, throws l.listener = false) :
    (∃ e1, e.once key f context = .ok e1 ∧
      (e1.emit throws key args).calls = (e.emit throws key args).calls ++
        [⟨f, if context.truthy then context else .self, args⟩]) ∧
    (∃ e1, e.prependOnceListener key f context = .ok e1 ∧
      (e1.emit throws key args).calls =
        ⟨f, if context.truthy then context else .self, args⟩ ::
          (e.emit throws key args).calls) := by
  have h0 := (Emitter.emit_clean throws hc key args hnt).2.2.1
  constructor
  · obtain ⟨e1, h1, h2, h3, _⟩ := Emitter.perform_clean hc ⟨.once, key, f, context⟩ hk
    have hnt1 : ∀ l ∈ e1.records key, throws l.listener = false := by
      rw [h3]
      intro l hl
      simp only [Method.front, Bool.false_eq_true, if_false, List.mem_append,
        List.mem_singleton] at hl
      rcases hl with hl | hl
      · exact hnt l hl
      · rw [hl]; exact hf
    refine ⟨e1, h1, ?_⟩
    rw [(Emitter.emit_clean throws h2 key args hnt1).2.2.1, h0, h3]
    simp [Method.front, Registration.record, Listener.call, truthyContextOrThis]
  · obtain ⟨e1, h1, h2, h3, _⟩ :=
      Emitter.perform_clean hc ⟨.prependOnceListener, key, f, context⟩ hk
    have hnt1 : ∀ l ∈ e1.records key, throws l.listener = false := by
      rw [h3]
      intro l hl
      simp only [Method.front, if_true, List.mem_cons] at hl
      rcases hl with hl | hl
      · rw [hl]; exact hf
      · exact hnt l hl
    refine ⟨e1, h1, ?_⟩
    rw [(Emitter.emit_clean throws h2 key args hnt1).2.2.1, h0, h3]
    simp [Method.front, Registration.record, Listener.call, truthyContextOrThis]

/-- C9 (the code departs from the claim): a listener registered with `once` or
`prependOnceListener` and the context `null`, `0`, `false` or the empty string
is invoked on the emitter itself, not on that context: the record stores
`context || this`, where `addListener` tests `context === undefined`. -/
theorem C9_once_drops_falsy_context :
    (∃ e1, Emitter.lazy.once (.str "x") 7 .null = .ok e1 ∧
      (e1.emit noThrow (.str "x") []).calls = [⟨7, .self, []⟩]) ∧
    (∃ e1, Emitter.lazy.once (.str "x") 7 (.num 0) = .ok e1 ∧
      (e1.emit noThrow (.str "x") []).calls = [⟨7, .self, []⟩]) ∧
    (∃ e1, Emitter.lazy.once (.str "x") 7 (.bool false) = .ok e1 ∧
      (e1.emit noThrow (.str "x") []).calls = [⟨7, .self, []⟩]) ∧
    (∃ e1, Emitter.lazy.once (.str "x") 7 (.str "") = .ok e1 ∧
      (e1.emit noThrow (.str "x") []).calls = [⟨7, .self, []⟩]) ∧
    (∃ e1, Emitter.lazy.prependOnceListener (.str "x") 7 .null = .ok e1 ∧
      (e1.emit noThrow (.str "x") []).calls = [⟨7, .self, []⟩]) ∧
    (∃ e1, Emitter.lazy.on (.str "x") 7 .null = .ok e1 ∧
      (e1.emit noThrow (.str "x") []).calls = [⟨7, .null, []⟩]) :=
  ⟨⟨_, rfl, rfl⟩, ⟨_, rfl, rfl⟩, ⟨_, rfl, rfl⟩, ⟨_, rfl, rfl⟩, ⟨_, rfl, rfl⟩, ⟨_, rfl, rfl⟩⟩

/-- Isolation in a clean state, for a key `b` that names no inherited property:
registering, removing or emitting on another such key `a` leaves `listenerCount`
and `listeners` of `b` as they were, and `emit` on `a` invokes the records of `a`
only. -/
theorem isolation_clean (throws : Nat → Bool) {e : Emitter} (hc : e.Clean) {a b : Key}
    (ha : inherited a = none) (hb : inherited b = none) (hab : b ≠ a) :
    (∀ g : Registration, g.event = a → ∃ e1, e.perform g = .ok e1 ∧
      e1.listenerCount b = e.listenerCount b ∧ e1.listeners b = e.listeners b) ∧
    (∀ f context once, ∃ e1, e.off a f context once = .ok e1 ∧
      e.removeListener a f context once = .ok e1 ∧
      e1.listenerCount b = e.listenerCount b ∧ e1.listeners b = e.listeners b) ∧
    (∀ args, (∀ l ∈ e.records a, throws l.listener = false) →
      (e.emit throws a args).state.listenerCount b = e.listenerCount b ∧
      (e.emit throws a args).state.listeners b = e.listeners b ∧
      (e.emit throws a args).calls = (e.records a).map (Listener.call args)) := by
  refine ⟨?_, ?_, ?_⟩
  · intro g hg
    subst hg
    obtain ⟨e1, h1, h2, _, h4⟩ := Emitter.perform_clean hc g ha
    exact ⟨e1, h1, by rw [listenerCount_clean h2 hb, listenerCount_clean hc hb, h4 b hab],
      by rw [listeners_clean h2 hb, listeners_clean hc hb, h4 b hab]⟩
  · intro f context once
    obtain ⟨e1, h1, h2, _, h4⟩ := Emitter.removed_clean hc ha f context once
    exact ⟨e1, by rw [Emitter.off_eq_removeListener, h1], h1,
      by rw [listenerCount_clean h2 hb, listenerCount_clean hc hb, h4 b hab],
      by rw [listeners_clean h2 hb, listeners_clean hc hb, h4 b hab]⟩
  · intro args hnt
    obtain ⟨h1, _, h3, h4⟩ := Emitter.emit_clean throws hc a args hnt
    exact ⟨by rw [listenerCount_clean h1 hb, listenerCount_clean hc hb, h4 b hab],
      by rw [listeners_clean h1 hb, listeners_clean hc hb, h4 b hab], h3⟩

/-- C10 (the code departs from the claim): on a fresh emitter `listenerCount` of
the channel `hasOwnProperty` is 0 and its `listeners` are empty; after
`on('a', f)`, a registration on another key, `listenerCount('hasOwnProperty')`
is 1 and `listeners('hasOwnProperty')` throws: once the event set exists, the
slot reads as the function inherited from `Object.prototype`. -/
theorem C10_registration_changes_hasOwnProperty :
    Emitter.lazy.listenerCount (.str "hasOwnProperty") = .num 0 ∧
    Emitter.lazy.listeners (.str "hasOwnProperty") = .ok [] ∧
    ∃ e1, Emitter.lazy.on (.str "a") 7 .undefined = .ok e1 ∧
      e1.listenerCount (.str "hasOwnProperty") = .num 1 ∧
      e1.listeners (.str "hasOwnProperty") = .error .typeError :=
  ⟨rfl, rfl, _, rfl, rfl, rfl⟩

/-! ## `removeAllListeners` and `eventNames` -/

theorem Fast.Clean.records_eq_nil_iff {s : Fast} (hc : s.Clean) {key : Key}
    (hk : inherited key = none) : s.records key = [] ↔ own s.events key = none := by
  rcases hc.get_cases hk with ⟨_, hown, hrec⟩ | ⟨l, _, hown, hrec, _⟩ |
    ⟨rs, _, hown, hrec, h2, _⟩
  · simp [hown, hrec]
  · simp [hown, hrec]
  · simp only [hown, hrec]
    constructor
    · intro h; rw [h] at h2; simp at h2
    · intro h; cases h

/-- In a clean state `removeAllListeners(key)`, for a truthy key that names no
inherited property, empties the channel, keeps the state clean and leaves the
records of every other channel. -/
theorem removeAllListeners_clean {e : Emitter} (hc : e.Clean) {key : Key}
    (hk : inherited key = none) (ht : key.truthy = true) :
    (e.removeAllListeners (some key)).Clean ∧
    (e.removeAllListeners (some key)).records key = [] ∧
    (∀ j, j ≠ key → (e.removeAllListeners (some key)).records j = e.records j) := by
  cases e with
  | lazy =>
    simp [Emitter.removeAllListeners, Emit.removeAllListeners, ht, Emitter.records,
      Emitter.Clean]
  | fast s =>
    have hg := get_of_plain s.events hk
    cases hown : own s.events key with
    | none =>
      have hrec := (Fast.Clean.records_eq_nil_iff hc hk).2 hown
      simp only [Emitter.removeAllListeners, Emit.removeAllListeners, ht, hg, hown,
        Bool.not_true, Bool.false_eq_true, if_false]
      exact ⟨hc, hrec, fun _ _ => trivial⟩
    | some h =>
      by_cases h0 : s.count - 1 = 0
      · simp only [Emitter.removeAllListeners, Emit.removeAllListeners, ht, hg, hown,
          Bool.not_true, Bool.false_eq_true, if_false, h0, if_true]
        refine ⟨⟨by simp, by simp, by simp, by simp⟩, records_of_inherited _ key, ?_⟩
        intro j hj
        have hlen : s.events.length ≤ 1 := by
          have := hc.counted
          omega
        simp [Emitter.records, Fast.records, get, own,
          own_eq_none_of_length_le_one hown hlen hj]
      · simp only [Emitter.removeAllListeners, Emit.removeAllListeners, ht, hg, hown,
          Bool.not_true, Bool.false_eq_true, if_false, h0]
        have hc1 : Fast.Clean ⟨del s.events key, s.count - 1⟩ := by
          refine ⟨nodup_del key hc.nodup, fun p hp => hc.plain p (mem_del hp),
            fun p hp => hc.shaped p (mem_del hp), ?_⟩
          have h1 := length_del_of_own hown
          have h3 := hc.counted
          simp only
          omega
        refine ⟨hc1, ?_, ?_⟩
        · exact (Fast.Clean.records_eq_nil_iff hc1 hk).2 (own_del_self key hc.nodup)
        · intro j hj
          simp [Emitter.records, Fast.records, get_del_of_ne s.events hj]

/-- In a clean state `removeAllListeners()` without an argument leaves a clean
state without channels. -/
theorem removeAllListeners_none_clean {e : Emitter} (hc : e.Clean) :
    (e.removeAllListeners none).Clean ∧ (e.removeAllListeners none).channels = [] ∧
    (∀ key, (e.removeAllListeners none).records key = []) := by
  cases e with
  | lazy =>
    simp [Emitter.removeAllListeners, Emit.removeAllListeners, Emitter.records,
      Emitter.Clean, Emitter.channels]
  | fast s =>
    simp only [Emitter.removeAllListeners, Emit.removeAllListeners, Emitter.channels,
      List.map_nil, true_and]
    refine ⟨⟨by simp, by simp, by simp, ?_⟩, fun key => records_of_inherited _ key⟩
    have := hc.counted
    simp only [List.length_nil, Nat.cast_zero]
    omega

/-- C11 (the code departs from the claim): with listeners on the channels `''`
and `b`, `removeAllListeners('')` also empties the channel `b`: the test
`!event` takes the empty string for an omitted argument and discards every
channel. -/
theorem C11_removeAll_empty_string_clears_every_channel :
    ∃ e1 e2, Emitter.lazy.on (.str "") 1 .undefined = .ok e1 ∧
      e1.on (.str "b") 2 .undefined = .ok e2 ∧
      e2.listeners (.str "b") = .ok [.fn 2] ∧
      (e2.removeAllListeners (some (.str ""))).listeners (.str "b") = .ok [] ∧
      (e2.removeAllListeners (some (.str ""))).listenerCount (.str "b") = .num 0 :=
  ⟨_, _, rfl, rfl, rfl, rfl, rfl⟩

theorem insertIndexed_perm (x : Nat × Key) (l : List (Nat × Key)) :
    (insertIndexed x l).Perm (x :: l) := by
  induction l with
  | nil => exact List.Perm.refl _
  | cons y ys ih =>
    by_cases h : x.1 ≤ y.1
    · simp [insertIndexed, h]
    · simp only [insertIndexed, h, if_false]
      exact (List.Perm.cons y ih).trans (List.Perm.swap x y ys)

theorem sortIndexed_perm (l : List (Nat × Key)) : (sortIndexed l).Perm l := by
  induction l with
  | nil => exact List.Perm.refl _
  | cons x xs ih =>
    exact (insertIndexed_perm x (sortIndexed xs)).trans (List.Perm.cons x ih)

theorem insertIndexed_sorted (x : Nat × Key) {l : List (Nat × Key)}
    (hl : l.Pairwise (fun a b => a.1 ≤ b.1)) :
    (insertIndexed x l).Pairwise (fun a b => a.1 ≤ b.1) := by
  induction l with
  | nil => simp [insertIndexed]
  | cons y ys ih =>
    rw [List.pairwise_cons] at hl
    by_cases h : x.1 ≤ y.1
    · simp only [insertIndexed, h, if_true, List.pairwise_cons]
      refine ⟨?_, hl⟩
      intro z hz
      rcases List.mem_cons.1 hz with hz | hz
      · rw [hz]; exact h
      · exact Nat.le_trans h (hl.1 z hz)
    · simp only [insertIndexed, h, if_false, List.pairwise_cons]
      refine ⟨?_, ih hl.2⟩
      intro z hz
      rcases List.mem_cons.1 ((insertIndexed_perm x ys).subset hz) with hz | hz
      · rw [hz]; omega
      · exact hl.1 z hz

theorem sortIndexed_sorted (l : List (Nat × Key)) :
    (sortIndexed l).Pairwise (fun a b => a.1 ≤ b.1) := by
  induction l with
  | nil => simp [sortIndexed]
  | cons x xs ih => exact insertIndexed_sorted x ih

theorem mem_indexed {keys : List Key} {n : Nat} {k : Key} :
    (n, k) ∈ indexed keys ↔ k ∈ keys ∧ arrayIndex? k = some n := by
  simp only [indexed, List.mem_filterMap, Option.map_eq_some', Prod.mk.injEq]
  constructor
  · rintro ⟨a, ha, m, hm, rfl, rfl⟩
    exact ⟨ha, hm⟩
  · rintro ⟨hk, hn⟩
    exact ⟨k, hk, n, hn, rfl, rfl⟩

theorem indexed_map_snd (keys : List Key) :
    (indexed keys).map Prod.snd = keys.filter (fun k => (arrayIndex? k).isSome) := by
  induction keys with
  | nil => rfl
  | cons k rest ih =>
    cases hk : arrayIndex? k with
    | none => simp [indexed, List.filterMap_cons, hk] at ih ⊢; exact ih
    | some n => simp [indexed, List.filterMap_cons, hk] at ih ⊢; exact ih

theorem arrayIndex_of_symbol {k : Key} (h : k.isSymbol = true) : arrayIndex? k = none := by
  cases k with
  | str s => simp [Key.isSymbol] at h
  | sym id => rfl

/-- A key is listed by `eventNames` exactly when it is an own property of the
event set. -/
theorem mem_eventNames {s : Fast} {k : Key} :
    k ∈ (Emitter.fast s).eventNames ↔ k ∈ s.events.map Prod.fst := by
  simp only [Emitter.eventNames, Emit.eventNames, objectKeys, ownPropertySymbols,
    List.mem_append, List.mem_map, List.mem_filter]
  constructor
  · rintro ((⟨⟨n, k1⟩, hm, rfl⟩ | ⟨h, _⟩) | ⟨h, _⟩)
    · have := (sortIndexed_perm _).subset hm
      have := (mem_indexed.1 this).1
      simpa using this
    · simpa using h
    · simpa using h
  · intro hk
    have hk1 : k ∈ s.events.map Prod.fst := by simpa using hk
    by_cases hs : k.isSymbol = true
    · exact Or.inr ⟨by simpa using hk, hs⟩
    · cases hn : arrayIndex? k with
      | none =>
        refine Or.inl (Or.inr ⟨by simpa using hk, ?_⟩)
        simp [Key.isName, hs, hn]
      | some n =>
        refine Or.inl (Or.inl ⟨(n, k), ?_, rfl⟩)
        exact (sortIndexed_perm _).symm.subset (mem_indexed.2 ⟨hk1, hn⟩)

theorem mem_eventNames_iff_own {s : Fast} {k : Key} :
    k ∈ (Emitter.fast s).eventNames ↔ own s.events k ≠ none := by
  rw [mem_eventNames, ne_eq, own_eq_none_iff, not_not]

/-- The names `eventNames` lists are pairwise different when the keys of the
event set are. -/
theorem nodup_eventNames {s : Fast} (hnd : (s.events.map Prod.fst).Nodup) :
    (Emitter.fast s).eventNames.Nodup := by
  simp only [Emitter.eventNames, Emit.eventNames, objectKeys, ownPropertySymbols]
  have h1 : ((sortIndexed (indexed (s.events.map Prod.fst))).map Prod.snd).Nodup := by
    have hp := (sortIndexed_perm (indexed (s.events.map Prod.fst))).map Prod.snd
    rw [hp.nodup_iff, indexed_map_snd]
    exact hnd.filter _
  have hidx : ∀ k ∈ (sortIndexed (indexed (s.events.map Prod.fst))).map Prod.snd,
      (arrayIndex? k).isSome = true := by
    intro k hk
    obtain ⟨⟨n, k1⟩, hm, rfl⟩ := List.mem_map.1 hk
    have := (mem_indexed.1 ((sortIndexed_perm _).subset hm)).2
    simp [this]
  refine List.Nodup.append (List.Nodup.append h1 (hnd.filter _) ?_) (hnd.filter _) ?_
  · intro k hk1 hk2
    have h2 := hidx k hk1
    have h3 := (List.mem_filter.1 hk2).2
    simp only [Key.isName, Bool.and_eq_true] at h3
    rw [Option.isNone_iff_eq_none.1 h3.2] at h2
    simp at h2
  · intro k hk1 hk2
    have hs := (List.mem_filter.1 hk2).2
    rcases List.mem_append.1 hk1 with h | h
    · have h2 := hidx k h
      rw [arrayIndex_of_symbol hs] at h2
      simp at h2
    · have h3 := (List.mem_filter.1 h).2
      simp [Key.isName, hs] at h3

/-- The shape of `eventNames`: array indices in ascending order, then the other
strings in order of creation, then the symbols in order of creation. -/
theorem eventNames_shape (e : Emitter) :
    ∃ idx : List (Nat × Key),
      e.eventNames = idx.map Prod.snd ++ e.channels.filter Key.isName
        ++ e.channels.filter Key.isSymbol ∧
      idx.Perm (indexed e.channels) ∧ idx.Pairwise (fun a b => a.1 ≤ b.1) := by
  cases e with
  | lazy => exact ⟨[], rfl, List.Perm.refl _, List.Pairwise.nil⟩
  | fast s =>
    exact ⟨sortIndexed (indexed (s.events.map Prod.fst)), rfl, sortIndexed_perm _,
      sortIndexed_sorted _⟩

theorem keys_put (events : EventSet) (key : Key) (h : Handler) :
    (put events key h).map Prod.fst =
      if key ∈ events.map Prod.fst then events.map Prod.fst
      else events.map Prod.fst ++ [key] := by
  cases hown : own events key with
  | none =>
    have hnot := (own_eq_none_iff events key).1 hown
    simp [put_of_own_eq_none h hown, hnot]
  | some v =>
    have hmem : key ∈ events.map Prod.fst := by
      by_contra hnot
      rw [← own_eq_none_iff, hown] at hnot
      cases hnot
    simp [keys_put_of_own h hown, hmem]

theorem register_events {front : Bool} {r : Listener} {s s1 : Fast} {key : Key}
    (h : register front r s key = .ok s1) : ∃ v, s1.events = put s.events key v := by
  unfold register at h
  cases hg : get s.events key with
  | none =>
    simp only [hg] at h
    by_cases hp : key = .str "__proto__"
    · simp [set, hp, Except.map] at h
    · simp only [set, hp, if_false, Except.map, Except.ok.injEq] at h
      exact ⟨_, by rw [← h]⟩
  | some handler =>
    simp only [hg] at h
    by_cases ht : handler.length.truthy = true
    · simp only [ht, if_true] at h
      cases hpu : (if front = true then handler.unshift (Item.record r)
          else handler.push (Item.record r)) with
      | error x => rw [hpu] at h; simp [Except.map] at h
      | ok v =>
        rw [hpu] at h
        simp only [Except.map, Except.ok.injEq] at h
        exact ⟨v, by rw [← h]⟩
    · simp only [ht, if_false] at h
      by_cases hp : key = .str "__proto__"
      · simp [set, hp, Except.map] at h
      · simp only [set, hp, if_false, Except.map, Bool.false_eq_true, Except.ok.injEq] at h
        exact ⟨_, by rw [← h]⟩

/-- A registration call that returns leaves the channels in place and puts a
new channel last. -/
theorem channels_perform {e e1 : Emitter} {g : Registration} (h : e.perform g = .ok e1) :
    e1.channels =
      if g.event ∈ e.channels then e.channels else e.channels ++ [g.event] := by
  rw [Emitter.perform_eq] at h
  cases hr : register g.method.front g.record (init e) g.event with
  | error x => rw [hr] at h; cases h
  | ok s1 =>
    rw [hr] at h
    cases h
    obtain ⟨v, hv⟩ := register_events hr
    have hch : e.channels = (init e).events.map Prod.fst := by
      cases e <;> rfl
    show s1.events.map Prod.fst = _
    rw [hv, keys_put, hch]

theorem channels_performAll (regs : List Registration) :
    ∀ {e e1 : Emitter}, e.performAll regs = .ok e1 →
      e1.channels = firstKeys e.channels (regs.map (fun g => g.event)) := by
  induction regs with
  | nil =>
    intro e e1 h
    cases h
    rfl
  | cons g rest ih =>
    intro e e1 h
    simp only [Emitter.performAll] at h
    cases hp : e.perform g with
    | error x => rw [hp] at h; cases h
    | ok e2 =>
      rw [hp] at h
      rw [ih h, channels_perform hp]
      rfl

/-- C17 (the claim as stated fails): after `on(symbol, f)` and then `on('a', g)`
`eventNames()` is `['a', symbol]`, not the order of first registration
`[symbol, 'a']`. -/
theorem C17_symbol_registered_first_is_listed_last :
    ∃ e1, Emitter.lazy.performAll
        [⟨.on, .sym 0, 1, .undefined⟩, ⟨.on, .str "a", 2, .undefined⟩] = .ok e1 ∧
      e1.eventNames = [.str "a", .sym 0] ∧ e1.eventNames ≠ [.sym 0, .str "a"] :=
  ⟨_, rfl, rfl, by decide⟩

/-- C17 (amended): after any sequence of registration calls on keys other
than `__proto__` that all return, the channels are the registered keys in order
of first registration, and `eventNames()` lists them with the array-index
strings first, in ascending numeric order, then the other strings in order of
first registration, then the symbols in order of first registration.  The hypothesis on the keys keeps the
statement to the calls the embedding follows (see `set`). -/
theorem C17_eventNames_after_registrations (regs : List Registration) (e1 : Emitter)
    (_hkeys : ∀ g ∈ regs, g.event ≠ .str "__proto__")
    (h : Emitter.lazy.performAll regs = .ok e1) :
    e1.channels = firstKeys [] (regs.map (fun g => g.event)) ∧
    ∃ idx : List (Nat × Key),
      e1.eventNames = idx.map Prod.snd
        ++ (firstKeys [] (regs.map (fun g => g.event))).filter Key.isName
        ++ (firstKeys [] (regs.map (fun g => g.event))).filter Key.isSymbol ∧
      idx.Perm (indexed (firstKeys [] (regs.map (fun g => g.event)))) ∧
      idx.Pairwise (fun a b => a.1 ≤ b.1) := by
  have hch := channels_performAll regs h
  simp only [Emitter.channels] at hch
  refine ⟨hch, ?_⟩
  rw [← hch]
  exact eventNames_shape e1

/-- Witness for C17 (amended): `on('b')`, `once(symbol)`, `on('1')`,
`prependListener('b')`. -/
theorem C17_eventNames_after_registrations_witness :
    (∀ g ∈ sampleRegistrations, g.event ≠ .str "__proto__") ∧
    Emitter.lazy.performAll sampleRegistrations = .ok sampleRegistered ∧
    sampleRegistered.channels =
      firstKeys [] (sampleRegistrations.map (fun g => g.event)) ∧
    ∃ idx : List (Nat × Key),
      sampleRegistered.eventNames = idx.map Prod.snd
        ++ (firstKeys [] (sampleRegistrations.map (fun g => g.event))).filter Key.isName
        ++ (firstKeys [] (sampleRegistrations.map (fun g => g.event))).filter Key.isSymbol ∧
      idx.Perm (indexed (firstKeys [] (sampleRegistrations.map (fun g => g.event)))) ∧
      idx.Pairwise (fun a b => a.1 ≤ b.1) :=
  ⟨by decide, rfl,
    C17_eventNames_after_registrations sampleRegistrations sampleRegistered (by decide) rfl⟩

/-- C18 (the claim as stated fails): after `on('b', f)` and then `on('1', g)`
`eventNames()` is `['1', 'b']`: the string `1` is an array index and comes
before the string channel created first. -/
theorem C18_index_string_is_listed_first :
    ∃ e1, Emitter.lazy.performAll
        [⟨.on, .str "b", 1, .undefined⟩, ⟨.on, .str "1", 2, .undefined⟩] = .ok e1 ∧
      e1.channels = [.str "b", .str "1"] ∧
      e1.eventNames = [.str "1", .str "b"] ∧ e1.eventNames ≠ [.str "b", .str "1"] :=
  ⟨_, rfl, rfl, rfl, by decide⟩

/-- C18 (amended): in every well-formed state `eventNames()` lists exactly the
channels that hold listeners: first the string keys that are array indices, in
ascending numeric order, then the other string keys in the order the channels
were created, then the symbol keys in the order the channels were created.
Without array-index keys that is the strings in order of creation followed by
the symbols in order of creation, as for `test1`, a symbol, `test3`. -/
theorem C18_eventNames_strings_then_symbols (e : Emitter) (hc : e.Clean) :
    (∃ idx : List (Nat × Key),
      e.eventNames = idx.map Prod.snd ++ e.channels.filter Key.isName
        ++ e.channels.filter Key.isSymbol ∧
      idx.Perm (indexed e.channels) ∧ idx.Pairwise (fun a b => a.1 ≤ b.1)) ∧
    (∀ k, k ∈ e.channels ↔ e.records k ≠ []) ∧
    ((∀ k ∈ e.channels, arrayIndex? k = none) →
      e.eventNames = e.channels.filter (fun k => !k.isSymbol)
        ++ e.channels.filter Key.isSymbol) ∧
    (∃ e1, Emitter.lazy.performAll [⟨.on, .str "test1", 1, .undefined⟩,
        ⟨.on, .sym 0, 2, .undefined⟩, ⟨.on, .str "test3", 3, .undefined⟩] = .ok e1 ∧
      e1.eventNames = [.str "test1", .str "test3", .sym 0]) := by
  refine ⟨eventNames_shape e, ?_, ?_, ⟨_, rfl, rfl⟩⟩
  · intro k
    cases e with
    | lazy => simp [Emitter.channels, Emitter.records]
    | fast s =>
      by_cases hk : inherited k = none
      · simp only [Emitter.channels, Emitter.records, ne_eq,
          Fast.Clean.records_eq_nil_iff hc hk, own_eq_none_iff, not_not]
      · have h1 : own s.events k = none := Fast.Clean.own_of_not_plain hc hk
        have h2 := Emitter.records_eq_nil_of_not_plain (e := .fast s) hc hk
        simp only [Emitter.channels, h2, ne_eq, not_true_eq_false, iff_false]
        exact (own_eq_none_iff s.events k).1 h1
  · intro hno
    cases e with
    | lazy => rfl
    | fast s =>
      simp only [Emitter.channels] at hno
      have h1 : indexed (s.events.map Prod.fst) = [] := by
        rw [indexed, List.filterMap_eq_nil_iff]
        intro k hk
        simp [hno k hk]
      have h2 : (s.events.map Prod.fst).filter Key.isName =
          (s.events.map Prod.fst).filter (fun k => !k.isSymbol) := by
        apply List.filter_congr
        intro k hk
        simp [Key.isName, hno k hk]
      simp only [Emitter.eventNames, Emit.eventNames, objectKeys, ownPropertySymbols, h1,
        sortIndexed, List.map_nil, List.nil_append, h2, Emitter.channels]

/-- Witness for C18 (amended), on `sampleRegistered`. -/
theorem C18_eventNames_strings_then_symbols_witness :
    sampleRegistered.Clean ∧
    (∃ idx : List (Nat × Key),
      sampleRegistered.eventNames = idx.map Prod.snd
        ++ sampleRegistered.channels.filter Key.isName
        ++ sampleRegistered.channels.filter Key.isSymbol ∧
      idx.Perm (indexed sampleRegistered.channels) ∧
      idx.Pairwise (fun a b => a.1 ≤ b.1)) ∧
    sampleRegistered.eventNames = [.str "1", .str "b", .sym 0] :=
  ⟨⟨by decide, by decide, by decide, by decide⟩,
    (C18_eventNames_strings_then_symbols sampleRegistered
      ⟨by decide, by decide, by decide, by decide⟩).1, rfl⟩

/-- In a clean state, after `removeAllListeners()` without an argument
`eventNames()` is empty, and at every key that names no inherited property
`listenerCount` is 0 and `emit` returns false, calling nothing. -/
theorem removeAllListeners_none_observed (throws : Nat → Bool) {e : Emitter}
    (hc : e.Clean) :
    (e.removeAllListeners none).eventNames = [] ∧
    (∀ k, inherited k = none →
      (e.removeAllListeners none).listenerCount k = .num 0 ∧
      ((e.removeAllListeners none).emit throws k []).outcome = .returned false ∧
      ((e.removeAllListeners none).emit throws k []).calls = []) := by
  obtain ⟨h1, h2, h3⟩ := removeAllListeners_none_clean hc
  constructor
  · cases e with
    | lazy => rfl
    | fast s => rfl
  · intro k hk
    have hnt : ∀ l ∈ (e.removeAllListeners none).records k, throws l.listener = false := by
      rw [h3 k]; intro l hl; cases hl
    refine ⟨?_, ?_, ?_⟩
    · rw [listenerCount_clean h1 hk, h3 k]; rfl
    · rw [Emitter.emit_outcome_clean throws h1 hk [] hnt, h3 k]; rfl
    · rw [(Emitter.emit_clean throws h1 k [] hnt).2.2.1, h3 k]; rfl

/-- C12 (the code departs from the claim): after `on('a', f)` and
`removeAllListeners()` `eventNames()` is empty, yet
`listenerCount('hasOwnProperty')` is 1 and `emit('constructor')` returns true:
both keys read as functions inherited by the fresh event set.  A fresh emitter
has no event names. -/
theorem C12_after_removeAll_inherited_keys_answer :
    Emitter.lazy.eventNames = [] ∧
    ∃ e1, Emitter.lazy.on (.str "a") 7 .undefined = .ok e1 ∧
      (e1.removeAllListeners none).eventNames = [] ∧
      (e1.removeAllListeners none).listenerCount (.str "hasOwnProperty") = .num 1 ∧
      ((e1.removeAllListeners none).emit noThrow (.str "constructor") []).outcome =
        .returned true :=
  ⟨rfl, _, rfl, rfl, rfl, rfl⟩

theorem put_self_of_own {events : EventSet} {key : Key} {h : Handler}
    (hown : own events key = some h) : put events key h = events := by
  induction events with
  | nil => simp [own] at hown
  | cons p rest ih =>
    obtain ⟨k, v⟩ := p
    by_cases hk : key = k
    · simp only [own, hk, if_true, Option.some.injEq] at hown
      simp [put, hk, hown]
    · simp only [own, hk, if_false] at hown
      simp [put, hk, ih hown]

/-- In a clean state a removal that matches no record of a channel whose key
names no inherited property returns the state unchanged. -/
theorem removeListener_no_match_clean {e : Emitter} (hc : e.Clean) {key : Key}
    (hk : inherited key = none) (f : Nat) (context once : Val)
    (hno : ∀ l ∈ e.records key, l.matches f context once = false) :
    e.removeListener key f context once = .ok e ∧ e.off key f context once = .ok e := by
  rw [Emitter.off_eq_removeListener, and_self]
  cases e with
  | lazy => rfl
  | fast s =>
    rcases Fast.Clean.get_cases hc hk with ⟨hg, _, _⟩ | ⟨l, hg, _, hrec, _⟩ |
      ⟨rs, hg, hown, hrec, h2, _⟩
    · simp [Emitter.removeListener, FastEmit.removeListener, hg, Except.map]
    · have hm : l.matches f context once = false :=
        hno l (by simp [Emitter.records, hrec])
      simp [Emitter.removeListener, FastEmit.removeListener, hg, Handler.listener?, hm,
        Except.map]
    · have hscan := removeScan_records context once f rs
      rw [List.eraseP_of_forall_not] at hscan
      · match rs, h2, hscan, hown with
        | r1 :: r2 :: rest, _, hscan, hown =>
          have hput := put_self_of_own hown
          simp only [List.map_cons] at hscan hput
          simp [-List.map_map, Emitter.removeListener, FastEmit.removeListener, hg,
            Handler.listener?, Handler.elems, hscan, set_of_plain _ hk, Except.map, hput]
      · intro l hl
        have := hno l (by simpa [Emitter.records, hrec] using hl)
        simp [this]

/-- C13 (the code departs from the claim): after `on('a', f)` the event names
are `['a']`; `off('toString', g)`, a removal on a key without listeners, returns
but leaves the event names `['a', 'toString']`: the slot reads as the inherited
function of length 0, the loop runs over nothing and the empty remainder is
stored under the key. -/
theorem C13_off_on_inherited_key_adds_a_channel :
    ∃ e1 e2, Emitter.lazy.on (.str "a") 7 .undefined = .ok e1 ∧
      e1.eventNames = [.str "a"] ∧ e1.records (.str "toString") = [] ∧
      e1.off (.str "toString") 9 .undefined .undefined = .ok e2 ∧
      e2.eventNames = [.str "a", .str "toString"] ∧
      e2.listeners (.str "toString") = .ok [] ∧
      e1.listeners (.str "toString") = .error .typeError :=
  ⟨_, _, rfl, rfl, rfl, rfl, rfl, rfl, rfl⟩

/-- In a well-formed state, on a channel holding exactly one record, `off` and `removeListener`
make the channel absent (`listenerCount` 0, key not in `eventNames`) when the
record has the given callback, the given context if one is given (`===`), and
the `once` flag if `onlyOnce` is given; otherwise they leave the emitter as it
was, the channel still holding its record. -/
theorem single_record_removal_clean (e : Emitter) (hc : e.Clean) (key : Key) (l : Listener)
    (hrec : e.records key = [l]) (f : Nat) (context once : Val) :
    (l.matches f context once = true ↔
      (l.listener = f ∧ (context = .undefined ∨ l.context.strictEq context = true) ∧
        (once = .undefined ∨ l.once = true))) ∧
    ∃ e1, e.off key f context once = .ok e1 ∧ e.removeListener key f context once = .ok e1 ∧
      (l.matches f context once = true →
        e1.listenerCount key = .num 0 ∧ key ∉ e1.eventNames ∧ e1.records key = []) ∧
      (l.matches f context once = false →
        e1 = e ∧ e1.listenerCount key = .num 1 ∧ key ∈ e1.eventNames) := by
  have hk : inherited key = none :=
    Emitter.plain_of_records_ne_nil hc (by rw [hrec]; simp)
  refine ⟨by simp [Listener.matches, and_assoc], ?_⟩
  obtain ⟨e1, h1, h2, h3, _⟩ := Emitter.removed_clean hc hk f context once
  refine ⟨e1, by rw [Emitter.off_eq_removeListener, h1], h1, ?_, ?_⟩
  · intro hm
    have hnil : e1.records key = [] := by rw [h3, hrec]; simp [hm]
    refine ⟨by rw [listenerCount_clean h2 hk, hnil]; rfl, ?_, hnil⟩
    cases e1 with
    | lazy => simp [Emitter.eventNames, Emit.eventNames]
    | fast s1 =>
      rw [mem_eventNames_iff_own, not_not]
      exact (Fast.Clean.records_eq_nil_iff h2 hk).1 hnil
  · intro hm
    have hsame := (removeListener_no_match_clean hc hk f context once
      (by rw [hrec]; intro x hx; simp at hx; rw [hx]; exact hm)).1
    rw [h1] at hsame
    simp only [Except.ok.injEq] at hsame
    subst hsame
    refine ⟨rfl, by rw [listenerCount_clean hc hk, hrec]; rfl, ?_⟩
    cases e1 with
    | lazy => simp [Emitter.records] at hrec
    | fast s =>
      rw [mem_eventNames_iff_own, ne_eq, ← Fast.Clean.records_eq_nil_iff hc hk]
      simp only [Emitter.records] at hrec
      rw [hrec]
      simp

/-- An instance on the channel `x` of `sampleSingle`. -/
theorem single_record_removal_clean_instance :
    sampleSingle.records (.str "x") = [⟨1, .obj 0, false⟩] ∧
    ∃ e1, sampleSingle.off (.str "x") 1 (.obj 0) .undefined = .ok e1 ∧
      sampleSingle.removeListener (.str "x") 1 (.obj 0) .undefined = .ok e1 ∧
      (Listener.matches ⟨1, .obj 0, false⟩ 1 (.obj 0) .undefined = true →
        e1.listenerCount (.str "x") = .num 0 ∧ (.str "x") ∉ e1.eventNames ∧
        e1.records (.str "x") = []) ∧
      (Listener.matches ⟨1, .obj 0, false⟩ 1 (.obj 0) .undefined = false →
        e1 = sampleSingle ∧ e1.listenerCount (.str "x") = .num 1 ∧
        (.str "x") ∈ e1.eventNames) :=
  ⟨rfl, (single_record_removal_clean sampleSingle sampleSingle_clean (.str "x")
    ⟨1, .obj 0, false⟩ rfl 1 (.obj 0) .undefined).2⟩

/-- In a clean state every method completes at a key that names no inherited
property, with listeners that do not throw. -/
theorem total_clean (throws : Nat → Bool) {e : Emitter} (hc : e.Clean) {key : Key}
    (hk : inherited key = none) (hnt : ∀ l ∈ e.records key, throws l.listener = false) :
    (∀ g : Registration, g.event = key → ∃ e1, e.perform g = .ok e1) ∧
    (∀ f context once, ∃ e1, e.off key f context once = .ok e1 ∧
      e.removeListener key f context once = .ok e1) ∧
    (∀ args, ∃ b, (e.emit throws key args).outcome = .returned b) ∧
    (∃ n : Nat, e.listenerCount key = .num n) ∧
    (∃ fs, e.listeners key = .ok fs) := by
  refine ⟨?_, ?_, ?_, ⟨_, listenerCount_clean hc hk⟩, ⟨_, listeners_clean hc hk⟩⟩
  · intro g hg
    subst hg
    obtain ⟨e1, h1, _⟩ := Emitter.perform_clean hc g hk
    exact ⟨e1, h1⟩
  · intro f context once
    obtain ⟨e1, h1, _⟩ := Emitter.removed_clean hc hk f context once
    exact ⟨e1, by rw [Emitter.off_eq_removeListener, h1], h1⟩
  · intro args
    exact ⟨_, Emitter.emit_outcome_clean throws hc hk args hnt⟩

/-- C15 (the code departs from the claim): on a fresh emitter
`on('hasOwnProperty', f)` throws a `TypeError` (the slot reads as the inherited
function of length 1, which has no `push`); so do `once` and `prependListener`,
and after `on('a', f)` so do `listeners('constructor')`,
`off('hasOwnProperty', f)` and `emit('hasOwnProperty')`. -/
theorem C15_methods_throw_on_inherited_keys :
    Emitter.lazy.on (.str "hasOwnProperty") 7 .undefined = .error .typeError ∧
    Emitter.lazy.addListener (.str "hasOwnProperty") 7 .undefined = .error .typeError ∧
    Emitter.lazy.once (.str "hasOwnProperty") 7 .undefined = .error .typeError ∧
    Emitter.lazy.prependListener (.str "hasOwnProperty") 7 .undefined = .error .typeError ∧
    Emitter.lazy.prependOnceListener (.str "hasOwnProperty") 7 .undefined =
      .error .typeError ∧
    ∃ e1, Emitter.lazy.on (.str "a") 7 .undefined = .ok e1 ∧
      e1.listeners (.str "constructor") = .error .typeError ∧
      e1.off (.str "hasOwnProperty") 7 .undefined .undefined = .error .typeError ∧
      e1.removeListener (.str "hasOwnProperty") 7 .undefined .undefined =
        .error .typeError ∧
      (e1.emit noThrow (.str "hasOwnProperty") []).outcome = .failed .typeError :=
  ⟨rfl, rfl, rfl, rfl, rfl, _, rfl, rfl, rfl, rfl, rfl⟩

theorem emitLoop_args (throws : Nat → Bool) (key : Key) (args : List Val)
    (elems : List (Option Item)) :
    ∀ s : Fast, ∀ c ∈ (FastEmit.emitLoop throws key args elems s).calls,
      c.args = FastEmit.passArgs args := by
  induction elems with
  | nil =>
    intro s c hc
    simp [FastEmit.emitLoop] at hc
  | cons x rest ih =>
    intro s c hc
    match x with
    | none => simp [FastEmit.emitLoop] at hc
    | some (.fn _) => simp [FastEmit.emitLoop] at hc
    | some .protoObj => simp [FastEmit.emitLoop] at hc
    | some .emptyArr => simp [FastEmit.emitLoop] at hc
    | some (.record l) =>
      simp only [FastEmit.emitLoop] at hc
      split at hc
      · simp only [List.mem_singleton] at hc
        rw [hc]
      · split at hc
        · split at hc
          · simp only [List.mem_singleton] at hc
            rw [hc]
          · simp only [List.mem_cons] at hc
            rcases hc with hc | hc
            · rw [hc]
            · exact ih _ c hc
        · simp only [List.mem_cons] at hc
          rcases hc with hc | hc
          · rw [hc]
          · exact ih _ c hc

/-- C16: whatever the number of arguments and whatever the slot holds, every
listener `emit` invokes receives exactly the arguments of the emission, in
order; the call paths for up to three arguments (`passArgs`) and the general
path over the copied array (`copyArgs`) hand over the same list. -/
theorem C16_arguments_pass_through (throws : Nat → Bool) (e : Emitter) (key : Key)
    (args : List Val) :
    FastEmit.passArgs args = args ∧ FastEmit.copyArgs args = args ∧
    FastEmit.passArgs args = FastEmit.copyArgs args ∧
    (∀ c ∈ (e.emit throws key args).calls, c.args = args) := by
  refine ⟨passArgs_eq args, copyArgs_eq args, by rw [passArgs_eq, copyArgs_eq], ?_⟩
  intro c hc
  cases e with
  | lazy => simp [Emitter.emit] at hc
  | fast s =>
    simp only [Emitter.emit, FastEmit.emit] at hc
    rw [← passArgs_eq args]
    split at hc
    · simp at hc
    · split at hc
      · split at hc
        · simp at hc
        · simp only [List.mem_singleton] at hc
          rw [hc]
      · exact emitLoop_args throws key args _ s c hc

/-- In a clean state `eventNames()` has no key twice, and a key that names no
inherited property is listed exactly when its channel holds a record, that is
when `listenerCount` is at least 1. -/
theorem eventNames_clean {e : Emitter} (hc : e.Clean) :
    e.eventNames.Nodup ∧
    (∀ k, k ∈ e.eventNames ↔ e.records k ≠ []) ∧
    (∀ k, inherited k = none →
      (k ∈ e.eventNames ↔ ∃ n : Nat, 1 ≤ n ∧ e.listenerCount k = .num n)) := by
  have hmem : ∀ k, k ∈ e.eventNames ↔ e.records k ≠ [] := by
    intro k
    cases e with
    | lazy => simp [Emitter.eventNames, Emit.eventNames, Emitter.records]
    | fast s =>
      rw [mem_eventNames_iff_own]
      by_cases hk : inherited k = none
      · simp only [Emitter.records, ne_eq, Fast.Clean.records_eq_nil_iff hc hk]
      · have h1 : own s.events k = none := Fast.Clean.own_of_not_plain hc hk
        have h2 := Emitter.records_eq_nil_of_not_plain (e := .fast s) hc hk
        simp [h1, h2]
  refine ⟨?_, hmem, ?_⟩
  · cases e with
    | lazy => simp [Emitter.eventNames, Emit.eventNames]
    | fast s => exact nodup_eventNames hc.nodup
  · intro k hk
    rw [hmem k, listenerCount_clean hc hk]
    constructor
    · intro hne
      refine ⟨(e.records k).length, ?_, rfl⟩
      cases hr : e.records k with
      | nil => exact absurd hr hne
      | cons _ _ => simp
    · rintro ⟨n, hn, heq⟩ hnil
      rw [hnil] at heq
      simp only [List.length_nil, Nat.cast_zero, Val.num.injEq] at heq
      omega

/-- C19 (the code departs from the claim): after `on('a', f)`
`listenerCount('hasOwnProperty')` is 1, yet `eventNames()` is `['a']` and does
not contain `hasOwnProperty`: the count is the `length` of the function the
event set inherits under that key. -/
theorem C19_count_without_event_name :
    ∃ e1, Emitter.lazy.on (.str "a") 7 .undefined = .ok e1 ∧
      e1.listenerCount (.str "hasOwnProperty") = .num 1 ∧
      e1.eventNames = [.str "a"] ∧ (.str "hasOwnProperty") ∉ e1.eventNames :=
  ⟨_, rfl, rfl, rfl, by decide⟩

/-- In a well-formed state, when a channel holds exactly one record and the record is `once`,
`emit` removes it before invoking the callback.  With a callback that reads
`listenerCount(key)` and then calls `emit(key, ...)` again, the run (given fuel
for its four steps) logs: the one invocation of the callback, the count 0 read
inside it, the inner `emit` returning false without any invocation, and the
outer `emit` returning true; the channel is empty afterwards. -/
theorem single_once_record_is_removed_before_the_call_clean (body : Nat → List Step)
    (e : Emitter) (hc : e.Clean) (key : Key) (l : Listener)
    (hrec : e.records key = [l]) (ho : l.once = true) (args args2 : List Val)
    (hbody : body l.listener = [.listenerCount key, .emit key args2]) (fuel : Nat) :
    (e.emitRun body (fuel + 4) key args).status = .done ∧
    (e.emitRun body (fuel + 4) key args).log =
      [.called (l.call args), .counted key (.num 0), .emitted key false,
        .emitted key true] ∧
    (e.emitRun body (fuel + 4) key args).state.listenerCount key = .num 0 ∧
    (e.emitRun body (fuel + 4) key args).state.records key = [] := by
  have hk : inherited key = none :=
    Emitter.plain_of_records_ne_nil hc (by rw [hrec]; simp)
  cases e with
  | lazy => simp [Emitter.records] at hrec
  | fast s =>
    simp only [Emitter.records] at hrec
    have hc0 : s.Clean := hc
    rcases Fast.Clean.get_cases hc0 hk with ⟨_, _, h0⟩ | ⟨l1, hg, _, h1, _⟩ |
      ⟨rs, _, _, hrs, h2, _⟩
    · rw [h0] at hrec; cases hrec
    · rw [h1] at hrec
      simp only [List.cons.injEq, and_true] at hrec
      subst hrec
      obtain ⟨s1, hrm, hc1, hrec1, _⟩ :=
        removeListener_clean hc0 hk l1.listener .undefined (.bool true)
      have hm : l1.matches l1.listener .undefined (.bool true) = true := by
        simp [Listener.matches, ho]
      have hnil : s1.records key = [] := by rw [hrec1, h1]; simp [hm]
      have hg1 : get s1.events key = none := by
        rw [get_of_plain _ hk]
        exact (Fast.Clean.records_eq_nil_iff hc1 hk).1 hnil
      have hcount : Emit.listenerCount (.fast s1) key = .num 0 := by
        simp [Emit.listenerCount, hg1]
      simp [Emitter.emitRun, Machine.exec, Machine.step, Machine.startEmit, hg,
        Handler.listener?, ho, hrm, hbody, hg1, hcount, Listener.call, passArgs_eq,
        Emitter.listenerCount, Emitter.records, hnil]
    · rw [hrs] at hrec
      rw [hrec] at h2
      simp at h2

/-- An instance on the channel `x` of `sampleSingleOnce` with
`sampleBody`. -/
theorem single_once_record_is_removed_before_the_call_clean_instance :
    sampleSingleOnce.Clean ∧
    sampleSingleOnce.records (.str "x") = [⟨1, .obj 0, true⟩] ∧
    sampleBody 1 = [.listenerCount (.str "x"), .emit (.str "x") []] ∧
    (sampleSingleOnce.emitRun sampleBody 4 (.str "x") [.num 5]).status = .done ∧
    (sampleSingleOnce.emitRun sampleBody 4 (.str "x") [.num 5]).log =
      [.called ⟨1, .obj 0, [.num 5]⟩, .counted (.str "x") (.num 0),
        .emitted (.str "x") false, .emitted (.str "x") true] ∧
    (sampleSingleOnce.emitRun sampleBody 4 (.str "x") [.num 5]).state.listenerCount
      (.str "x") = .num 0 ∧
    (sampleSingleOnce.emitRun sampleBody 4 (.str "x") [.num 5]).state.records (.str "x") =
      [] :=
  ⟨⟨by decide, by decide, by decide, by decide⟩, rfl, rfl,
    single_once_record_is_removed_before_the_call_clean sampleBody sampleSingleOnce
      ⟨by decide, by decide, by decide, by decide⟩ (.str "x") ⟨1, .obj 0, true⟩ rfl rfl
      [.num 5] [] rfl 0⟩

/-! ## The machine with listeners that do nothing -/

theorem Frame.touch_removal (s1 : Fast) (event : Key) (f : Frame) :
    ∃ b, Frame.touch (removalTouch s1 event) f = { f with aliased := b } := by
  unfold removalTouch
  split
  · exact ⟨false, rfl⟩
  · by_cases h : f.event = event
    · exact ⟨false, by simp [Frame.touch, h]⟩
    · exact ⟨f.aliased, by simp [Frame.touch, h]⟩

theorem getElem_append_length (pre : List (Option Item)) (x : Option Item)
    (rest : List (Option Item)) (h : pre.length < (pre ++ x :: rest).length) :
    (pre ++ x :: rest)[pre.length] = x := by
  induction pre with
  | nil => rfl
  | cons p ps ih => simpa using ih (by simp)

theorem step_visit_record (body : Nat → List Step) (s : Fast) (log : List Note) (key : Key)
    (args : List Val) (pre rest : List (Option Item)) (l : Listener) (b : Bool)
    (outer : List Frame) :
    Machine.step body ⟨s, ⟨key, pre ++ some (.record l) :: rest, b⟩ :: outer, log⟩
        (.visit key args pre.length) =
      { machine := ⟨s, ⟨key, pre ++ some (.record l) :: rest, b⟩ :: outer,
          log ++ [.called ⟨l.listener, l.context, FastEmit.passArgs args⟩]⟩,
        next := (body l.listener).map Task.run
          ++ [.after key l, .visit key args (pre.length + 1)],
        abort := none } := by
  have hlt : pre.length < (pre ++ some (Item.record l) :: rest).length := by simp
  have hget := getElem_append_length pre (some (.record l)) rest hlt
  simp only [Machine.step, hlt, if_true, List.getD_eq_getElem?_getD,
    List.getElem?_eq_getElem hlt, Option.getD_some, hget]

theorem step_visit_other (body : Nat → List Step) (s : Fast) (log : List Note) (key : Key)
    (args : List Val) (pre rest : List (Option Item)) (x : Option Item) (b : Bool)
    (outer : List Frame) (hx : ∀ l, x ≠ some (.record l)) :
    Machine.step body ⟨s, ⟨key, pre ++ x :: rest, b⟩ :: outer, log⟩
        (.visit key args pre.length) =
      { machine := ⟨s, ⟨key, pre ++ x :: rest, b⟩ :: outer, log⟩, next := [],
        abort := some (.failed .typeError) } := by
  have hlt : pre.length < (pre ++ x :: rest).length := by simp
  have hget := getElem_append_length pre x rest hlt
  rcases x with _ | (l | n | _ | _)
  · simp only [Machine.step, hlt, if_true, List.getD_eq_getElem?_getD,
      List.getElem?_eq_getElem hlt, Option.getD_some, hget]
  · exact absurd rfl (hx l)
  · simp only [Machine.step, hlt, if_true, List.getD_eq_getElem?_getD,
      List.getElem?_eq_getElem hlt, Option.getD_some, hget]
  · simp only [Machine.step, hlt, if_true, List.getD_eq_getElem?_getD,
      List.getElem?_eq_getElem hlt, Option.getD_some, hget]
  · simp only [Machine.step, hlt, if_true, List.getD_eq_getElem?_getD,
      List.getElem?_eq_getElem hlt, Option.getD_some, hget]

theorem emitLoop_other (throws : Nat → Bool) (key : Key) (args : List Val)
    (x : Option Item) (rest : List (Option Item)) (s : Fast)
    (hx : ∀ l, x ≠ some (.record l)) :
    FastEmit.emitLoop throws key args (x :: rest) s =
      { state := s, calls := [], outcome := .failed .typeError } := by
  rcases x with _ | (l | n | _ | _)
  · rfl
  · exact absurd rfl (hx l)
  · rfl
  · rfl
  · rfl

/-- The loop of the machine, with listeners whose bodies are empty, goes the
way of `FastEmit.emitLoop` with listeners that do not throw. -/
theorem exec_visit_inert (key : Key) (args : List Val) (rest : List (Option Item)) :
    ∀ (pre : List (Option Item)) (s : Fast) (b : Bool) (outer : List Frame)
      (log : List Note) (fuel : Nat), 2 * rest.length + 1 ≤ fuel →
      (Machine.exec (fun _ => []) fuel [.visit key args pre.length]
        ⟨s, ⟨key, pre ++ rest, b⟩ :: outer, log⟩).machine.state =
        (FastEmit.emitLoop noThrow key args rest s).state ∧
      (Machine.exec (fun _ => []) fuel [.visit key args pre.length]
        ⟨s, ⟨key, pre ++ rest, b⟩ :: outer, log⟩).machine.log =
        log ++ (FastEmit.emitLoop noThrow key args rest s).calls.map Note.called
          ++ (FastEmit.emitLoop noThrow key args rest s).outcome.notes key ∧
      (Machine.exec (fun _ => []) fuel [.visit key args pre.length]
        ⟨s, ⟨key, pre ++ rest, b⟩ :: outer, log⟩).status =
        (FastEmit.emitLoop noThrow key args rest s).outcome.status := by
  induction rest with
  | nil =>
    intro pre s b outer log fuel hf
    obtain ⟨f1, rfl⟩ : ∃ f1, fuel = f1 + 1 := ⟨fuel - 1, by simp at hf; omega⟩
    simp [Machine.exec, Machine.step, FastEmit.emitLoop, Outcome.notes, Outcome.status]
  | cons x rest ih =>
    intro pre s b outer log fuel hf
    obtain ⟨f2, rfl⟩ : ∃ f2, fuel = f2 + 2 := ⟨fuel - 2, by simp at hf; omega⟩
    have hf2 : 2 * rest.length + 1 ≤ f2 := by simp at hf; omega
    have hpre : pre ++ x :: rest = (pre ++ [x]) ++ rest := by simp
    have hlen : pre.length + 1 = (pre ++ [x]).length := by simp
    by_cases hx : ∃ l, x = some (.record l)
    · obtain ⟨l, rfl⟩ := hx
      have hvisit := step_visit_record (fun _ => []) s log key args pre rest l b outer
      by_cases ho : l.once = true
      · cases hrm : FastEmit.removeListener s key l.listener l.context (.bool true) with
        | error y =>
          have hafter : Machine.step (fun _ => [])
              ⟨s, ⟨key, pre ++ some (.record l) :: rest, b⟩ :: outer,
                log ++ [.called ⟨l.listener, l.context, FastEmit.passArgs args⟩]⟩
              (.after key l) =
              { machine := ⟨s, ⟨key, pre ++ some (.record l) :: rest, b⟩ :: outer,
                  log ++ [.called ⟨l.listener, l.context, FastEmit.passArgs args⟩]⟩,
                next := [], abort := some (.failed y) } := by
            simp [Machine.step, ho, hrm, Machine.change]
          simp [Machine.exec, hvisit, hafter, FastEmit.emitLoop, noThrow, ho, hrm,
            Outcome.notes, Outcome.status]
        | ok s1 =>
          obtain ⟨b1, hb1⟩ :=
            Frame.touch_removal s1 key ⟨key, pre ++ some (.record l) :: rest, b⟩
          have ih1 := ih (pre ++ [some (.record l)]) s1 b1
            (outer.map (Frame.touch (removalTouch s1 key)))
            (log ++ [.called ⟨l.listener, l.context, FastEmit.passArgs args⟩]) f2 hf2
          rw [← hpre, ← hlen] at ih1
          have hafter : Machine.step (fun _ => [])
              ⟨s, ⟨key, pre ++ some (.record l) :: rest, b⟩ :: outer,
                log ++ [.called ⟨l.listener, l.context, FastEmit.passArgs args⟩]⟩
              (.after key l) =
              { machine := ⟨s1, ⟨key, pre ++ some (.record l) :: rest, b1⟩ ::
                  outer.map (Frame.touch (removalTouch s1 key)),
                  log ++ [.called ⟨l.listener, l.context, FastEmit.passArgs args⟩]⟩,
                next := [], abort := none } := by
            simp [Machine.step, ho, hrm, Machine.change, hb1]
          simp only [Machine.exec, hvisit, List.map_nil, List.nil_append, List.cons_append,
            hafter, FastEmit.emitLoop, noThrow, Bool.false_eq_true, if_false, ho, if_true, hrm]
          obtain ⟨h1, h2, h3⟩ := ih1
          refine ⟨h1, ?_, h3⟩
          rw [h2]
          simp
      · have ho1 : l.once = false := by simpa using ho
        have ih1 := ih (pre ++ [some (.record l)]) s b outer
          (log ++ [.called ⟨l.listener, l.context, FastEmit.passArgs args⟩]) f2 hf2
        rw [← hpre, ← hlen] at ih1
        have hafter : Machine.step (fun _ => [])
            ⟨s, ⟨key, pre ++ some (.record l) :: rest, b⟩ :: outer,
              log ++ [.called ⟨l.listener, l.context, FastEmit.passArgs args⟩]⟩
            (.after key l) =
            { machine := ⟨s, ⟨key, pre ++ some (.record l) :: rest, b⟩ :: outer,
                log ++ [.called ⟨l.listener, l.context, FastEmit.passArgs args⟩]⟩,
              next := [], abort := none } := by
          simp [Machine.step, ho1]
        simp only [Machine.exec, hvisit, List.map_nil, List.nil_append, List.cons_append,
          hafter, FastEmit.emitLoop, noThrow, Bool.false_eq_true, if_false, ho1]
        obtain ⟨h1, h2, h3⟩ := ih1
        refine ⟨h1, ?_, h3⟩
        rw [h2]
        simp
    · have hx1 : ∀ l, x ≠ some (.record l) := fun l h => hx ⟨l, h⟩
      have hvisit := step_visit_other (fun _ => []) s log key args pre rest x b outer hx1
      simp [Machine.exec, hvisit, emitLoop_other noThrow key args x rest s hx1,
        Outcome.notes, Outcome.status]

/-- With listeners whose bodies are empty, and enough fuel, the machine agrees
with `emit` for inert listeners that do not throw: same state, the same calls
in the log, followed by the result, and the same way of ending. -/
theorem emitRun_inert (e : Emitter) (key : Key) (args : List Val) :
    ∃ fuel0, ∀ fuel, fuel0 ≤ fuel →
      (e.emitRun (fun _ => []) fuel key args).state = (e.emit noThrow key args).state ∧
      (e.emitRun (fun _ => []) fuel key args).log =
        (e.emit noThrow key args).calls.map Note.called
          ++ (e.emit noThrow key args).outcome.notes key ∧
      (e.emitRun (fun _ => []) fuel key args).status =
        (e.emit noThrow key args).outcome.status := by
  cases e with
  | lazy => exact ⟨0, fun _ _ => ⟨rfl, rfl, rfl⟩⟩
  | fast s =>
    cases hg : get s.events key with
    | none =>
      refine ⟨1, fun fuel hf => ?_⟩
      obtain ⟨f1, rfl⟩ : ∃ f1, fuel = f1 + 1 := ⟨fuel - 1, by omega⟩
      simp [Emitter.emitRun, Emitter.emit, FastEmit.emit, Machine.exec, Machine.step,
        Machine.startEmit, hg, Outcome.notes, Outcome.status]
    | some h =>
      cases hl : h.listener? with
      | some l =>
        refine ⟨2, fun fuel hf => ?_⟩
        obtain ⟨f2, rfl⟩ : ∃ f2, fuel = f2 + 2 := ⟨fuel - 2, by omega⟩
        by_cases ho : l.once = true
        · cases hrm : FastEmit.removeListener s key l.listener .undefined (.bool true) with
          | error y =>
            simp [Emitter.emitRun, Emitter.emit, FastEmit.emit, Machine.exec, Machine.step,
              Machine.startEmit, hg, hl, ho, hrm, Outcome.notes, Outcome.status]
          | ok s1 =>
            simp [Emitter.emitRun, Emitter.emit, FastEmit.emit, Machine.exec, Machine.step,
              Machine.startEmit, hg, hl, ho, hrm, Outcome.notes, Outcome.status, noThrow]
        · have ho1 : l.once = false := by simpa using ho
          simp [Emitter.emitRun, Emitter.emit, FastEmit.emit, Machine.exec, Machine.step,
            Machine.startEmit, hg, hl, ho1, Outcome.notes, Outcome.status, noThrow]
      | none =>
        refine ⟨2 * h.elems.length + 2, fun fuel hf => ?_⟩
        obtain ⟨f1, rfl⟩ : ∃ f1, fuel = f1 + 1 := ⟨fuel - 1, by omega⟩
        have hloop := exec_visit_inert key args h.elems [] s h.isArray [] [] f1 (by omega)
        simp only [List.nil_append, List.length_nil] at hloop
        obtain ⟨h1, h2, h3⟩ := hloop
        simp only [Emitter.emitRun, Emitter.emit, FastEmit.emit, Machine.exec, Machine.step,
          Machine.startEmit, hg, hl, List.append_nil]
        exact ⟨by rw [h1], h2, h3⟩

/-! ## Further claims -/

/-- C21 (the code departs from the claim): on the channel `x` holding the
records of `f1` and `f2`, with `f1` calling `on('x', f3)` when invoked,
`emit('x')` invokes `f1`, `f2` and, in the same pass, the added `f3`:
`handler.push` changes the very array the loop runs over.  On a channel with
the single record of `f1` the added `f3` is not invoked in the pass. -/
theorem C21_listener_added_during_emit_is_invoked :
    (samplePair.emitRun sampleAdding 12 (.str "x") []).status = .done ∧
    (samplePair.emitRun sampleAdding 12 (.str "x") []).log =
      [.called ⟨1, .self, []⟩, .called ⟨2, .self, []⟩, .called ⟨3, .self, []⟩,
        .emitted (.str "x") true] ∧
    samplePair.records (.str "x") = [⟨1, .self, false⟩, ⟨2, .self, false⟩] ∧
    ((Emitter.fast ⟨[(.str "x", .record ⟨1, .self, false⟩)], 1⟩).emitRun sampleAdding 12
        (.str "x") []).log = [.called ⟨1, .self, []⟩, .emitted (.str "x") true] :=
  ⟨rfl, rfl, rfl, rfl⟩

/-- C24: `addListener` is `on` and `off` is `removeListener`: in every emitter
state, initialised or not, and for all arguments the two calls give the same
result, the same emitter state or the same failure. -/
theorem C24_aliases_agree (e : Emitter) (key : Key) (f : Nat) (context once : Val) :
    e.addListener key f context = e.on key f context ∧
    e.off key f context once = e.removeListener key f context once :=
  ⟨by rw [Emitter.addListener_eq, Emitter.on_eq], Emitter.off_eq_removeListener e key f context once⟩

/-- C25: `getMaxListeners()` is `Infinity` in every state, and
`setMaxListeners(n)` leaves the emitter as it is: `listeners`, `listenerCount`,
`eventNames` and `getMaxListeners` answer as before, and every later sequence
of registrations goes as it would have gone without the call. -/
theorem C25_max_listeners_is_ignored (e : Emitter) (n : Val) :
    e.getMaxListeners = .infinity ∧
    e.setMaxListeners n = e ∧
    (e.setMaxListeners n).getMaxListeners = e.getMaxListeners ∧
    (∀ k, (e.setMaxListeners n).listeners k = e.listeners k) ∧
    (∀ k, (e.setMaxListeners n).listenerCount k = e.listenerCount k) ∧
    (e.setMaxListeners n).eventNames = e.eventNames ∧
    (∀ regs, (e.setMaxListeners n).performAll regs = e.performAll regs) :=
  ⟨rfl, rfl, rfl, fun _ => rfl, fun _ => rfl, rfl, fun _ => rfl⟩

/-- C27 (the code departs from the claim): after `on('a', f)` and
`off('toString', g)` the event set stores an empty array under `toString`, and
after `on('constructor', f)` on a fresh emitter it stores under `constructor`
an array whose first element is the inherited function `EventSet`, not a
listener record. -/
theorem C27_stored_entries_out_of_shape :
    (∃ e1 e2, Emitter.lazy.on (.str "a") 7 .undefined = .ok e1 ∧
      e1.off (.str "toString") 9 .undefined .undefined = .ok e2 ∧
      e2.entry (.str "toString") = some (.arr [])) ∧
    (∃ e1, Emitter.lazy.on (.str "constructor") 7 .undefined = .ok e1 ∧
      e1.entry (.str "constructor") = some (.arr [.fn 0, .record ⟨7, .self, false⟩])) :=
  ⟨⟨_, _, rfl, rfl, rfl⟩, ⟨_, rfl, rfl⟩⟩

/-- C28 (the code departs from the claim): after `on('a', f)` and
`removeAllListeners()` no channel holds a listener, yet the counter is still 1:
the branch without a key replaces the event set and leaves `COUNT` as it
was. -/
theorem C28_counter_survives_removeAllListeners :
    ∃ e1, Emitter.lazy.on (.str "a") 7 .undefined = .ok e1 ∧ e1.count = some 1 ∧
      (e1.removeAllListeners none).channels = [] ∧
      (e1.removeAllListeners none).eventNames = [] ∧
      (e1.removeAllListeners none).count = some 1 :=
  ⟨_, rfl, rfl, rfl, rfl, rfl⟩

/-- C29 (the code departs from the claim): after `on('a', f)`,
`removeAllListeners()` and `on('b', g)` the channel `b` is the only one, and
`off('b', g)` removes it; the counter, left at 1 by `removeAllListeners()` and
now 2, does not reach 0, so `removeListener` deletes the key and keeps the
event set object. -/
theorem C29_last_channel_is_deleted_not_reset :
    ∃ e1, Emitter.lazy.on (.str "a") 7 .undefined = .ok e1 ∧
      (e1.removeAllListeners none).on (.str "b") 8 .undefined =
        .ok (.fast ⟨[(.str "b", .record ⟨8, .self, false⟩)], 2⟩) ∧
      (Emitter.fast ⟨[(.str "b", .record ⟨8, .self, false⟩)], 2⟩).channels = [.str "b"] ∧
      (Emitter.fast ⟨[(.str "b", .record ⟨8, .self, false⟩)], 2⟩).off (.str "b") 8 .undefined
        .undefined = .ok (.fast ⟨[], 1⟩) ∧
      FastEmit.removeListenerResets ⟨[(.str "b", .record ⟨8, .self, false⟩)], 2⟩ (.str "b") 8
        .undefined .undefined = false ∧
      Emit.removeAllListenersResets (.fast ⟨[(.str "b", .record ⟨8, .self, false⟩)], 2⟩)
        (some (.str "b")) = false :=
  ⟨_, rfl, rfl, rfl, rfl, rfl, rfl⟩

/-- The loop of the multiple listener path on a clean state when the listener
of `l` throws and those of `mid`, before it, do not: the loop stops at `l`, the
`once` records of `mid` are gone, `l` and what follows are still registered. -/
theorem emitLoop_clean_throw (throws : Nat → Bool) {key : Key} (hk : inherited key = none)
    (args : List Val) (l : Listener) (post : List Listener) (hl : throws l.listener = true)
    (mid : List Listener) :
    ∀ (pre : List Listener) (s : Fast), s.Clean → s.records key = pre ++ (mid ++ l :: post) →
      (∀ x ∈ pre, x.once = false) → mid.all Listener.sound = true →
      (∀ x ∈ mid, throws x.listener = false) →
      (FastEmit.emitLoop throws key args (((mid ++ l :: post).map Item.record).map some)
          s).state.Clean ∧
      (FastEmit.emitLoop throws key args (((mid ++ l :: post).map Item.record).map some)
          s).state.records key = pre ++ (mid.filter (fun x => !x.once) ++ l :: post) ∧
      (FastEmit.emitLoop throws key args (((mid ++ l :: post).map Item.record).map some)
          s).calls = (mid ++ [l]).map (Listener.call args) ∧
      (FastEmit.emitLoop throws key args (((mid ++ l :: post).map Item.record).map some)
          s).outcome = .threw l.listener := by
  induction mid with
  | nil =>
    intro pre s hc hrec _ _ _
    simp [FastEmit.emitLoop, hl, hc, hrec, Listener.call, passArgs_eq]
  | cons r mid ih =>
    intro pre s hc hrec hpre hall hnt
    simp only [List.all_cons, Bool.and_eq_true] at hall
    have hr : throws r.listener = false := hnt r (List.mem_cons_self _ _)
    have hnt1 : ∀ x ∈ mid, throws x.listener = false :=
      fun x hx => hnt x (List.mem_cons_of_mem _ hx)
    by_cases ho : r.once = true
    · obtain ⟨s1, hrm, hc1, hrec1, _⟩ :=
        removeListener_clean hc hk r.listener r.context (.bool true)
      have hrec2 : s1.records key = pre ++ (mid ++ l :: post) := by
        rw [hrec1, hrec, List.cons_append, List.eraseP_append_right]
        · have hm := Listener.matches_self_of_sound hall.1 ho
          simp [List.eraseP_cons, hm]
        · intro b hb
          have hb1 := Listener.not_matches_of_not_once (hpre b hb) r.listener r.context
          simp [hb1]
      obtain ⟨h1, h2, h3, h4⟩ := ih pre s1 hc1 hrec2 hpre hall.2 hnt1
      have hcons : (r :: mid) ++ l :: post = r :: (mid ++ l :: post) := rfl
      rw [hcons]
      simp only [List.map_cons, FastEmit.emitLoop, hr, ho, hrm, if_true,
        Bool.false_eq_true, if_false]
      refine ⟨h1, ?_, ?_, h4⟩
      · rw [h2]; simp [ho]
      · rw [h3]; simp [Listener.call, passArgs_eq]
    · have ho1 : r.once = false := by simpa using ho
      have hrec2 : s.records key = (pre ++ [r]) ++ (mid ++ l :: post) := by simp [hrec]
      have hpre2 : ∀ x ∈ pre ++ [r], x.once = false := by
        intro x hx
        rcases List.mem_append.1 hx with h | h
        · exact hpre x h
        · simp at h; rw [h]; exact ho1
      obtain ⟨h1, h2, h3, h4⟩ := ih (pre ++ [r]) s hc hrec2 hpre2 hall.2 hnt1
      have hcons : (r :: mid) ++ l :: post = r :: (mid ++ l :: post) := rfl
      rw [hcons]
      simp only [List.map_cons, FastEmit.emitLoop, hr, ho1,
        Bool.false_eq_true, if_false]
      refine ⟨h1, ?_, ?_, h4⟩
      · rw [h2]; simp [ho1]
      · rw [h3]; simp [Listener.call, passArgs_eq]

/-- C23: when the listener of the record `l` throws during `emit` and the
listeners of the records before it do not, the error leaves `emit`, the records
before `l` and `l` itself have been invoked once each, in order, nothing after
`l` is invoked, and the `once` records before `l` are removed: the channel
holds the records before `l` that are not `once`, then `l` and the records
after it (nothing, when `l` was a `once` record alone on the channel). -/
theorem C23_throwing_listener_stops_the_pass (throws : Nat → Bool) (e : Emitter)
    (hc : e.Clean) (key : Key) (args : List Val) (before after : List Listener)
    (l : Listener) (hrec : e.records key = before ++ l :: after)
    (hbefore : ∀ x ∈ before, throws x.listener = false) (hl : throws l.listener = true) :
    (e.emit throws key args).outcome = .threw l.listener ∧
    (e.emit throws key args).calls = (before ++ [l]).map (Listener.call args) ∧
    (e.emit throws key args).state.records key =
      before.filter (fun x => !x.once)
        ++ (if before = [] ∧ after = [] ∧ l.once = true then [] else l :: after) := by
  have hk : inherited key = none :=
    Emitter.plain_of_records_ne_nil hc (by rw [hrec]; simp)
  cases e with
  | lazy => simp [Emitter.records] at hrec
  | fast s =>
    simp only [Emitter.records] at hrec
    have hc0 : s.Clean := hc
    rcases Fast.Clean.get_cases hc0 hk with ⟨_, _, h0⟩ | ⟨l1, hg, _, h1, _⟩ |
      ⟨rs, hg, _, hrs, h2, hall⟩
    · rw [h0] at hrec
      simp at hrec
    · rw [h1] at hrec
      have hb : before = [] := by
        cases before with
        | nil => rfl
        | cons b bs => simp at hrec
      subst hb
      simp only [List.nil_append, List.cons.injEq] at hrec
      obtain ⟨rfl, hafter⟩ := hrec
      have ha : after = [] := hafter.symm
      subst ha
      by_cases ho : l1.once = true
      · obtain ⟨s1, hrm, _, hrec1, _⟩ :=
          removeListener_clean hc0 hk l1.listener .undefined (.bool true)
        have hm : l1.matches l1.listener .undefined (.bool true) = true := by
          simp [Listener.matches, ho]
        rw [h1] at hrec1
        simp only [Emitter.emit, Emitter.records, FastEmit.emit, hg, Handler.listener?, ho,
          if_true, hrm, hl]
        refine ⟨trivial, by simp [Listener.call, passArgs_eq], ?_⟩
        rw [hrec1]
        simp [hm]
      · have ho1 : l1.once = false := by simpa using ho
        simp only [Emitter.emit, Emitter.records, FastEmit.emit, hg, Handler.listener?, ho1,
          Bool.false_eq_true, if_false, hl, if_true]
        refine ⟨trivial, by simp [Listener.call, passArgs_eq], ?_⟩
        simp [h1]
    · rw [hrs] at hrec
      subst hrec
      have hall1 : before.all Listener.sound = true := by
        rw [List.all_eq_true] at hall ⊢
        intro x hx
        exact hall x (List.mem_append_left _ hx)
      obtain ⟨_, h4, h5, h6⟩ := emitLoop_clean_throw throws hk args l after hl before [] s hc0
        (by simpa using hrs) (by simp) hall1 hbefore
      have hnot : ¬(before = [] ∧ after = [] ∧ l.once = true) := by
        rintro ⟨hb, ha, _⟩
        subst hb ha
        simp at h2
      simp only [Emitter.emit, Emitter.records, FastEmit.emit, hg, Handler.listener?,
        Handler.elems, hnot, if_false]
      exact ⟨h6, h5, by simpa using h4⟩

/-- Witness for C23, on the channel `x` of `sampleMixed`: the listener `f2`
throws. -/
theorem C23_throwing_listener_stops_the_pass_witness :
    sampleMixed.Clean ∧
    sampleMixed.records (.str "x") = [⟨1, .self, false⟩] ++ ⟨2, .obj 0, true⟩ :: [] ∧
    (∀ x ∈ [(⟨1, .self, false⟩ : Listener)], (fun f => decide (f = 2)) x.listener = false) ∧
    (fun f => decide (f = 2)) (Listener.mk 2 (.obj 0) true).listener = true ∧
    (sampleMixed.emit (fun f => decide (f = 2)) (.str "x") []).outcome = .threw 2 ∧
    (sampleMixed.emit (fun f => decide (f = 2)) (.str "x") []).calls =
      [⟨1, .self, []⟩, ⟨2, .obj 0, []⟩] :=
  ⟨sampleMixed_clean, rfl, by decide, rfl,
    (C23_throwing_listener_stops_the_pass (fun f => decide (f = 2)) sampleMixed
      sampleMixed_clean (.str "x") [] [⟨1, .self, false⟩] [] ⟨2, .obj 0, true⟩ rfl
      (by decide) rfl).1,
    rfl⟩

theorem del_put_new {events : EventSet} {key : Key} (h : Handler)
    (hown : own events key = none) : del (put events key h) key = events := by
  induction events with
  | nil => simp [put, del]
  | cons p rest ih =>
    obtain ⟨k, v⟩ := p
    by_cases hk : key = k
    · simp [own, hk] at hown
    · simp only [own, hk, if_false] at hown
      simp [put, del, hk, ih hown]

theorem put_put (events : EventSet) (key : Key) (h1 h2 : Handler) :
    put (put events key h1) key h2 = put events key h2 := by
  induction events with
  | nil => simp [put]
  | cons p rest ih =>
    obtain ⟨k, v⟩ := p
    by_cases hk : key = k
    · simp [put, hk]
    · simp [put, hk, ih]

theorem matches_registered {f : Nat} {context : Val} (hc : context ≠ .nan) :
    Listener.matches ⟨f, contextOrThis context, false⟩ f context .undefined = true := by
  by_cases hu : context = .undefined
  · simp [Listener.matches, hu]
  · simp [Listener.matches, contextOrThis, hu, Val.strictEq, hc]

/-- In a clean state, at a key that names no inherited property: a record
added at the end of a channel and then removed by a call that matches it and no
other record of the channel gives back the very same state. -/
theorem register_remove_round_trip {s : Fast} (hc : s.Clean) {key : Key}
    (hk : inherited key = none) (r : Listener) (f : Nat) (context : Val)
    (hm : r.matches f context .undefined = true)
    (hno : ∀ l ∈ s.records key, l.matches f context .undefined = false) :
    ∃ s1, register false r s key = .ok s1 ∧
      FastEmit.removeListener s1 key f context .undefined = .ok s := by
  rcases hc.get_cases hk with ⟨hg, hown, _⟩ | ⟨l, hg, hown, hrec, _⟩ |
    ⟨rs, hg, hown, hrec, h2, _⟩
  · refine ⟨⟨put s.events key (.record r), s.count + 1⟩, ?_, ?_⟩
    · simp [register, hg, set_of_plain _ hk, Except.map]
    · have hg1 : get (put s.events key (.record r)) key = some (.record r) :=
        get_of_own (own_put_self _ _ _)
      by_cases h0 : s.count = 0
      · have hlen : s.events = [] := by
          have := hc.counted
          rw [h0] at this
          cases hs : s.events with
          | nil => rfl
          | cons _ _ => rw [hs] at this; simp at this; omega
        cases s with
        | mk events count =>
          simp only at h0 hlen
          subst h0 hlen
          simp [FastEmit.removeListener, hg1, Handler.listener?, hm]
      · cases s with
        | mk events count =>
          simp only at h0 hown
          simp [FastEmit.removeListener, hg1, Handler.listener?, hm, h0, del_put_new _ hown]
  · have hl : l.matches f context .undefined = false := hno l (by simp [hrec])
    refine ⟨⟨put s.events key (.arr [.record l, .record r]), s.count⟩, ?_, ?_⟩
    · simp [register, hg, set_of_plain _ hk, Except.map, Handler.length, Val.truthy,
        Handler.toItem]
    · have hg1 := get_of_own (own_put_self s.events key (.arr [.record l, .record r]))
      have hscan := removeScan_records context .undefined f [l, r]
      simp only [List.eraseP_cons, hl, hm, List.map_cons, List.map_nil, cond_false,
        cond_true] at hscan
      cases s with
      | mk events count =>
        simp only at hown
        simp [FastEmit.removeListener, hg1, Handler.listener?, Handler.elems, hscan,
          set_of_plain _ hk, Except.map, Item.toHandler, put_put, put_self_of_own hown]
  · refine ⟨⟨put s.events key (.arr ((rs ++ [r]).map Item.record)), s.count⟩, ?_, ?_⟩
    · have ht : (Val.num (rs.length : Int)).truthy = true := truthy_num_length h2
      simp [register, hg, Handler.length, ht, Handler.push, Except.map]
    · have hg1 := get_of_own (own_put_self s.events key (.arr ((rs ++ [r]).map Item.record)))
      have herase : (rs ++ [r]).eraseP (fun l => l.matches f context .undefined) = rs := by
        rw [List.eraseP_append_right]
        · simp [List.eraseP_cons, hm]
        · intro b hb
          have := hno b (by rw [hrec]; exact hb)
          simp [this]
      have hscan := removeScan_records context .undefined f (rs ++ [r])
      rw [herase] at hscan
      match rs, h2, hscan, hown, hg1 with
      | r1 :: r2 :: rest, _, hscan, hown, hg1 =>
        cases s with
        | mk events count =>
          simp only at hown hg1
          have hput := put_self_of_own hown
          simp only [List.map_cons] at hscan hput
          simp only [FastEmit.removeListener, hg1, Handler.listener?, Handler.elems, hscan,
            set_of_plain _ hk, Except.map, put_put, hput]

/-- C30 (the claim as stated fails): on a fresh emitter `on('x', f, NaN)`
followed by `off('x', f, NaN)` leaves `f` registered: the contexts are compared
with `===`, and `NaN === NaN` is false. -/
theorem C30_nan_context_is_not_removed :
    Emitter.lazy.listeners (.str "x") = .ok [] ∧
    ∃ e1 e2, Emitter.lazy.on (.str "x") 7 .nan = .ok e1 ∧
      e1.off (.str "x") 7 .nan .undefined = .ok e2 ∧
      e2.listeners (.str "x") = .ok [.fn 7] ∧ e2.listenerCount (.str "x") = .num 1 ∧
      e2.eventNames = [.str "x"] :=
  ⟨rfl, _, _, rfl, rfl, rfl, rfl, rfl⟩

/-- C30 (amended): in every well-formed state, never initialised included, for
a key that names no inherited property, a callback `f` that no record of the
channel has and a context other than `NaN`, `on(k, f, c)` followed by
`off(k, f, c)` restores `listeners(j)` and `listenerCount(j)` of every such key
`j` and restores `eventNames()`; on a fresh emitter `listenerCount(k)` is then
0, `listeners(k)` and `eventNames()` are empty and `emit(k, ...)` returns false
for every argument list. -/
theorem C30_on_then_off_round_trip (e : Emitter) (hc : e.Clean) (key : Key)
    (hk : inherited key = none) (f : Nat) (context : Val) (hctx : context ≠ .nan)
    (hnew : ∀ l ∈ e.records key, l.listener ≠ f) :
    ∃ e1 e2, e.on key f context = .ok e1 ∧ e1.off key f context .undefined = .ok e2 ∧
      (∀ j, inherited j = none →
        e2.listeners j = e.listeners j ∧ e2.listenerCount j = e.listenerCount j) ∧
      e2.eventNames = e.eventNames ∧
      (e = .lazy → e2.listenerCount key = .num 0 ∧ e2.listeners key = .ok [] ∧
        e2.eventNames = [] ∧
        ∀ (throws : Nat → Bool) (args : List Val),
          (e2.emit throws key args).outcome = .returned false ∧
          (e2.emit throws key args).calls = []) := by
  have hci := hc.init
  have hno : ∀ l ∈ (init e).records key, l.matches f context .undefined = false := by
    intro l hl
    rw [records_init] at hl
    have := hnew l hl
    simp [Listener.matches, this]
  obtain ⟨s1, h1, h2⟩ := register_remove_round_trip hci hk ⟨f, contextOrThis context, false⟩
    f context (matches_registered hctx) hno
  have hc2 : (Emitter.fast (init e)).Clean := hci
  have hrecs : ∀ j, (Emitter.fast (init e)).records j = e.records j := fun j => records_init e j
  refine ⟨.fast s1, .fast (init e), ?_, ?_, ?_, ?_, ?_⟩
  · rw [Emitter.on_eq, h1]; rfl
  · simp [Emitter.off, h2, Except.map]
  · intro j hj
    exact ⟨by rw [listeners_clean hc2 hj, listeners_clean hc hj, hrecs j],
      by rw [listenerCount_clean hc2 hj, listenerCount_clean hc hj, hrecs j]⟩
  · cases e <;> rfl
  · intro he
    subst he
    refine ⟨?_, ?_, rfl, ?_⟩
    · rw [listenerCount_clean hc2 hk, hrecs key]; rfl
    · rw [listeners_clean hc2 hk, hrecs key]; rfl
    · intro throws args
      have hnt : ∀ l ∈ (Emitter.fast (init .lazy)).records key, throws l.listener = false := by
        rw [hrecs key]; intro l hl; cases hl
      refine ⟨?_, ?_⟩
      · rw [Emitter.emit_outcome_clean throws hc2 hk args hnt, hrecs key]; rfl
      · rw [(Emitter.emit_clean throws hc2 key args hnt).2.2.1, hrecs key]; rfl

/-- Witness for C30 (amended), on a fresh emitter with the channel `x`. -/
theorem C30_on_then_off_round_trip_witness :
    Emitter.lazy.Clean ∧ inherited (.str "x") = none ∧ Val.obj 0 ≠ .nan ∧
    (∀ l ∈ Emitter.lazy.records (.str "x"), l.listener ≠ 7) ∧
    ∃ e1 e2, Emitter.lazy.on (.str "x") 7 (.obj 0) = .ok e1 ∧
      e1.off (.str "x") 7 (.obj 0) .undefined = .ok e2 ∧
      (∀ j, inherited j = none →
        e2.listeners j = Emitter.lazy.listeners j ∧
        e2.listenerCount j = Emitter.lazy.listenerCount j) ∧
      e2.eventNames = Emitter.lazy.eventNames ∧
      (Emitter.lazy = .lazy → e2.listenerCount (.str "x") = .num 0 ∧
        e2.listeners (.str "x") = .ok [] ∧ e2.eventNames = [] ∧
        ∀ (throws : Nat → Bool) (args : List Val),
          (e2.emit throws (.str "x") args).outcome = .returned false ∧
          (e2.emit throws (.str "x") args).calls = []) :=
  ⟨trivial, by decide, by decide, (fun _ h => nomatch h),
    C30_on_then_off_round_trip .lazy trivial (.str "x") (by decide) 7 (.obj 0) (by decide)
      (fun _ h => nomatch h)⟩

/-! ## The machine with listeners that remove -/

theorem exec_step (body : Nat → List Step) (fuel : Nat) (task : Task) (rest : List Task)
    (m m1 : Machine) (next : List Task)
    (h : Machine.step body m task = { machine := m1, next := next, abort := none }) :
    Machine.exec body (fuel + 1) (task :: rest) m = Machine.exec body fuel (next ++ rest) m1 := by
  simp [Machine.exec, h]

theorem removeAll_step_clean {s : Fast} (hc : s.Clean) {key : Key}
    (hk : inherited key = none) :
    (init (Emit.removeAllListeners (.fast s) (some key))).Clean := by
  by_cases ht : key.truthy = true
  · exact (removeAllListeners_clean (e := .fast s) hc hk ht).1.init
  · have h := (removeAllListeners_none_clean (e := .fast s) hc).1.init
    have heq : Emit.removeAllListeners (.fast s) (some key) =
        Emit.removeAllListeners (.fast s) none := by
      simp [Emit.removeAllListeners, ht]
    rw [heq]
    exact h

/-- A removal on the channel of the looped array, in a clean state: the state
stays clean, the log and the elements of the looped array are as before. -/
theorem step_run_removes (body : Nat → List Step) {s : Fast} (hc : s.Clean) {key : Key}
    (hk : inherited key = none) (st : Step) (hst : st.removes key = true)
    (elems : List (Option Item)) (b : Bool) (outer : List Frame) (log : List Note) :
    ∃ s1 b1 outer1, s1.Clean ∧
      Machine.step body ⟨s, ⟨key, elems, b⟩ :: outer, log⟩ (.run st) =
        { machine := ⟨s1, ⟨key, elems, b1⟩ :: outer1, log⟩, next := [], abort := none } := by
  cases st with
  | off event f context once =>
    have he : event = key := by simpa [Step.removes] using hst
    subst he
    obtain ⟨s1, h1, hc1, _, _⟩ := removeListener_clean hc hk f context once
    obtain ⟨b1, hb1⟩ := Frame.touch_removal s1 event ⟨event, elems, b⟩
    exact ⟨s1, b1, outer.map (Frame.touch (removalTouch s1 event)), hc1,
      by simp [Machine.step, Machine.change, h1, hb1]⟩
  | removeAllListeners ev =>
    cases ev with
    | none =>
      exact ⟨init (Emit.removeAllListeners (.fast s) none), false,
        outer.map (Frame.touch .replacedAll),
        (removeAllListeners_none_clean (e := .fast s) hc).1.init,
        by simp [Machine.step, Machine.change, Frame.touch]⟩
    | some event =>
      have he : event = key := by simpa [Step.removes] using hst
      subst he
      obtain ⟨b1, hb1⟩ := Frame.touch_removal
        (init (Emit.removeAllListeners (.fast s) (some event))) event ⟨event, elems, b⟩
      exact ⟨init (Emit.removeAllListeners (.fast s) (some event)), b1,
        outer.map (Frame.touch (removalTouch
          (init (Emit.removeAllListeners (.fast s) (some event))) event)),
        removeAll_step_clean hc hk,
        by simp [Machine.step, Machine.change, hb1]⟩
  | _ => simp [Step.removes] at hst

/-- A listener body made of removals on the channel of the looped array runs
to its end and leaves the log and the elements of the looped array as they
were, in a clean state. -/
theorem exec_removes (body : Nat → List Step) {key : Key} (hk : inherited key = none)
    (elems : List (Option Item)) (log : List Note) :
    ∀ (steps : List Step), (∀ st ∈ steps, st.removes key = true) →
      ∀ (s : Fast), s.Clean → ∀ (b : Bool) (outer : List Frame),
      ∃ s1 b1 outer1, s1.Clean ∧ ∀ (fuel : Nat) (tasks : List Task),
        Machine.exec body (steps.length + fuel) (steps.map Task.run ++ tasks)
            ⟨s, ⟨key, elems, b⟩ :: outer, log⟩ =
          Machine.exec body fuel tasks ⟨s1, ⟨key, elems, b1⟩ :: outer1, log⟩ := by
  intro steps
  induction steps with
  | nil =>
    intro _ s hc b outer
    exact ⟨s, b, outer, hc, fun fuel tasks => by simp⟩
  | cons st steps ih =>
    intro hall s hc b outer
    obtain ⟨s1, b1, outer1, hc1, hstep⟩ :=
      step_run_removes body hc hk st (hall st (by simp)) elems b outer log
    obtain ⟨s2, b2, outer2, hc2, hrun⟩ :=
      ih (fun x hx => hall x (by simp [hx])) s1 hc1 b1 outer1
    refine ⟨s2, b2, outer2, hc2, fun fuel tasks => ?_⟩
    have hlen : (st :: steps).length + fuel = (steps.length + fuel) + 1 := by
      simp only [List.length_cons]; omega
    rw [hlen, List.map_cons, List.cons_append, exec_step body _ _ _ _ _ _ hstep,
      List.nil_append]
    exact hrun fuel tasks

/-- The multiple listener loop with listeners that only remove on the looped
channel: it runs to its end, invokes every element left of the looped array
once, in order, and leaves a clean state. -/
theorem exec_visit_removes (body : Nat → List Step) {key : Key} (hk : inherited key = none)
    (args : List Val) :
    ∀ (rest : List Listener), (∀ l ∈ rest, ∀ st ∈ body l.listener, st.removes key = true) →
      ∀ (pre : List (Option Item)) (s : Fast), s.Clean → ∀ (b : Bool) (outer : List Frame)
        (log : List Note),
      ∃ n m1, m1.state.Clean ∧
        m1.log = log ++ rest.map
            (fun l => Note.called ⟨l.listener, l.context, FastEmit.passArgs args⟩)
          ++ [.emitted key true] ∧
        ∀ extra, Machine.exec body (n + extra) [.visit key args pre.length]
            ⟨s, ⟨key, pre ++ rest.map (fun l => some (Item.record l)), b⟩ :: outer, log⟩ =
          { machine := m1, status := .done } := by
  intro rest
  induction rest with
  | nil =>
    intro _ pre s hc b outer log
    refine ⟨1, ⟨s, outer, log ++ [.emitted key true]⟩, hc, by simp, fun extra => ?_⟩
    have h1 : 1 + extra = extra + 1 := by omega
    rw [h1]
    simp [Machine.exec, Machine.step]
  | cons l rest ih =>
    intro hall pre s hc b outer log
    have hvisit := step_visit_record body s log key args pre
      (rest.map (fun l => some (Item.record l))) l b outer
    obtain ⟨s1, b1, outer1, hc1, hrun⟩ := exec_removes body hk
      (pre ++ some (.record l) :: rest.map (fun l => some (Item.record l)))
      (log ++ [.called ⟨l.listener, l.context, FastEmit.passArgs args⟩])
      (body l.listener) (hall l (by simp)) s hc b outer
    have hafter : ∃ s2 b2 outer2, s2.Clean ∧
        Machine.step body
          ⟨s1, ⟨key, pre ++ some (.record l) :: rest.map (fun l => some (Item.record l)), b1⟩
              :: outer1,
            log ++ [.called ⟨l.listener, l.context, FastEmit.passArgs args⟩]⟩
          (.after key l) =
        { machine :=
            ⟨s2, ⟨key, pre ++ some (.record l) :: rest.map (fun l => some (Item.record l)),
                b2⟩ :: outer2,
              log ++ [.called ⟨l.listener, l.context, FastEmit.passArgs args⟩]⟩,
          next := [], abort := none } := by
      by_cases ho : l.once = true
      · obtain ⟨s2, h2, hc2, _, _⟩ :=
          removeListener_clean hc1 hk l.listener l.context (.bool true)
        obtain ⟨b2, hb2⟩ := Frame.touch_removal s2 key
          ⟨key, pre ++ some (.record l) :: rest.map (fun l => some (Item.record l)), b1⟩
        exact ⟨s2, b2, outer1.map (Frame.touch (removalTouch s2 key)), hc2,
          by simp [Machine.step, ho, h2, Machine.change, hb2]⟩
      · have ho1 : l.once = false := by simpa using ho
        exact ⟨s1, b1, outer1, hc1, by simp [Machine.step, ho1]⟩
    obtain ⟨s2, b2, outer2, hc2, hafter⟩ := hafter
    have hpre : pre ++ some (Item.record l) :: rest.map (fun l => some (Item.record l)) =
        (pre ++ [some (Item.record l)]) ++ rest.map (fun l => some (Item.record l)) := by simp
    have hlen : pre.length + 1 = (pre ++ [some (Item.record l)]).length := by simp
    obtain ⟨n, m1, hm1, hlog, hex⟩ := ih (fun x hx => hall x (by simp [hx]))
      (pre ++ [some (.record l)]) s2 hc2 b2 outer2
      (log ++ [.called ⟨l.listener, l.context, FastEmit.passArgs args⟩])
    refine ⟨(body l.listener).length + n + 2, m1, hm1, by rw [hlog]; simp, fun extra => ?_⟩
    have hfuel : (body l.listener).length + n + 2 + extra =
        ((body l.listener).length + ((n + extra) + 1)) + 1 := by omega
    rw [List.map_cons, hfuel, exec_step body _ _ _ _ _ _ hvisit, List.append_nil,
      hrun ((n + extra) + 1) [.after key l, .visit key args (pre.length + 1)],
      exec_step body _ _ _ _ _ _ hafter, List.nil_append, hlen, hpre]
    exact hex extra

theorem samplePair_clean : samplePair.Clean :=
  ⟨by decide, by decide, by decide, by decide⟩

/-- In a well-formed state, on a channel holding two or more records,
when the listeners only remove on that channel while `emit` runs
(`off`/`removeListener`, `removeAllListeners(key)`, `removeAllListeners()`),
the call of `emit`, given enough fuel, returns true after invoking every record
present at its start exactly once, in order: none is skipped, none is invoked
twice; the state left is well formed. -/
theorem removal_during_emit_keeps_the_pass_clean (body : Nat → List Step) (e : Emitter)
    (hc : e.Clean) (key : Key) (args : List Val) (h2 : 2 ≤ (e.records key).length)
    (hbody : ∀ l ∈ e.records key, ∀ st ∈ body l.listener, st.removes key = true) :
    ∃ fuel0, ∀ fuel, fuel0 ≤ fuel →
      (e.emitRun body fuel key args).status = .done ∧
      (e.emitRun body fuel key args).log =
        (e.records key).map (fun l => Note.called (l.call args)) ++ [.emitted key true] ∧
      (e.emitRun body fuel key args).state.Clean := by
  have hne : e.records key ≠ [] := by
    intro h; rw [h] at h2; simp at h2
  have hk := Emitter.plain_of_records_ne_nil hc hne
  cases e with
  | lazy => exact absurd rfl hne
  | fast s =>
    have hcs : s.Clean := hc
    have hrec : (Emitter.fast s).records key = s.records key := rfl
    rw [hrec] at h2 hbody ⊢
    rcases hcs.get_cases hk with ⟨_, _, hr⟩ | ⟨l, _, _, hr, _⟩ | ⟨rs, hg, _, hr, _, _⟩
    · rw [hr] at h2; simp at h2
    · rw [hr] at h2; simp at h2
    · rw [hr] at hbody ⊢
      obtain ⟨n, m1, hm1, hlog, hex⟩ :=
        exec_visit_removes body hk args rs hbody [] s hcs true [] []
      have hstart : Machine.step body ⟨s, [], []⟩ (.run (.emit key args)) =
          { machine := ⟨s, [⟨key, [] ++ rs.map (fun l => some (Item.record l)), true⟩], []⟩,
            next := [.visit key args 0], abort := none } := by
        simp [Machine.step, Machine.startEmit, hg, Handler.listener?, Handler.elems,
          Handler.isArray]
      refine ⟨n + 1, fun fuel hf => ?_⟩
      obtain ⟨extra, rfl⟩ : ∃ extra, fuel = (n + extra) + 1 := ⟨fuel - (n + 1), by omega⟩
      have hrun : Machine.exec body ((n + extra) + 1) [.run (.emit key args)] ⟨s, [], []⟩ =
          { machine := m1, status := .done } := by
        rw [exec_step body _ _ _ _ _ _ hstart, List.append_nil]
        exact hex extra
      simp only [Emitter.emitRun, hrun]
      refine ⟨trivial, ?_, hm1⟩
      rw [hlog]
      simp [Listener.call, passArgs_eq]

/-- An instance on `samplePair` where the listener `f1` calls
`off('x', f2)`: `f2` is still invoked, once. -/
theorem removal_during_emit_keeps_the_pass_clean_instance :
    samplePair.Clean ∧ 2 ≤ (samplePair.records (.str "x")).length ∧
    (∀ l ∈ samplePair.records (.str "x"), ∀ st ∈ sampleRemoving l.listener,
      st.removes (.str "x") = true) ∧
    (∃ fuel0, ∀ fuel, fuel0 ≤ fuel →
      (samplePair.emitRun sampleRemoving fuel (.str "x") []).status = .done ∧
      (samplePair.emitRun sampleRemoving fuel (.str "x") []).log =
        (samplePair.records (.str "x")).map (fun l => Note.called (l.call []))
          ++ [.emitted (.str "x") true] ∧
      (samplePair.emitRun sampleRemoving fuel (.str "x") []).state.Clean) ∧
    (samplePair.emitRun sampleRemoving 12 (.str "x") []).log =
      [.called ⟨1, .self, []⟩, .called ⟨2, .self, []⟩, .emitted (.str "x") true] ∧
    (samplePair.emitRun sampleRemoving 12 (.str "x") []).state.records (.str "x") =
      [⟨1, .self, false⟩] :=
  ⟨samplePair_clean, by decide, by decide,
    removal_during_emit_keeps_the_pass_clean sampleRemoving samplePair samplePair_clean
      (.str "x") [] (by decide) (by decide),
    rfl, rfl⟩

/-! ## The emitter and the reference registry -/

/-- C26 (the code departs from the claim): on a fresh emitter, after
`on('constructor', f7)`, the call `listenerCount('constructor')` returns 2 and
`listeners('constructor')` returns `[undefined, f7]`, where the reference
registry returns 1 and `[f7]`.  After `once('x', f7, 0)` the emitter invokes
`f7` on itself, the registry on `0`; after `on('x', f7)` and
`removeAllListeners('')` the emitter counts 0 on `x`, the registry 1. -/
theorem C26_emitter_departs_from_registry :
    Emitter.lazy.run sampleInheritedOps =
      [⟨.self, []⟩, ⟨.value (.num 2), []⟩, ⟨.callbacks [.undefined, .fn 7], []⟩] ∧
    Registry.empty.run sampleInheritedOps =
      [⟨.self, []⟩, ⟨.value (.num 1), []⟩, ⟨.callbacks [.fn 7], []⟩] ∧
    Emitter.lazy.run sampleFalsyOnceOps = [⟨.self, []⟩, ⟨.bool true, [⟨7, .self, []⟩]⟩] ∧
    Registry.empty.run sampleFalsyOnceOps = [⟨.self, []⟩, ⟨.bool true, [⟨7, .num 0, []⟩]⟩] ∧
    Emitter.lazy.run sampleEmptyKeyOps = [⟨.self, []⟩, ⟨.self, []⟩, ⟨.value (.num 0), []⟩] ∧
    Registry.empty.run sampleEmptyKeyOps = [⟨.self, []⟩, ⟨.self, []⟩, ⟨.value (.num 1), []⟩] :=
  ⟨rfl, rfl, rfl, rfl, rfl, rfl⟩

theorem record_eq_specRecord (g : Registration)
    (h : (!g.method.isOnce || g.context == .undefined || g.context.truthy) = true) :
    g.record = g.specRecord := by
  obtain ⟨m, event, f, c⟩ := g
  by_cases hu : c = .undefined
  · subst hu
    cases m <;> rfl
  · cases m
    · simp [Registration.record, Registration.specRecord, contextOrThis, hu, Method.isOnce]
    · simp [Registration.record, Registration.specRecord, contextOrThis, hu, Method.isOnce]
    · have ht : c.truthy = true := by simpa [Method.isOnce, hu] using h
      simp [Registration.record, Registration.specRecord, truthyContextOrThis, hu, ht,
        Method.isOnce]
    · simp [Registration.record, Registration.specRecord, contextOrThis, hu, Method.isOnce]
    · have ht : c.truthy = true := by simpa [Method.isOnce, hu] using h
      simp [Registration.record, Registration.specRecord, truthyContextOrThis, hu, ht,
        Method.isOnce]

/-- One call away from the departures, on a clean emitter whose channels hold
the records of the registry: the emitter and the registry answer alike, and
hold the same records afterwards. -/
theorem answer_agrees {e : Emitter} (hc : e.Clean) {reg : Registry}
    (hr : ∀ key, e.records key = reg.records key) (op : Op) (hp : op.plain = true) :
    (e.answer op).2 = (reg.answer op).2 ∧ (e.answer op).1.Clean ∧
    ∀ key, (e.answer op).1.records key = ((reg.answer op).1).records key := by
  cases op with
  | register g =>
    simp only [Op.plain, Bool.and_eq_true, Option.isNone_iff_eq_none] at hp
    obtain ⟨hk, hctx⟩ := hp
    obtain ⟨e1, h1, hc1, hkey, hother⟩ := Emitter.perform_clean hc g hk
    simp only [Emitter.answer, h1, Registry.answer]
    refine ⟨trivial, hc1, fun key => ?_⟩
    by_cases hj : key = g.event
    · subst hj
      rw [hkey, record_eq_specRecord g hctx, hr]
      simp [Registry.store]
    · rw [hother key hj, hr]
      simp [Registry.store, hj]
  | off event f context once =>
    simp only [Op.plain, Option.isNone_iff_eq_none] at hp
    obtain ⟨e1, h1, hc1, hkey, hother⟩ := Emitter.removed_clean hc hp f context once
    simp only [Emitter.answer, Emitter.off_eq_removeListener, h1, Registry.answer]
    refine ⟨trivial, hc1, fun key => ?_⟩
    by_cases hj : key = event
    · subst hj
      rw [hkey, hr]
      simp [Registry.store, Registry.matches, Listener.matches]
    · rw [hother key hj, hr]
      simp [Registry.store, hj]
  | removeListener event f context once =>
    simp only [Op.plain, Option.isNone_iff_eq_none] at hp
    obtain ⟨e1, h1, hc1, hkey, hother⟩ := Emitter.removed_clean hc hp f context once
    simp only [Emitter.answer, h1, Registry.answer]
    refine ⟨trivial, hc1, fun key => ?_⟩
    by_cases hj : key = event
    · subst hj
      rw [hkey, hr]
      simp [Registry.store, Registry.matches, Listener.matches]
    · rw [hother key hj, hr]
      simp [Registry.store, hj]
  | removeAllListeners ev =>
    cases ev with
    | none =>
      obtain ⟨hc1, _, hall⟩ := removeAllListeners_none_clean hc
      simp only [Emitter.answer, Registry.answer]
      exact ⟨trivial, hc1, fun key => by rw [hall key]; rfl⟩
    | some event =>
      simp only [Op.plain, Bool.and_eq_true, Option.isNone_iff_eq_none] at hp
      obtain ⟨hc1, hkey, hother⟩ := removeAllListeners_clean hc hp.1 hp.2
      simp only [Emitter.answer, Registry.answer]
      refine ⟨trivial, hc1, fun key => ?_⟩
      by_cases hj : key = event
      · subst hj
        rw [hkey]
        simp [Registry.store]
      · rw [hother key hj, hr]
        simp [Registry.store, hj]
  | emit event args =>
    simp only [Op.plain, Option.isNone_iff_eq_none] at hp
    have hnt : ∀ l ∈ e.records event, noThrow l.listener = false := fun _ _ => rfl
    obtain ⟨hc1, hkey, hcalls, hother⟩ := Emitter.emit_clean noThrow hc event args hnt
    have hout := Emitter.emit_outcome_clean noThrow hc hp args hnt
    simp only [Emitter.answer, Registry.answer]
    refine ⟨?_, hc1, fun key => ?_⟩
    · rw [hout, hcalls, hr]
      rfl
    · by_cases hj : key = event
      · subst hj
        rw [hkey, hr]
        simp [Registry.store]
      · rw [hother key hj, hr]
        simp [Registry.store, hj]
  | listenerCount event =>
    simp only [Op.plain, Option.isNone_iff_eq_none] at hp
    simp only [Emitter.answer, Registry.answer, listenerCount_clean hc hp]
    exact ⟨by rw [hr], hc, hr⟩
  | listeners event =>
    simp only [Op.plain, Option.isNone_iff_eq_none] at hp
    simp only [Emitter.answer, Registry.answer, listeners_clean hc hp]
    exact ⟨by rw [hr], hc, hr⟩

/-- Away from the departures the emitter refines the reference registry: from
a clean state that holds the records of the registry, every sequence of calls
on keys that name no inherited property, with truthy keys for
`removeAllListeners(key)` and truthy or unspecified contexts for `once`,
lets observe the same answers and the same invocations. -/
theorem run_agrees (ops : List Op) :
    ∀ {e : Emitter}, e.Clean → ∀ {reg : Registry},
      (∀ key, e.records key = reg.records key) → (∀ op ∈ ops, op.plain = true) →
      e.run ops = reg.run ops := by
  induction ops with
  | nil => intro _ _ _ _ _; rfl
  | cons op rest ih =>
    intro e hc reg hr hp
    obtain ⟨h1, h2, h3⟩ := answer_agrees hc hr op (hp op (by simp))
    simp only [Emitter.run, Registry.run, h1]
    rw [ih h2 h3 (fun x hx => hp x (by simp [hx]))]

/-- The refinement at work on a fresh emitter, through every kind of call. -/
theorem run_agrees_sample :
    (∀ op ∈ samplePlainOps, op.plain = true) ∧
    Emitter.lazy.run samplePlainOps = Registry.empty.run samplePlainOps ∧
    (Emitter.lazy.run samplePlainOps).map Observed.answer =
      [.self, .self, .self, .callbacks [.fn 2, .fn 1], .bool true, .self, .value (.num 0),
        .self, .bool false] :=
  ⟨by decide,
    @run_agrees samplePlainOps .lazy trivial Registry.empty (fun _ => rfl) (by decide),
    rfl⟩

/-! ## The last claims -/

theorem Listener.matches_supplied (l : Listener) (f : Nat) (context : Val) {o : Val}
    (ho : o ≠ .undefined) :
    l.matches f context o = l.matches f context (.bool true) := by
  have h1 : (o == Val.undefined) = false := beq_eq_false_iff_ne.2 ho
  have h2 : (Val.bool true == Val.undefined) = false := by decide
  simp only [Listener.matches, h1, h2]

theorem Item.matches_item_supplied (x : Item) (listener : Option Nat) (context : Val) {o : Val}
    (ho : o ≠ .undefined) :
    x.matches listener context o = x.matches listener context (.bool true) := by
  cases x <;> cases listener <;> simp [Item.matches, Listener.matches_supplied _ _ _ ho]

theorem removeScan_supplied (context : Val) {o : Val} (ho : o ≠ .undefined)
    (items : List (Option Item)) :
    ∀ listener, FastEmit.removeScan context o listener items =
      FastEmit.removeScan context (.bool true) listener items := by
  induction items with
  | nil => intro _; simp [FastEmit.removeScan]
  | cons x rest ih =>
    intro listener
    cases x with
    | none => simp [FastEmit.removeScan]
    | some x =>
      simp only [FastEmit.removeScan, Item.matches_item_supplied x listener context ho, ih]

/-- The test `once === undefined`: any supplied value of `once`, true or not,
makes `removeListener` go the way of `true`. -/
theorem removeListener_supplied (s : Fast) (key : Key) (f : Nat) (context : Val) {o : Val}
    (ho : o ≠ .undefined) :
    FastEmit.removeListener s key f context o =
      FastEmit.removeListener s key f context (.bool true) := by
  simp only [FastEmit.removeListener, removeScan_supplied context ho,
    Listener.matches_supplied _ f context ho]

theorem filter_eraseP_of_imp {p q : Listener → Bool} (h : ∀ l, p l = true → q l = false)
    (rs : List Listener) : (rs.eraseP p).filter q = rs.filter q := by
  induction rs with
  | nil => rfl
  | cons r rest ih =>
    by_cases hp : p r = true
    · simp [List.eraseP_cons, hp, h r hp]
    · simp only [List.eraseP_cons, hp, Bool.false_eq_true, if_false, cond_false,
        List.filter_cons, ih]

/-- The multiple listener loop over records none of which is `once` leaves the
state as it was, whether a listener throws or not. -/
theorem emitLoop_no_once (throws : Nat → Bool) (key : Key) (args : List Val) :
    ∀ (rs : List Listener) (s : Fast), (∀ l ∈ rs, l.once = false) →
      (FastEmit.emitLoop throws key args ((rs.map Item.record).map some) s).state = s := by
  intro rs
  induction rs with
  | nil => intro s _; rfl
  | cons r rest ih =>
    intro s hno
    have ho : r.once = false := hno r (by simp)
    have ih1 := ih s (fun l hl => hno l (by simp [hl]))
    by_cases ht : throws r.listener = true
    · simp [FastEmit.emitLoop, ht]
    · simp only [List.map_cons, FastEmit.emitLoop, ht, ho, Bool.false_eq_true, if_false]
      exact ih1

/-- In a clean state `emit` on a channel without `once` records, at any key,
leaves the state as it was. -/
theorem emit_no_once (throws : Nat → Bool) {s : Fast} (hc : s.Clean) (key : Key)
    (args : List Val) (hno : ∀ l ∈ s.records key, l.once = false) :
    (FastEmit.emit throws s key args).state = s := by
  by_cases hk : inherited key = none
  · rcases hc.get_cases hk with ⟨hg, _, _⟩ | ⟨l, hg, _, hrec, _⟩ | ⟨rs, hg, _, hrec, _, _⟩
    · simp [FastEmit.emit, hg]
    · have ho : l.once = false := hno l (by simp [hrec])
      simp [FastEmit.emit, hg, Handler.listener?, ho]
    · rw [hrec] at hno
      simp only [FastEmit.emit, hg, Handler.listener?, Handler.elems]
      exact emitLoop_no_once throws key args rs s hno
  · exact (emit_clean_not_plain throws hc hk args).1

/-- C32: in every well-formed state and for every key whose channel holds no
`once` record (absent channels included), `emit(key, ...args)` leaves the
emitter exactly as it was, whether a listener throws or not: `listeners(j)` of
every key `j`, `eventNames()` and the channel counter are unchanged. -/
theorem C32_emit_without_once_keeps_the_state (throws : Nat → Bool) (e : Emitter)
    (hc : e.Clean) (key : Key) (args : List Val)
    (hno : ∀ l ∈ e.records key, l.once = false) :
    (e.emit throws key args).state = e ∧
    (∀ j, (e.emit throws key args).state.listeners j = e.listeners j) ∧
    (e.emit throws key args).state.eventNames = e.eventNames ∧
    (e.emit throws key args).state.count = e.count := by
  have h : (e.emit throws key args).state = e := by
    cases e with
    | lazy => rfl
    | fast s =>
      have hs : (FastEmit.emit throws s key args).state = s :=
        emit_no_once throws hc key args hno
      simp only [Emitter.emit, hs]
  exact ⟨h, fun j => by rw [h], by rw [h], by rw [h]⟩

/-- Witness for C32, on the channel `x` of `samplePair`, two records of
`on`. -/
theorem C32_emit_without_once_keeps_the_state_witness :
    samplePair.Clean ∧ (∀ l ∈ samplePair.records (.str "x"), l.once = false) ∧
    (samplePair.emit noThrow (.str "x") [.num 1]).state = samplePair ∧
    (samplePair.emit noThrow (.str "x") [.num 1]).calls =
      [⟨1, .self, [.num 1]⟩, ⟨2, .self, [.num 1]⟩] :=
  ⟨samplePair_clean, by decide,
    (C32_emit_without_once_keeps_the_state noThrow samplePair samplePair_clean (.str "x")
      [.num 1] (by decide)).1,
    rfl⟩

/-- C36: whenever the argument `once` is supplied, whatever its value,
`off` and `removeListener` go exactly as with `true`, in every state and at
every key; so `off(key, f, ctx, false)` is `off(key, f, ctx, true)`.  In a
well-formed state, at a key that names no inherited property, the call takes
out the first record with the callback `f` (and the context, when given) that
is a `once` record, and every record that is not `once` stays. -/
theorem C36_supplied_once_argument_restricts (e : Emitter) (key : Key) (f : Nat)
    (context o : Val) (ho : o ≠ .undefined) :
    e.off key f context o = e.off key f context (.bool true) ∧
    e.removeListener key f context o = e.removeListener key f context (.bool true) ∧
    (e.Clean → inherited key = none → ∃ e1, e.off key f context o = .ok e1 ∧
      e1.records key = (e.records key).eraseP (fun l =>
        l.listener == f && (context == .undefined || l.context.strictEq context) && l.once) ∧
      (e1.records key).filter (fun l => !l.once) =
        (e.records key).filter (fun l => !l.once)) := by
  have hrm : e.removeListener key f context o =
      e.removeListener key f context (.bool true) := by
    cases e with
    | lazy => rfl
    | fast s => simp only [Emitter.removeListener, removeListener_supplied s key f context ho]
  refine ⟨by rw [Emitter.off_eq_removeListener, Emitter.off_eq_removeListener, hrm], hrm, ?_⟩
  intro hc hk
  obtain ⟨e1, h1, _, hrec, _⟩ := Emitter.removed_clean hc hk f context (.bool true)
  have hp : (fun l : Listener => l.matches f context (.bool true)) =
      (fun l => l.listener == f && (context == .undefined || l.context.strictEq context)
        && l.once) := by
    funext l
    have h2 : (Val.bool true == Val.undefined) = false := by decide
    simp only [Listener.matches, h2, Bool.false_or]
  rw [hp] at hrec
  refine ⟨e1, by rw [Emitter.off_eq_removeListener, hrm, h1], hrec, ?_⟩
  rw [hrec]
  apply filter_eraseP_of_imp
  intro l hl
  simp only [Bool.and_eq_true] at hl
  simp [hl.2]

/-- Witness for C36, on the channel `x` of `sampleMixed` (`f1` registered by
`on`, `f2` by `once`): `off('x', f1, undefined, false)` removes nothing, and
`off('x', f2, undefined, false)` removes the `once` record. -/
theorem C36_supplied_once_argument_restricts_witness :
    Val.bool false ≠ .undefined ∧
    sampleMixed.off (.str "x") 1 .undefined (.bool false) =
      sampleMixed.off (.str "x") 1 .undefined (.bool true) ∧
    sampleMixed.off (.str "x") 1 .undefined (.bool false) = .ok sampleMixed ∧
    (sampleMixed.off (.str "x") 2 .undefined (.bool false)).map
      (fun e1 => e1.records (.str "x")) = .ok [⟨1, .self, false⟩] ∧
    (sampleMixed.off (.str "x") 1 .undefined .undefined).map
      (fun e1 => e1.records (.str "x")) = .ok [⟨2, .obj 0, true⟩] :=
  ⟨by decide,
    (C36_supplied_once_argument_restricts sampleMixed (.str "x") 1 .undefined (.bool false)
      (by decide)).1,
    rfl, rfl, rfl⟩

/-- The result of `eventNames()` is a function of the keys of the event set in
their order of creation. -/
theorem eventNames_of_channels {e e1 : Emitter} (h : e1.channels = e.channels) :
    e1.eventNames = e.eventNames := by
  have key : ∀ x : Emitter, x.eventNames =
      (sortIndexed (indexed x.channels)).map Prod.snd ++ x.channels.filter Key.isName
        ++ x.channels.filter Key.isSymbol := by
    intro x
    cases x with
    | lazy => rfl
    | fast s =>
      simp [Emitter.eventNames, Emit.eventNames, objectKeys, ownPropertySymbols,
        Emitter.channels]
  rw [key e1, key e, h]

/-- A removal on a channel of two or more records assigns to the slot that is
there: the keys of the event set and the counter stay as they are. -/
theorem removeListener_keeps_keys {s : Fast} (hc : s.Clean) {key : Key}
    (hk : inherited key = none) (h2 : 2 ≤ (s.records key).length) (f : Nat)
    (context once : Val) :
    ∃ s1, FastEmit.removeListener s key f context once = .ok s1 ∧
      s1.events.map Prod.fst = s.events.map Prod.fst ∧ s1.count = s.count := by
  rcases hc.get_cases hk with ⟨_, _, hrec⟩ | ⟨l, _, _, hrec, _⟩ |
    ⟨rs, hg, hown, hrec, _, _⟩
  · rw [hrec] at h2; simp at h2
  · rw [hrec] at h2; simp at h2
  · have hscan := removeScan_records context once f rs
    generalize rs.eraseP (fun l => l.matches f context once) = rs1 at hscan
    match rs1, hscan with
    | [r], hscan =>
      refine ⟨⟨put s.events key (.record r), s.count⟩, ?_, keys_put_of_own _ hown, rfl⟩
      simp [-List.map_map, FastEmit.removeListener, hg, Handler.listener?, Handler.elems,
        hscan, set_of_plain _ hk, Except.map, Item.toHandler]
    | [], hscan =>
      refine ⟨⟨put s.events key (.arr []), s.count⟩, ?_, keys_put_of_own _ hown, rfl⟩
      simp [-List.map_map, FastEmit.removeListener, hg, Handler.listener?, Handler.elems,
        hscan, set_of_plain _ hk, Except.map]
    | r1 :: r2 :: rest, hscan =>
      refine ⟨⟨put s.events key (.arr ((r1 :: r2 :: rest).map Item.record)), s.count⟩,
        ?_, keys_put_of_own _ hown, rfl⟩
      simp [-List.map_map, FastEmit.removeListener, hg, Handler.listener?, Handler.elems,
        hscan, set_of_plain _ hk, Except.map]

/-- C31: in every well-formed state, for a key `k` whose channel holds a
listener, a further registration on `k` through any of the five methods leaves
`eventNames()` as it was, the same keys at the same positions; and when the
channel holds two or more listeners so does `off`/`removeListener` on `k`,
whether it removes one or none. -/
theorem C31_mutation_keeps_the_enumeration (e : Emitter) (hc : e.Clean) (key : Key)
    (hne : e.records key ≠ []) :
    (∀ g : Registration, g.event = key →
      ∃ e1, e.perform g = .ok e1 ∧ e1.eventNames = e.eventNames ∧
        e1.channels = e.channels) ∧
    (2 ≤ (e.records key).length → ∀ f context once,
      ∃ e1, e.off key f context once = .ok e1 ∧ e.removeListener key f context once = .ok e1 ∧
        e1.eventNames = e.eventNames ∧ e1.channels = e.channels) := by
  have hk := Emitter.plain_of_records_ne_nil hc hne
  cases e with
  | lazy => exact absurd rfl hne
  | fast s =>
    have hcs : s.Clean := hc
    have hmem : key ∈ (Emitter.fast s).channels := by
      by_contra hnot
      have hown := (own_eq_none_iff s.events key).2 hnot
      exact hne ((hcs.records_eq_nil_iff hk).2 hown)
    refine ⟨fun g hg => ?_, fun h2 f context once => ?_⟩
    · subst hg
      obtain ⟨e1, h1, _, _, _⟩ := Emitter.perform_clean hc g hk
      have hch := channels_perform h1
      rw [if_pos hmem] at hch
      exact ⟨e1, h1, eventNames_of_channels hch, hch⟩
    · obtain ⟨s1, h1, hkeys, _⟩ := removeListener_keeps_keys hcs hk h2 f context once
      have hch : (Emitter.fast s1).channels = (Emitter.fast s).channels := hkeys
      refine ⟨.fast s1, ?_, ?_, eventNames_of_channels hch, hch⟩
      · simp [Emitter.off, h1, Except.map]
      · simp [Emitter.removeListener, h1, Except.map]

theorem sampleTwoChannels_clean : sampleTwoChannels.Clean :=
  ⟨by decide, by decide, by decide, by decide⟩

/-- Witness for C31, on the channel `x` of `sampleTwoChannels`, created before
the channel `y`: after `prependListener('x', f9)` and after `off('x', f1)` the
enumeration is still `x`, `y`. -/
theorem C31_mutation_keeps_the_enumeration_witness :
    sampleTwoChannels.Clean ∧ sampleTwoChannels.records (.str "x") ≠ [] ∧
    sampleTwoChannels.eventNames = [.str "x", .str "y"] ∧
    (∃ e1, sampleTwoChannels.perform ⟨.prependListener, .str "x", 9, .undefined⟩ = .ok e1 ∧
      e1.eventNames = sampleTwoChannels.eventNames ∧
      e1.channels = sampleTwoChannels.channels) ∧
    (sampleTwoChannels.off (.str "x") 1 .undefined .undefined).map Emitter.eventNames =
      .ok [.str "x", .str "y"] :=
  ⟨sampleTwoChannels_clean, by decide, rfl,
    (C31_mutation_keeps_the_enumeration sampleTwoChannels sampleTwoChannels_clean (.str "x")
      (by decide)).1 ⟨.prependListener, .str "x", 9, .undefined⟩ rfl,
    rfl⟩

/-- One emission in a clean state when the listener of the record `l` throws
and those of the records before it do not: the state left is clean, `emit` ends
with the error, and the channel holds the records before `l` that are not
`once`, then `l` and the records after it (nothing, when `l` was a `once`
record alone on the channel). -/
theorem Emitter.emit_throw_clean (throws : Nat → Bool) {e : Emitter} (hc : e.Clean)
    {key : Key} (args : List Val) {before after : List Listener} {l : Listener}
    (hrec : e.records key = before ++ l :: after)
    (hbefore : ∀ x ∈ before, throws x.listener = false) (hl : throws l.listener = true) :
    (e.emit throws key args).state.Clean ∧
    (e.emit throws key args).outcome = .threw l.listener ∧
    (e.emit throws key args).state.records key =
      before.filter (fun x => !x.once)
        ++ (if before = [] ∧ after = [] ∧ l.once = true then [] else l :: after) := by
  have hk : inherited key = none :=
    Emitter.plain_of_records_ne_nil hc (by rw [hrec]; simp)
  cases e with
  | lazy => simp [Emitter.records] at hrec
  | fast s =>
    simp only [Emitter.records] at hrec
    have hc0 : s.Clean := hc
    rcases Fast.Clean.get_cases hc0 hk with ⟨_, _, h0⟩ | ⟨l1, hg, _, h1, _⟩ |
      ⟨rs, hg, _, hrs, h2, hall⟩
    · rw [h0] at hrec
      simp at hrec
    · rw [h1] at hrec
      have hb : before = [] := by
        cases before with
        | nil => rfl
        | cons b bs => simp at hrec
      subst hb
      simp only [List.nil_append, List.cons.injEq] at hrec
      obtain ⟨rfl, hafter⟩ := hrec
      have ha : after = [] := hafter.symm
      subst ha
      by_cases ho : l1.once = true
      · obtain ⟨s1, hrm, hc1, hrec1, _⟩ :=
          removeListener_clean hc0 hk l1.listener .undefined (.bool true)
        have hm : l1.matches l1.listener .undefined (.bool true) = true := by
          simp [Listener.matches, ho]
        rw [h1] at hrec1
        simp only [Emitter.emit, Emitter.records, FastEmit.emit, hg, Handler.listener?, ho,
          if_true, hrm, hl]
        refine ⟨hc1, trivial, ?_⟩
        rw [hrec1]
        simp [hm]
      · have ho1 : l1.once = false := by simpa using ho
        simp only [Emitter.emit, Emitter.records, FastEmit.emit, hg, Handler.listener?, ho1,
          Bool.false_eq_true, if_false, hl, if_true]
        refine ⟨hc0, trivial, ?_⟩
        simp [h1]
    · rw [hrs] at hrec
      subst hrec
      have hall1 : before.all Listener.sound = true := by
        rw [List.all_eq_true] at hall ⊢
        intro x hx
        exact hall x (List.mem_append_left _ hx)
      obtain ⟨h3, h4, _, h6⟩ := emitLoop_clean_throw throws hk args l after hl before [] s hc0
        (by simpa using hrs) (by simp) hall1 hbefore
      have hnot : ¬(before = [] ∧ after = [] ∧ l.once = true) := by
        rintro ⟨hb, ha, _⟩
        subst hb ha
        simp at h2
      simp only [Emitter.emit, Emitter.records, FastEmit.emit, hg, Handler.listener?,
        Handler.elems, hnot, if_false]
      exact ⟨h3, h6, by simpa using h4⟩

/-- In a well-formed state, when the callback of a `once` record `l`
throws during `emit` (and no callback before it does), the error leaves
`emit`; if `l` was the only record of the channel it is already removed, and
`listenerCount` is 0 afterwards; if the channel held two or more records, `l`
is still registered afterwards, behind the records before it that are not
`once` and before the records after it. -/
theorem throwing_once_listener_and_slot_shape_clean (throws : Nat → Bool) (e : Emitter)
    (hc : e.Clean) (key : Key) (args : List Val) (l : Listener) (ho : l.once = true)
    (hl : throws l.listener = true) :
    (e.records key = [l] →
      (e.emit throws key args).outcome = .threw l.listener ∧
      (e.emit throws key args).state.records key = [] ∧
      (e.emit throws key args).state.listenerCount key = .num 0) ∧
    (∀ before after, e.records key = before ++ l :: after → 2 ≤ (e.records key).length →
      (∀ x ∈ before, throws x.listener = false) →
      (e.emit throws key args).outcome = .threw l.listener ∧
      l ∈ (e.emit throws key args).state.records key ∧
      (e.emit throws key args).state.records key =
        before.filter (fun x => !x.once) ++ l :: after ∧
      (e.emit throws key args).state.listenerCount key =
        .num ((before.filter (fun x => !x.once)).length + 1 + after.length)) := by
  refine ⟨fun hrec => ?_, fun before after hrec h2 hbefore => ?_⟩
  · have hk : inherited key = none :=
      Emitter.plain_of_records_ne_nil hc (by rw [hrec]; simp)
    have hrec1 : e.records key = [] ++ l :: [] := by simpa using hrec
    obtain ⟨h1, h3, h4⟩ :=
      Emitter.emit_throw_clean throws hc args hrec1 (fun x hx => nomatch hx) hl
    have h5 : (e.emit throws key args).state.records key = [] := by
      rw [h4]; simp [ho]
    refine ⟨h3, h5, ?_⟩
    rw [listenerCount_clean h1 hk, h5]
    rfl
  · have hk : inherited key = none :=
      Emitter.plain_of_records_ne_nil hc (by rw [hrec]; simp)
    obtain ⟨h1, h3, h4⟩ := Emitter.emit_throw_clean throws hc args hrec hbefore hl
    have hnot : ¬(before = [] ∧ after = [] ∧ l.once = true) := by
      rintro ⟨hb, ha, _⟩
      subst hb ha
      rw [hrec] at h2
      simp at h2
    rw [if_neg hnot] at h4
    refine ⟨h3, by rw [h4]; simp, h4, ?_⟩
    rw [listenerCount_clean h1 hk, h4]
    congr 1
    simp only [List.length_append, List.length_cons]
    push_cast
    omega

theorem sampleSingleOnce_clean : sampleSingleOnce.Clean :=
  ⟨by decide, by decide, by decide, by decide⟩

/-- An instance: the `once` record of `f1` alone on the channel `x` of
`sampleSingleOnce` is gone after the failed `emit`; the `once` record of `f2`
on the channel `x` of `sampleMixed`, second of two, is still there. -/
theorem throwing_once_listener_and_slot_shape_clean_instance :
    sampleSingleOnce.Clean ∧ (Listener.mk 1 (.obj 0) true).once = true ∧
    (fun f => decide (f = 1)) (Listener.mk 1 (.obj 0) true).listener = true ∧
    sampleSingleOnce.records (.str "x") = [⟨1, .obj 0, true⟩] ∧
    ((sampleSingleOnce.emit (fun f => decide (f = 1)) (.str "x") []).outcome = .threw 1 ∧
      (sampleSingleOnce.emit (fun f => decide (f = 1)) (.str "x") []).state.records
        (.str "x") = [] ∧
      (sampleSingleOnce.emit (fun f => decide (f = 1)) (.str "x") []).state.listenerCount
        (.str "x") = .num 0) ∧
    (sampleMixed.emit (fun f => decide (f = 2)) (.str "x") []).outcome = .threw 2 ∧
    (sampleMixed.emit (fun f => decide (f = 2)) (.str "x") []).state.records (.str "x") =
      [⟨1, .self, false⟩, ⟨2, .obj 0, true⟩] :=
  ⟨sampleSingleOnce_clean, rfl, rfl, rfl,
    (throwing_once_listener_and_slot_shape_clean (fun f => decide (f = 1)) sampleSingleOnce
      sampleSingleOnce_clean (.str "x") [] ⟨1, .obj 0, true⟩ rfl rfl).1 rfl,
    rfl, rfl⟩

/-- C33 (the code departs from the claim): after `on('a', f1)` and
`on('b', f2)` the counter is 2; `removeAllListeners('constructor')` finds the
inherited function under `constructor`, lowers the counter to 1 and deletes
nothing, so the counter is below the two channels that hold listeners; then
`off('a', f1)` brings the counter to 0 and replaces the whole event set, and
the listener of `b` is gone. -/
theorem C33_counter_falls_below_the_channels :
    ∃ e1 e2, Emitter.lazy.on (.str "a") 1 .undefined = .ok e1 ∧
      e1.on (.str "b") 2 .undefined = .ok e2 ∧ e2.count = some 2 ∧
      (e2.removeAllListeners (some (.str "constructor"))).count = some 1 ∧
      (e2.removeAllListeners (some (.str "constructor"))).eventNames = [.str "a", .str "b"] ∧
      (e2.removeAllListeners (some (.str "constructor"))).listeners (.str "b") = .ok [.fn 2] ∧
      ∃ e3, (e2.removeAllListeners (some (.str "constructor"))).off (.str "a") 1 .undefined
          .undefined = .ok e3 ∧
        e3.listeners (.str "b") = .ok [] ∧ e3.listenerCount (.str "b") = .num 0 ∧
        e3.eventNames = [] :=
  ⟨_, _, rfl, rfl, rfl, rfl, rfl, rfl, _, rfl, rfl, rfl, rfl⟩

/-- In a clean state the counter is at least the number of channels, and a
removal at a key that names no inherited property, by `off` or by
`removeAllListeners(key)` with a truthy key, keeps the records of every other
channel. -/
theorem counter_bounds_channels_clean {e : Emitter} (hc : e.Clean) {key : Key}
    (hk : inherited key = none) :
    (∀ n, e.count = some n → (e.channels.length : Int) ≤ n) ∧
    (∀ f context once, ∃ e1, e.off key f context once = .ok e1 ∧ e1.Clean ∧
      ∀ j, j ≠ key → e1.records j = e.records j) ∧
    (key.truthy = true → (e.removeAllListeners (some key)).Clean ∧
      ∀ j, j ≠ key → (e.removeAllListeners (some key)).records j = e.records j) := by
  refine ⟨fun n hn => ?_, fun f context once => ?_, fun ht => ?_⟩
  · cases e with
    | lazy => cases hn
    | fast s =>
      have h1 : s.count = n := by simpa [Emitter.count] using hn
      have h2 : (s.events.length : Int) ≤ s.count := hc.counted
      simpa [Emitter.channels, h1] using h2
  · obtain ⟨e1, h1, hc1, _, hother⟩ := Emitter.removed_clean hc hk f context once
    exact ⟨e1, by rw [Emitter.off_eq_removeListener, h1], hc1, hother⟩
  · obtain ⟨h1, _, h3⟩ := removeAllListeners_clean hc hk ht
    exact ⟨h1, h3⟩

/-- C34 (the code departs from the claim): after `on('a', f1)`,
`listenerCount('hasOwnProperty')` is 1 while `listeners('hasOwnProperty')`
throws, and `listenerCount('constructor')` is 0 while `emit('constructor')`
returns true. -/
theorem C34_count_and_listeners_disagree :
    ∃ e1, Emitter.lazy.on (.str "a") 1 .undefined = .ok e1 ∧
      e1.listenerCount (.str "hasOwnProperty") = .num 1 ∧
      e1.listeners (.str "hasOwnProperty") = .error .typeError ∧
      e1.listenerCount (.str "constructor") = .num 0 ∧
      e1.listeners (.str "constructor") = .error .typeError ∧
      (e1.emit noThrow (.str "constructor") []).outcome = .returned true :=
  ⟨_, rfl, rfl, rfl, rfl, rfl, rfl⟩

/-- In a clean state, at a key that names no inherited property,
`listenerCount` is the length of `listeners`, and it is 0 exactly when `emit`,
with listeners that do not throw, returns false. -/
theorem count_listeners_emit_clean (throws : Nat → Bool) {e : Emitter} (hc : e.Clean)
    {key : Key} (hk : inherited key = none) (args : List Val)
    (hnt : ∀ l ∈ e.records key, throws l.listener = false) :
    ∃ fs, e.listeners key = .ok fs ∧ e.listenerCount key = .num fs.length ∧
      (fs.length = 0 ↔ (e.emit throws key args).outcome = .returned false) := by
  refine ⟨(e.records key).map (fun l => Val.fn l.listener), listeners_clean hc hk, ?_, ?_⟩
  · rw [listenerCount_clean hc hk]; simp
  · rw [Emitter.emit_outcome_clean throws hc hk args hnt]
    cases e.records key <;> simp

/-! ## Claims that hold in well-formed states only -/

/-- C3 (the code departs from the claim): after `on('constructor', f7)` on a
fresh emitter the record of `f7` is registered on `constructor`, and
`listeners('constructor')` is `[undefined, f7]`; `emit('constructor')` reads
the inherited function `EventSet` as the first element of the array, throws a
`TypeError` and invokes nothing. -/
theorem C3_emit_constructor_invokes_no_record :
    ∃ e1, Emitter.lazy.on (.str "constructor") 7 .undefined = .ok e1 ∧
      e1.entry (.str "constructor") = some (.arr [.fn 0, .record ⟨7, .self, false⟩]) ∧
      e1.records (.str "constructor") = [⟨7, .self, false⟩] ∧
      e1.listeners (.str "constructor") = .ok [.undefined, .fn 7] ∧
      (e1.emit noThrow (.str "constructor") []).outcome = .failed .typeError ∧
      (e1.emit noThrow (.str "constructor") []).calls = [] :=
  ⟨_, rfl, rfl, rfl, rfl, rfl, rfl⟩

/-- C5 (the code departs from the claim): after `once('constructor', f7)` on a
fresh emitter the only record of the channel is the `once` record of `f7`;
the first `emit('constructor')` throws a `TypeError` instead of returning true,
`f7` is not invoked and stays registered, and `listenerCount` is 2
afterwards. -/
theorem C5_once_on_constructor_is_not_fired :
    ∃ e1, Emitter.lazy.once (.str "constructor") 7 .undefined = .ok e1 ∧
      e1.records (.str "constructor") = [⟨7, .self, true⟩] ∧
      (e1.emit noThrow (.str "constructor") []).outcome = .failed .typeError ∧
      (e1.emit noThrow (.str "constructor") []).calls = [] ∧
      (e1.emit noThrow (.str "constructor") []).state.records (.str "constructor") =
        [⟨7, .self, true⟩] ∧
      (e1.emit noThrow (.str "constructor") []).state.listenerCount (.str "constructor") =
        .num 2 :=
  ⟨_, rfl, rfl, rfl, rfl, rfl, rfl⟩

/-- C6 (the code departs from the claim): after `on('constructor', f7)` and
`once('constructor', f8)` the channel holds a record that is not `once` and a
`once` record; one `emit('constructor')` throws a `TypeError` before any call,
and the `once` record of `f8` is still on the channel. -/
theorem C6_once_record_stays_on_constructor :
    ∃ e1 e2, Emitter.lazy.on (.str "constructor") 7 .undefined = .ok e1 ∧
      e1.once (.str "constructor") 8 .undefined = .ok e2 ∧
      e2.records (.str "constructor") = [⟨7, .self, false⟩, ⟨8, .self, true⟩] ∧
      (e2.emit noThrow (.str "constructor") []).outcome = .failed .typeError ∧
      (e2.emit noThrow (.str "constructor") []).calls = [] ∧
      (e2.emit noThrow (.str "constructor") []).state.records (.str "constructor") =
        [⟨7, .self, false⟩, ⟨8, .self, true⟩] :=
  ⟨_, _, rfl, rfl, rfl, rfl, rfl, rfl⟩

/-- C14 (the code departs from the claim): after `on('constructor', f7)` the
channel holds exactly the record of `f7`; `off('constructor', f7)` matches it
and stores the one element left of the array, the inherited function
`EventSet`, as an own property: the key is still in `eventNames()` and
`listeners('constructor')` throws a `TypeError`. -/
theorem C14_removal_leaves_constructor_listed :
    ∃ e1 e2, Emitter.lazy.on (.str "constructor") 7 .undefined = .ok e1 ∧
      e1.records (.str "constructor") = [⟨7, .self, false⟩] ∧
      e1.eventNames = [.str "constructor"] ∧
      e1.off (.str "constructor") 7 .undefined .undefined = .ok e2 ∧
      e2.entry (.str "constructor") = some (.fn 0) ∧
      e2.eventNames = [.str "constructor"] ∧
      e2.listeners (.str "constructor") = .error .typeError ∧
      e2.listenerCount (.str "constructor") = .num 0 :=
  ⟨_, _, rfl, rfl, rfl, rfl, rfl, rfl, rfl, rfl⟩

/-- C20 (the code departs from the claim): after
`prependOnceListener('constructor', f1)` on a fresh emitter the channel holds
exactly the `once` record of `f1`, stored in an array with the inherited
function `EventSet`; `emit('constructor')` takes the multiple listener path
and invokes `f1` with the record still registered: inside the callback
`listenerCount('constructor')` is 2, and the `emit('constructor')` made there
invokes `f1` again, and so on until the fuel is spent. -/
theorem C20_once_record_on_constructor_is_invoked_again :
    ∃ e1, Emitter.lazy.prependOnceListener (.str "constructor") 1 .undefined = .ok e1 ∧
      e1.entry (.str "constructor") = some (.arr [.record ⟨1, .self, true⟩, .fn 0]) ∧
      e1.records (.str "constructor") = [⟨1, .self, true⟩] ∧
      (e1.emitRun sampleConstructorBody 7 (.str "constructor") []).log =
        [.called ⟨1, .self, []⟩, .counted (.str "constructor") (.num 2),
          .called ⟨1, .self, []⟩, .counted (.str "constructor") (.num 2)] ∧
      (e1.emitRun sampleConstructorBody 7 (.str "constructor") []).status = .outOfFuel ∧
      (e1.emitRun sampleConstructorBody 7 (.str "constructor") []).state.records
        (.str "constructor") = [⟨1, .self, true⟩] :=
  ⟨_, rfl, rfl, rfl, rfl, rfl, rfl⟩

/-- C22 (the code departs from the claim): on the channel `x` holding the
records of `f1` and `f2`, with `f1` calling `prependListener('x', f3)` and then
`off('x', f2)`, the call `emit('x')` invokes `f1` twice: `unshift` moves the
elements of the array the loop runs over, and the removal stores another
array.  On the channel `constructor` after `prependListener('constructor', f1)`
and `on('constructor', f2)`, with `f1` calling `off('constructor', f1)`, the
call `emit('constructor')` invokes `f1`, throws a `TypeError` at the inherited
function `EventSet` and skips `f2`. -/
theorem C22_prepend_and_removal_invoke_twice :
    samplePair.records (.str "x") = [⟨1, .self, false⟩, ⟨2, .self, false⟩] ∧
    (samplePair.emitRun samplePrependRemoving 20 (.str "x") []).status = .done ∧
    (samplePair.emitRun samplePrependRemoving 20 (.str "x") []).log =
      [.called ⟨1, .self, []⟩, .called ⟨1, .self, []⟩, .called ⟨2, .self, []⟩,
        .emitted (.str "x") true] ∧
    ∃ e1 e2, Emitter.lazy.prependListener (.str "constructor") 1 .undefined = .ok e1 ∧
      e1.on (.str "constructor") 2 .undefined = .ok e2 ∧
      e2.records (.str "constructor") = [⟨1, .self, false⟩, ⟨2, .self, false⟩] ∧
      (e2.emitRun sampleSelfRemoving 20 (.str "constructor") []).status =
        .failed .typeError ∧
      (e2.emitRun sampleSelfRemoving 20 (.str "constructor") []).log =
        [.called ⟨1, .self, []⟩] :=
  ⟨rfl, rfl, rfl, _, _, rfl, rfl, rfl, rfl, rfl⟩

/-- C35 (the code departs from the claim): after
`prependOnceListener('constructor', f7)` on a fresh emitter the `once` record
of `f7` is the only listener of the channel; it is stored in an array with the
inherited function `EventSet`, so `emit('constructor')` takes the multiple
listener path: `f7` throws before any removal, stays registered, and
`listenerCount('constructor')` is 2 after the failed `emit`. -/
theorem C35_throwing_once_listener_on_constructor_stays :
    ∃ e1, Emitter.lazy.prependOnceListener (.str "constructor") 7 .undefined = .ok e1 ∧
      e1.records (.str "constructor") = [⟨7, .self, true⟩] ∧
      (e1.emit (fun _ => true) (.str "constructor") []).outcome = .threw 7 ∧
      (e1.emit (fun _ => true) (.str "constructor") []).calls = [⟨7, .self, []⟩] ∧
      (e1.emit (fun _ => true) (.str "constructor") []).state.records (.str "constructor") =
        [⟨7, .self, true⟩] ∧
      (e1.emit (fun _ => true) (.str "constructor") []).state.listenerCount
        (.str "constructor") = .num 2 :=
  ⟨_, rfl, rfl, rfl, rfl, rfl, rfl⟩

end EmitJs
